import Mathlib

/-!
# SchemaTreeRecommender: a shallow embedding and its verification

The development follows the Go sources of the repository:

* `src/dataTypes.go`: property records (`iItem`), the property dictionary
  (`propMap`) and property lists (`iList`);
* `src/schematree/schemaTree.go`: the schema tree (`SchemaTree`), `Insert`,
  `updateSortOrder`, `Support` and the two-pass build.

Pointers are addresses: a `*IItem` is the index of the record in the dictionary
(records are only ever created by `propMap.get`, which stores them in the map
under their own IRI), a `*SchemaNode` is an address in the node heap of the tree.
Unsigned machine integers are natural numbers reduced modulo `2 ^ 16` or `2 ^ 32`
wherever the source converts or increments them.
-/

/-! ## Machine integers -/

/-- Conversion `uint16(n)`. -/
def uint16 (n : Nat) : Nat := n % 2 ^ 16

/-- Conversion `uint32(n)`, also the result of 32-bit unsigned arithmetic. -/
def uint32 (n : Nat) : Nat := n % 2 ^ 32

/-! ## `src/dataTypes.go` -/

/-- The struct `iItem` (`IItem` in package `schematree`): IRI, total number of
occurrences, sort order and the head of the occurrence chain. -/
structure IItem where
  Str : String
  TotalCount : Nat
  SortOrder : Nat
  traversalPointer : Option Nat
deriving DecidableEq

instance : Inhabited IItem := ⟨⟨"", 0, 0, none⟩⟩

/-- The method `iItem.increment`: `atomic.AddUint32(&p.TotalCount, 1)`. -/
def IItem.increment (p : IItem) : IItem :=
  { p with TotalCount := uint32 (p.TotalCount + 1) }

/-- The type `propMap`, `map[string]*iItem`: the records in order of allocation;
the key of a record is its `Str`, a pointer to a record is its index. -/
abbrev propMap := List IItem

/-- Dereference of a `*iItem`. -/
def propMap.item (m : propMap) (p : Nat) : IItem := m.getD p default

/-- The map lookup `(*m)[iri]`: the pointer stored under the key `iri`, if any. -/
def propMap.find : propMap → String → Option Nat
  | [], _ => none
  | it :: m, iri => if it.Str = iri then some 0 else (propMap.find m iri).map (· + 1)

/-- The method `propMap.get`: returns the map after the call and the pointer. -/
def propMap.get (m : propMap) (iri : String) : propMap × Nat :=
  match propMap.find m iri with
  | some item => (m, item)
  | none =>
    (m ++ [{ Str := iri, TotalCount := 0, SortOrder := uint16 m.length,
             traversalPointer := none }], m.length)

/-- The type `iList` (`IList` in package `schematree`), `[]*iItem`. -/
abbrev IList := List Nat

/-- Go's `sort.Slice(data, less)`. The library leaves the algorithm and the order of
elements that compare equal open; the model is the stable insertion sort that the
library runs on short slices. -/
def sortSlice {α : Type} (less : α → α → Bool) (data : List α) : List α :=
  data.insertionSort (fun a b => less b a = false)

/-- The method `iList.sort` (`IList.Sort`): ascending in `SortOrder`. -/
def iList.sort (m : propMap) (l : IList) : IList :=
  sortSlice (fun i j => decide ((propMap.item m i).SortOrder < (propMap.item m j).SortOrder)) l

/-- One iteration, at index `i`, of the deduplication loop of `sortAndDeduplicate`;
the state is the slice and the index `j`. -/
def dedupStep (st : IList × Nat) (i : Nat) : IList × Nat :=
  if st.1[st.2]? = st.1[i]? then st
  else ((st.1.set i (st.1.getD (st.2 + 1) 0)).set (st.2 + 1) (st.1.getD i 0), st.2 + 1)

/-- The method `iList.sortAndDeduplicate`. The slice has no spare capacity, so the
final reslicing `(*l)[:j+1]` is out of range (`none`) when `j + 1` exceeds the length. -/
def iList.sortAndDeduplicate (m : propMap) (l : IList) : Option IList :=
  let l := iList.sort m l
  let st := (List.range' 1 (l.length - 1)).foldl dedupStep (l, 0)
  if st.2 + 1 ≤ st.1.length then some (st.1.take (st.2 + 1)) else none

/-! ## `src/schematree/schemaTree.go` -/

/-- Modelled from the spec: the struct `SchemaNode`, whose declaration is not among the
sources (spec, Data model: property, support, parent, children as a mapping from
property to child, next node in the occurrence chain). -/
structure SchemaNode where
  ID : Nat
  parent : Option Nat
  Children : List (Nat × Nat)
  nextSameID : Option Nat
  Support : Nat
deriving DecidableEq

instance : Inhabited SchemaNode := ⟨⟨0, none, [], none, 0⟩⟩

/-- The struct `SchemaTree`. The nodes live in `heap`, the store that maps an address to
the node allocated there; `size` is the number of allocated nodes, the next free address.
The field `Root SchemaNode` is the node at address `0`. -/
structure SchemaTree where
  PropMap : propMap
  heap : Nat → SchemaNode
  size : Nat
  MinSup : Nat
  Typed : Bool

/-- The field `tree.Root`. -/
def SchemaTree.Root (tree : SchemaTree) : SchemaNode := tree.heap 0

/-- Modelled from the spec: `newRootNode`, not among the sources. The root carries the
sentinel property `"root"`, a record of the dictionary; it has no parent, no children
and support `0`. -/
def newRootNode (pMap : propMap) : propMap × SchemaNode :=
  let r := propMap.get pMap "root"
  (r.1, { ID := r.2, parent := none, Children := [], nextSameID := none, Support := 0 })

/-- The function `New`. -/
def New (typed : Bool) (minSup : Nat) : SchemaTree :=
  let minSup := if minSup < 1 then 1 else minSup
  let r := newRootNode []
  { PropMap := r.1, heap := Function.update (fun _ => default) 0 r.2, size := 1,
    MinSup := minSup, Typed := typed }

/-- Modelled from the spec: the lookup in the mapping `children` of a node, from property
to child. -/
def childFor : List (Nat × Nat) → Nat → Option Nat
  | [], _ => none
  | (p, c) :: rest, term => if p = term then some c else childFor rest term

/-- Modelled from the spec: `SchemaNode.incrementSupport`, not among the sources
(spec 4.2: atomic +1, on a `uint32`). -/
def SchemaTree.incrementSupport (tree : SchemaTree) (node : Nat) : SchemaTree :=
  { tree with
    heap := Function.update tree.heap node
      { tree.heap node with Support := uint32 ((tree.heap node).Support + 1) } }

/-- Modelled from the spec: `SchemaNode.getOrCreateChild`, not among the sources
(spec 4.2: returns the existing child keyed by the property, else creates a fresh node,
links it into the property's occurrence chain at the head, and sets its parent). The
fresh node has support `0`: `Insert` increments it right after. -/
def SchemaTree.getOrCreateChild (tree : SchemaTree) (node term : Nat) : SchemaTree × Nat :=
  match childFor (tree.heap node).Children term with
  | some child => (tree, child)
  | none =>
    let newChild : SchemaNode :=
      { ID := term, parent := some node, Children := [],
        nextSameID := (propMap.item tree.PropMap term).traversalPointer, Support := 0 }
    let heap1 := Function.update tree.heap tree.size newChild
    let heap2 := Function.update heap1 node
      { heap1 node with Children := (heap1 node).Children ++ [(term, tree.size)] }
    ({ tree with
       PropMap := tree.PropMap.modify (fun it => { it with traversalPointer := some tree.size }) term,
       heap := heap2, size := tree.size + 1 }, tree.size)

/-- Modelled from the spec: the struct `SubjectSummary`, whose declaration is not among
the sources (spec 6: only the key set of the map `properties` is used by the tree). The
field holds the keys, pointers to records, in the order in which `Insert` iterates the
map; a map has no key twice. -/
structure SubjectSummary where
  Properties : List Nat
  nodup : Properties.Nodup

/-- The body of the loop of `Insert`; the state is the tree and the pointer `node`. -/
def SchemaTree.insertStep (st : SchemaTree × Nat) (prop : Nat) : SchemaTree × Nat :=
  let r := st.1.getOrCreateChild st.2 prop
  (r.1.incrementSupport r.2, r.2)

/-- The method `SchemaTree.Insert`. -/
def SchemaTree.Insert (tree : SchemaTree) (e : SubjectSummary) : SchemaTree :=
  let properties := iList.sort tree.PropMap e.Properties
  (properties.foldl SchemaTree.insertStep (tree.incrementSupport 0, 0)).1

/-- The comparison function of `updateSortOrder`: descending `TotalCount`, then
ascending IRI. Go compares the bytes of the strings; for the UTF-8 strings that the
model has, that is the lexicographic order of the code points. -/
def itemLess (m : propMap) (i j : Nat) : Bool :=
  if (propMap.item m i).TotalCount ≠ (propMap.item m j).TotalCount then
    decide ((propMap.item m i).TotalCount > (propMap.item m j).TotalCount)
  else decide ((propMap.item m i).Str.data < (propMap.item m j).Str.data)

/-- The assignment `v.SortOrder = i`. -/
def setSortOrder (m : propMap) (v i : Nat) : propMap :=
  m.modify (fun it => { it with SortOrder := i }) v

/-- The method `SchemaTree.updateSortOrder`, given the order in which the first `range`
loop iterates the map (Go leaves the iteration order of a map open). -/
def SchemaTree.updateSortOrderWith (tree : SchemaTree) (order : List Nat) : SchemaTree :=
  let iList := sortSlice (itemLess tree.PropMap) order
  { tree with
    PropMap := iList.enum.foldl (fun m (iv : Nat × Nat) => setSortOrder m iv.2 (uint32 iv.1))
      tree.PropMap }

/-- The method `SchemaTree.updateSortOrder`, the map iterated in order of allocation. -/
def SchemaTree.updateSortOrder (tree : SchemaTree) : SchemaTree :=
  tree.updateSortOrderWith (List.range tree.PropMap.length)

/-- Modelled from the spec: the walk up via `parent` of `prefixContains`, from a node to
the root: the properties of the nodes passed, the root excluded; `none` when the root is
not reached within `fuel` steps. -/
def SchemaTree.pathToRoot (tree : SchemaTree) : Nat → Nat → Option (List Nat)
  | 0, _ => none
  | fuel + 1, node =>
    match (tree.heap node).parent with
    | none => some []
    | some par => (tree.pathToRoot fuel par).map (fun rest => (tree.heap node).ID :: rest)

/-- Modelled from the spec: `SchemaNode.prefixContains`, not among the sources
(spec 4.2: starting from this node, walk up via parent and return true iff every
property in the sorted query appears on the path to root). The path is the one that is
in sort order: the sentinel root is not on it. A walk of more than `size` steps has run
into a cycle and does not return (`none`). -/
def SchemaTree.prefixContains (tree : SchemaTree) (node : Nat) (propertyPath : IList) :
    Option Bool :=
  (tree.pathToRoot tree.size node).map (fun path => propertyPath.all (fun p => decide (p ∈ path)))

/-- The loop of `Support` over the occurrence chain `term = term.nextSameID`; `none`
when the chain does not end within `fuel` nodes. -/
def SchemaTree.supportLoop (tree : SchemaTree) (properties : IList) :
    Nat → Option Nat → Nat → Option Nat
  | _, none, support => some support
  | 0, some _, _ => none
  | fuel + 1, some term, support =>
    match tree.prefixContains term properties with
    | none => none
    | some true =>
      tree.supportLoop properties fuel (tree.heap term).nextSameID
        (uint32 (support + (tree.heap term).Support))
    | some false => tree.supportLoop properties fuel (tree.heap term).nextSameID support

/-- The method `SchemaTree.Support` with a bound on the length of the chain walk. -/
def SchemaTree.SupportWithin (tree : SchemaTree) (fuel : Nat) (properties : IList) :
    Option Nat :=
  if properties.length = 0 then some tree.Root.Support
  else
    let properties := iList.sort tree.PropMap properties
    tree.supportLoop properties fuel
      (propMap.item tree.PropMap (properties.getD (properties.length - 1) 0)).traversalPointer 0

/-- The method `SchemaTree.Support`. A chain over the `size` nodes of the heap that does
not end within `size` steps is cyclic: the walk then does not return (`none`). -/
def SchemaTree.Support (tree : SchemaTree) (properties : IList) : Option Nat :=
  tree.SupportWithin tree.size properties

/-! ## Definitions used in the statements and proofs -/

/-- The sort order of the record behind a pointer. -/
def propMap.sortOrder (m : propMap) (p : Nat) : Nat := (propMap.item m p).SortOrder

/-- A dictionary of `65536` records, with the IRIs `""`, `"a"`, `"aa"`, ... and the sort
orders that `propMap.get` gave them. -/
def fullMap : propMap :=
  (List.range 65536).map (fun i => ⟨String.mk (List.replicate i 'a'), 0, i, none⟩)

/-- The invariant of the deduplication loop of `sortAndDeduplicate` after the iteration
at index `k`, over the sorted slice `s`: the tail of the slice is untouched, `j` points
at the last element seen, and the first `j + 1` elements are the elements seen so far,
strictly ascending. -/
def DedupInv (so : Nat → Nat) (s : IList) (k : Nat) (st : IList × Nat) : Prop :=
  st.1.length = s.length ∧ st.2 ≤ k ∧ (∀ i, k < i → st.1[i]? = s[i]?) ∧
  st.1[st.2]? = s[k]? ∧
  (st.1.take (st.2 + 1)).Pairwise (fun a b => so a < so b) ∧
  (∀ x, x ∈ st.1.take (st.2 + 1) ↔ x ∈ s.take (k + 1))

/-- The occurrences of a property among the nodes at the addresses below `n`, the root
excluded, newest first. -/
def SchemaTree.occurrences (tree : SchemaTree) (p : Nat) : Nat → List Nat
  | 0 => []
  | n + 1 =>
    if 0 < n ∧ (tree.heap n).ID = p then n :: tree.occurrences p n else tree.occurrences p n

/-- A tree on which no subject has been inserted yet: the root alone, with support `0`,
and no record with an occurrence chain. -/
def SchemaTree.IsFresh (tree : SchemaTree) : Prop :=
  tree.size = 1 ∧ (tree.heap 0).parent = none ∧ (tree.heap 0).Children = [] ∧
  (tree.heap 0).Support = 0 ∧ ∀ it ∈ tree.PropMap, it.traversalPointer = none

instance (tree : SchemaTree) : Decidable tree.IsFresh := by
  unfold SchemaTree.IsFresh
  infer_instance

/-- The trie invariant. `paths a` is the sequence of properties from the root to the
node at address `a`, and `T` lists the property sequences that `Insert` has walked so
far. Nodes are the root and one node per non-empty first part of a walked sequence, the
children mappings are the one-step extensions, and the support of a node counts the
walked sequences that pass through it (in 32-bit arithmetic). -/
structure TrieInv (tree : SchemaTree) (paths : Nat → List Nat) (T : List (List Nat)) :
    Prop where
  size_pos : 0 < tree.size
  root_path : paths 0 = []
  root_parent : (tree.heap 0).parent = none
  inj : ∀ a b, a < tree.size → b < tree.size → paths a = paths b → a = b
  parent : ∀ a, 0 < a → a < tree.size →
    ∃ b, b < a ∧ (tree.heap a).parent = some b ∧ paths a = paths b ++ [(tree.heap a).ID]
  children : ∀ b, b < tree.size → ∀ p c,
    childFor (tree.heap b).Children p = some c ↔ (c < tree.size ∧ paths c = paths b ++ [p])
  support : ∀ a, a < tree.size →
    (tree.heap a).Support = T.countP (fun s => decide (paths a <+: s)) % 2 ^ 32
  nodes : ∀ π, (∃ a, a < tree.size ∧ paths a = π) ↔ (π = [] ∨ ∃ s ∈ T, π <+: s)

/-- The part of a record that `Insert` leaves alone: IRI, total count and sort order. -/
def IItem.record (it : IItem) : String × Nat × Nat := (it.Str, it.TotalCount, it.SortOrder)

/-- The invariant of the occurrence chains: the chain of a record starts at the newest
node that carries the property, every node links to the next older one, and the
properties of the nodes are records of the dictionary. -/
structure ChainInv (tree : SchemaTree) : Prop where
  head : ∀ p, p < tree.PropMap.length →
    (propMap.item tree.PropMap p).traversalPointer = (tree.occurrences p tree.size).head?
  next : ∀ a, 0 < a → a < tree.size →
    (tree.heap a).nextSameID = (tree.occurrences (tree.heap a).ID a).head?
  valid : ∀ a, 0 < a → a < tree.size → (tree.heap a).ID < tree.PropMap.length

/-- The last element of the sorted query, which `Support` takes the occurrence chain of. -/
def lastSorted (m : propMap) (Q : IList) : Nat :=
  (iList.sort m Q).getD ((iList.sort m Q).length - 1) 0

/-- Whether a subject carries every property of a query. -/
def SubjectSummary.hasAll (Q : IList) (e : SubjectSummary) : Bool :=
  Q.all (fun q => decide (q ∈ e.Properties))

/-- The tree after the subjects have been inserted one after the other. -/
def SchemaTree.insertAll (tree : SchemaTree) (subjects : List SubjectSummary) : SchemaTree :=
  subjects.foldl SchemaTree.Insert tree

/-- The nodes of a tree, each as its property path from the root and its support. -/
def SchemaTree.nodeList (tree : SchemaTree) : List (Option (List Nat) × Nat) :=
  (List.range tree.size).map
    (fun a => ((tree.pathToRoot tree.size a).map List.reverse, (tree.heap a).Support))

/-- Interning of a list of IRIs with `propMap.get`, one after the other: the map after
the calls and the pointers returned. -/
def propMap.internAll : propMap → List String → propMap × List Nat
  | m, [] => (m, [])
  | m, iri :: iris =>
    let r := propMap.get m iri
    let rs := propMap.internAll r.1 iris
    (rs.1, r.2 :: rs.2)

/-- A fresh tree whose dictionary holds, next to `"root"`, the interned properties
`"A"`, `"B"`, `"C"` and `"D"` (pointers `1` to `4`), in this sort order. -/
def abcdTree : SchemaTree :=
  { New false 1 with PropMap := (propMap.internAll (New false 1).PropMap ["A", "B", "C", "D"]).1 }

/-- The subject with the properties `A`, `B` and `C`. -/
def subjectABC : SubjectSummary := ⟨[3, 1, 2], by decide⟩

/-- The subject with the property `A` alone. -/
def subjectA : SubjectSummary := ⟨[1], by decide⟩

/-- The subject with the properties `A` and `C`. -/
def subjectAC : SubjectSummary := ⟨[1, 3], by decide⟩

/-- A fresh tree in whose dictionary the records `"A"` and `"B"` (pointers `1` and `2`)
have the same sort order, below that of `"C"` (pointer `3`). -/
def tieTree : SchemaTree :=
  { New false 1 with
    PropMap := [⟨"root", 0, 0, none⟩, ⟨"A", 0, 1, none⟩, ⟨"B", 0, 1, none⟩, ⟨"C", 0, 2, none⟩] }

/-- The subject with the properties `A` and `B`. -/
def subjectAB : SubjectSummary := ⟨[1, 2], by decide⟩

/-- The list of `2 ^ 32` subjects: `2 ^ 32 - 1` times the subject with `A` alone, then
the subject with `A` and `C`. -/
def wrapSubjects : List SubjectSummary := List.replicate (2 ^ 32 - 1) subjectA ++ [subjectAC]

/-- The sort key of `updateSortOrder`: descending total count, then ascending IRI. -/
def propMap.sortKey (m : propMap) (p : Nat) : ℕᵒᵈ ×ₗ List Char :=
  toLex (OrderDual.toDual (propMap.item m p).TotalCount, (propMap.item m p).Str.data)

/-- A dictionary of `2 ^ 32 + 1` records, with the IRIs `""`, `"a"`, `"aa"`, ... -/
def hugeMap : propMap :=
  (List.range (2 ^ 32 + 1)).map (fun i => ⟨String.mk (List.replicate i 'a'), 0, 0, none⟩)

/-- A tree with the dictionary `hugeMap`. -/
def hugeTree : SchemaTree := { New false 1 with PropMap := hugeMap }

/-- A tree, before any insert, with the dictionary of the records `"root"`, `"A"`, `"B"`
and `"C"` with total counts `0`, `6`, `3` and `1`, and the sort orders of `propMap.get`. -/
def countedTree : SchemaTree :=
  { New false 1 with
    PropMap := [⟨"root", 0, 0, none⟩, ⟨"A", 6, 1, none⟩, ⟨"B", 3, 2, none⟩, ⟨"C", 1, 3, none⟩] }

/-! ## The two-pass build -/

/-- The subjects that the reader delivers: the first `firstN` of the corpus, all of them
when `firstN` is `0`. -/
def firstSubjects (corpus : List (List String)) (firstN : Nat) : List (List String) :=
  if firstN = 0 then corpus else corpus.take firstN

/-- The reader on one subject: its IRIs are interned, and the callback is invoked on the
summary, whose properties are the keys of a map, hence without duplicates. -/
def readSubject (handler : SchemaTree → SubjectSummary → SchemaTree) (tree : SchemaTree)
    (iris : List String) : SchemaTree :=
  handler { tree with PropMap := (propMap.internAll tree.PropMap iris).1 }
    ⟨(propMap.internAll tree.PropMap iris).2.dedup, List.nodup_dedup _⟩

/-- Modelled from the spec: `SubjectSummaryReader`, the corpus reader, not among the
sources (spec 6: parses the input and invokes the callback for up to `firstN` subjects,
`0` meaning all; spec 4.3: properties are interned on first sight). The corpus is the
list of subjects, each with the IRIs of its properties, type IRIs included. The
callbacks run one after the other. -/
def SubjectSummaryReader (corpus : List (List String)) (tree : SchemaTree)
    (handler : SchemaTree → SubjectSummary → SchemaTree) (firstN : Nat) : SchemaTree :=
  (firstSubjects corpus firstN).foldl (readSubject handler) tree

/-- The callback `counter` of `firstPass`: `prop.increment()` for every property of the
subject. -/
def counter (tree : SchemaTree) (s : SubjectSummary) : SchemaTree :=
  { tree with
    PropMap := s.Properties.foldl (fun m prop => m.modify IItem.increment prop) tree.PropMap }

/-- The method `SchemaTree.firstPass`. -/
def SchemaTree.firstPass (tree : SchemaTree) (corpus : List (List String)) (firstN : Nat) :
    SchemaTree :=
  (SubjectSummaryReader corpus tree counter firstN).updateSortOrder

/-- The method `SchemaTree.secondPass`. -/
def SchemaTree.secondPass (tree : SchemaTree) (corpus : List (List String)) (firstN : Nat) :
    SchemaTree :=
  SubjectSummaryReader corpus tree.updateSortOrder SchemaTree.Insert firstN

/-- The method `SchemaTree.TwoPass`. -/
def SchemaTree.TwoPass (tree : SchemaTree) (corpus : List (List String)) (firstN : Nat) :
    SchemaTree :=
  (tree.firstPass corpus firstN).secondPass corpus firstN

/-- The function `Create`, on the corpus read from the file. -/
def Create (corpus : List (List String)) (firstNsubjects : Nat) (typed : Bool) (minSup : Nat) :
    SchemaTree :=
  (New typed minSup).TwoPass corpus firstNsubjects

/-- The occurrence chain from a pointer via `nextSameID`: the nodes visited, in order;
`none` when the chain does not end within `fuel` nodes. -/
def SchemaTree.chainFrom (tree : SchemaTree) : Nat → Option Nat → Option (List Nat)
  | _, none => some []
  | 0, some _ => none
  | fuel + 1, some node =>
    (tree.chainFrom fuel (tree.heap node).nextSameID).map (fun rest => node :: rest)

/-- The part of a record that `updateSortOrder` leaves alone: IRI, total count and head
of the occurrence chain. -/
def IItem.counted (it : IItem) : String × Nat × Option Nat :=
  (it.Str, it.TotalCount, it.traversalPointer)

/-- The subject summary that the reader builds from the IRIs of a subject, over a
dictionary. -/
def resolveSubject (m : propMap) (iris : List String) : SubjectSummary :=
  ⟨(propMap.internAll m iris).2.dedup, List.nodup_dedup _⟩

/-- The invariant of the first pass, after the subjects `C` have been counted: the tree is
still fresh, the IRIs of the dictionary are distinct, every IRI seen is a key, and the
total count of a record is the number of subjects seen that have its IRI (in 32-bit
arithmetic). -/
structure CountInv (tree : SchemaTree) (C : List (List String)) : Prop where
  fresh : tree.IsFresh
  keys : (tree.PropMap.map (·.Str)).Nodup
  known : ∀ iris ∈ C, ∀ iri ∈ iris, iri ∈ tree.PropMap.map (·.Str)
  count : ∀ p, p < tree.PropMap.length →
    (propMap.item tree.PropMap p).TotalCount
      = C.countP (fun iris => decide ((propMap.item tree.PropMap p).Str ∈ iris)) % 2 ^ 32

/-- The corpus of two subjects, one with `A` and one with `B` and `A`. -/
def smallCorpus : List (List String) := [["A"], ["B", "A"]]

/-! ## `src/assessment/assessment.go` -/

/-- The struct `schematree.RankedPropertyCandidate`: a property and its probability. The
probability is a `float64` in the source; the code modelled here passes it on and never
computes with it, and its type `F` is left open. -/
structure RankedPropertyCandidate (F : Type) where
  Property : Nat
  Probability : F
deriving DecidableEq

/-- The type `schematree.PropertyRecommendations`, a slice of candidates; `none` is the
`nil` slice. -/
abbrev PropertyRecommendations (F : Type) := Option (List (RankedPropertyCandidate F))

/-- The struct `Instance`. -/
structure Instance (F : Type) where
  Props : IList
  tree : SchemaTree
  useOptimisticCache : Bool
  cachedRecommendations : PropertyRecommendations F

/-- The constructor `NewInstance`. -/
def NewInstance {F : Type} (argProps : IList) (argTree : SchemaTree) (argUseCache : Bool) :
    Instance F :=
  { Props := argProps, tree := argTree, useOptimisticCache := argUseCache,
    cachedRecommendations := none }

/-- The method `Instance.CalcRecommendations`: the instance after the call and the value
returned. The recommender `SchemaTree.RecommendProperty` is not among the sources; it is
the argument `RecommendProperty`, a function of the tree and the property list. -/
def Instance.CalcRecommendations {F : Type}
    (RecommendProperty : SchemaTree → IList → PropertyRecommendations F) (inst : Instance F) :
    Instance F × PropertyRecommendations F :=
  if inst.useOptimisticCache = true then
    let inst1 :=
      if inst.cachedRecommendations.isNone then
        { inst with cachedRecommendations := RecommendProperty inst.tree inst.Props }
      else inst
    (inst1, inst1.cachedRecommendations)
  else (inst, RecommendProperty inst.tree inst.Props)

/-- The values that `n` successive calls of `CalcRecommendations` on an instance return. -/
def Instance.callResults {F : Type}
    (RecommendProperty : SchemaTree → IList → PropertyRecommendations F) :
    Nat → Instance F → List (PropertyRecommendations F)
  | 0, _ => []
  | n + 1, inst =>
    (inst.CalcRecommendations RecommendProperty).2 ::
      Instance.callResults RecommendProperty n (inst.CalcRecommendations RecommendProperty).1

/-- The uncached operation that the cache is measured against: the recommender run on the
properties of the instance. -/
def Instance.uncachedRecommendations {F : Type}
    (RecommendProperty : SchemaTree → IList → PropertyRecommendations F) (inst : Instance F) :
    PropertyRecommendations F :=
  RecommendProperty inst.tree inst.Props

/-- A recommender for the examples: it recommends the properties of the dictionary that
are not in the query, the root record excluded, each with probability `1 / 2`. -/
def sampleRecommender (tree : SchemaTree) (props : IList) : PropertyRecommendations ℚ :=
  some (((List.range tree.PropMap.length).filter (fun p => decide (0 < p ∧ p ∉ props))).map
    (fun p => ⟨p, 1 / 2⟩))

/-! ## `src/evaluation/configGenerator.go` -/

/-- The struct `configuration.Layer`. Its declaration is not among the sources: the
fields are those of the positional literals of `createConfigFiles`, named as in the
configuration file of the spec (section 6). The `float32` threshold has the open type
`F`. -/
structure Layer (F : Type) where
  Condition : String
  Backoff : String
  Threshold : Int
  ThresholdFloat : F
  Merger : String
  Splitter : String
  Stepsize : String
  ParallelExecutions : Int
deriving DecidableEq

/-- The struct `configuration.Configuration`: the test set and the layers. -/
structure Configuration (F : Type) where
  Testset : String
  Layers : List (Layer F)
deriving DecidableEq

/-- The struct `creater`. -/
structure creater (F : Type) where
  Conds : List String
  Merger : List String
  Splitter : List String
  Steps : List String
  MaxThreshold : Int
  MaxParallel : Int
  MaxFloat : F

/-- The `float32` arithmetic that `createConfigFiles` uses, left open: the constant
`0.0`, the conversion `float32(n)`, division and multiplication. -/
structure Float32Ops (F : Type) where
  zero : F
  ofInt : Int → F
  div : F → F → F
  mul : F → F → F

/-- How a run of `createConfigFiles` can end without returning: a `nil` pointer is
dereferenced, `log.Fatal` ends the process, or a loop does not end. -/
inductive Abort where
  | nilDereference
  | fatal
  | noTermination
deriving DecidableEq

/-- What a run of `createConfigFiles` does: the calls of `writeConfigFile` it makes, each
with the file name and the configuration, and the error it returns (`none` is `nil`),
unless the run is cut short. -/
structure ConfigRun (F : Type) where
  files : List (String × Configuration F)
  result : Except Abort (Option String)

/-- The function `readCreaterConfig`: the pointer `conf` (`none` is `nil`) and the error.
The file system and the JSON decoder are arguments: `readFile` is `ioutil.ReadFile`, and
`unmarshal` gives, for the bytes read, the struct that `json.Unmarshal` leaves in `c` and
its error. -/
def readCreaterConfig {F : Type} (readFile : String → Except String String)
    (unmarshal : String → creater F × Option String) (name : String) :
    Option (creater F) × Option String :=
  match readFile name with
  | Except.error err => (none, some err)
  | Except.ok file => (some (unmarshal file).1, (unmarshal file).2)

/-- The values that the counter of a loop `for x := 1; x <= max; x++` takes, over the
64-bit `int`; `none` when `max` is the largest `int`: the counter then wraps around and
the loop does not end. -/
def countTo (max : Int) : Option (List Int) :=
  if max = 2 ^ 63 - 1 then none else some ((List.range' 1 max.toNat).map Int.ofNat)

/-- The layers that the body of the loops over `thresh` and `con` of `createConfigFiles`
appends: the split-property layers, then the delete-low-frequency layers. -/
def layersFor {F : Type} (ops : Float32Ops F) (c : creater F) (thresh : Int) (con : String) :
    Option (List (Layer F)) :=
  let fthresh := ops.mul (ops.div (ops.ofInt thresh) (ops.ofInt c.MaxThreshold)) c.MaxFloat
  let split := c.Merger.flatMap (fun m => c.Splitter.map (fun s =>
    if con = "tooUnlikelyRecommendationsCondition" then
      (⟨con, "splitProperty", thresh, fthresh, m, s, "", 0⟩ : Layer F)
    else ⟨con, "splitProperty", thresh, ops.zero, m, s, "", 0⟩))
  (countTo c.MaxParallel).map (fun parallels =>
    split ++ parallels.flatMap (fun parallel => c.Steps.map (fun s =>
      if con = "tooUnlikelyRecommendationsCondition" then
        (⟨con, "deleteLowFrequency", thresh, fthresh, "", "", s, parallel⟩ : Layer F)
      else ⟨con, "deleteLowFrequency", thresh, ops.zero, "", "", s, parallel⟩)))

/-- The concatenation of the results of the iterations of a loop, `none` as soon as one
iteration does not end. -/
def concatRuns {α : Type} : List (Option (List α)) → Option (List α)
  | [] => some []
  | none :: _ => none
  | some a :: rest => (concatRuns rest).map (fun b => a ++ b)

/-- The slice `backoffLayers` that the first part of `createConfigFiles` builds. -/
def backoffLayers {F : Type} (ops : Float32Ops F) (c : creater F) : Option (List (Layer F)) :=
  (countTo c.MaxThreshold).bind (fun threshs =>
    concatRuns (threshs.flatMap (fun thresh => c.Conds.map (fun con => layersFor ops c thresh con))))

/-- The layer `fallbackLayer` of `createConfigFiles`. -/
def fallbackLayer {F : Type} (ops : Float32Ops F) : Layer F :=
  ⟨"always", "standard", 0, ops.zero, "", "", "", 0⟩

/-- The second loop of `createConfigFiles`, from index `i` on: one configuration per
backoff layer is handed to `writeConfigFile`; `write` is the error that `writeConfigFile`
returns. The arguments `files` and `err` are the calls made so far and the current value
of the result `err`. -/
def writeConfigs {F : Type} (ops : Float32Ops F) (write : String → Configuration F → Option String) :
    Nat → List (Layer F) → List (String × Configuration F) → Option String → ConfigRun F
  | _, [], files, err => ⟨files, Except.ok err⟩
  | i, l :: rest, files, _ =>
    let c : Configuration F := ⟨"../testdata/10M.nt_1in2_test.gz", [l, fallbackLayer ops]⟩
    let name := "./configs/config_" ++ toString i ++ ".json"
    match write name c with
    | some _ => ⟨files ++ [(name, c)], Except.error Abort.fatal⟩
    | none => writeConfigs ops write (i + 1) rest (files ++ [(name, c)]) none

/-- The function `createConfigFiles`. -/
def createConfigFiles {F : Type} (ops : Float32Ops F) (readFile : String → Except String String)
    (unmarshal : String → creater F × Option String)
    (write : String → Configuration F → Option String) (creater : String) : ConfigRun F :=
  match readCreaterConfig readFile unmarshal creater with
  | (none, _) => ⟨[], Except.error Abort.nilDereference⟩
  | (some createrConfig, err) =>
    match backoffLayers ops createrConfig with
    | none => ⟨[], Except.error Abort.noTermination⟩
    | some layers => writeConfigs ops write 0 layers [] err

/-- Exact arithmetic on the rationals in the place of the `float32` arithmetic, for the
examples. -/
def ratOps : Float32Ops ℚ := ⟨0, fun n => n, fun a b => a / b, fun a b => a * b⟩

/-- A creater configuration for the examples: one condition, one merger, one splitter,
one step function, thresholds up to `1` and one parallel execution. -/
def sampleCreater : creater ℚ :=
  ⟨["tooManyRecommendations"], ["avg"], ["everySecondItem"], ["stepsizeLinear"], 1, 1, 1⟩

/-! ## `src/evaluation/results.go` -/

/-- The struct `evalResult`. -/
structure evalResult where
  setSize : Nat
  numTypes : Nat
  numLeftOut : Nat
  rank : Nat
  numTP : Nat
  numTPAtL : Nat
  numFP : Nat
  numTN : Nat
  numFN : Nat
  duration : Int
  group : Nat
  note : String
deriving DecidableEq

/-- Modelled from the spec: the method `IItem.IsType`, not among the sources (spec 3:
types are distinguished by the tag `"t#"` in front of the IRI). -/
def IItem.IsType (p : IItem) : Bool := "t#".data.isPrefixOf p.Str.data

/-- Subtraction of `uint32` values, which wraps around below zero. -/
def sub32 (a b : Nat) : Nat := (uint32 a + 2 ^ 32 - uint32 b) % 2 ^ 32

/-- The two loops of `evaluatePair` that count the type properties, on one of the lists:
`numTypeProps++` on a `uint16` for every property that is a type. -/
def countTypeProps (m : propMap) (props : IList) (numTypeProps : Nat) : Nat :=
  props.foldl (fun n p => if (propMap.item m p).IsType then uint16 (n + 1) else n) numTypeProps

/-- The variables that the matching loop of `evaluatePair` updates. -/
structure matchState where
  numTP : Nat
  numTPAtL : Nat
  rank : Nat
  matchFound : Bool
deriving DecidableEq

/-- The body of the loop of `evaluatePair` over the recommendations, at index `i`: the
inner loop over the left-out properties runs its body once, for the first of them that is
the recommended property, and breaks. -/
def matchStep (leftoutProps : IList) (st : matchState) (i : Nat) (property : Nat) : matchState :=
  if leftoutProps.contains property then
    { numTP := uint32 (st.numTP + 1),
      numTPAtL := if i < leftoutProps.length then uint32 (st.numTPAtL + 1) else st.numTPAtL,
      rank := if st.matchFound then st.rank else uint32 (uint32 i + 1),
      matchFound := true }
  else st

/-- The loop of `evaluatePair` over the recommendations, from index `i` on. -/
def matchLoop (leftoutProps : IList) : List Nat → Nat → matchState → matchState
  | [], _, st => st
  | property :: recs, i, st => matchLoop leftoutProps recs (i + 1) (matchStep leftoutProps st i property)

/-- The function `evaluatePair`; `none` is the `nil` result. The workflow, whose package
is not among the sources, is the argument `Recommend`, the function from the assessment
instance to the recommendations, and `duration` is the time measured. -/
def evaluatePair {F : Type} (tree : SchemaTree)
    (Recommend : Instance F → PropertyRecommendations F) (duration : Int)
    (reducedProps leftoutProps : IList) : Option evalResult :=
  if reducedProps.length = 0 then none
  else
    let asm : Instance F := NewInstance reducedProps tree true
    let recs := (Recommend asm).getD []
    let recs := if recs.length > 500 then recs.take 500 else recs
    let numTypeProps :=
      countTypeProps tree.PropMap leftoutProps (countTypeProps tree.PropMap reducedProps 0)
    let st := matchLoop leftoutProps (recs.map (fun rec => rec.Property)) 0
      { numTP := 0, numTPAtL := 0, rank := uint32 500, matchFound := false }
    let numFN := sub32 (uint32 leftoutProps.length) st.numTP
    let numFP := sub32 (uint32 recs.length) st.numTP
    let numTN := sub32 (sub32 (sub32 (uint32 tree.PropMap.length) st.numTP) numFN) numFP
    some
      { setSize := uint16 reducedProps.length, numTypes := numTypeProps,
        numLeftOut := uint16 leftoutProps.length, rank := st.rank, numTP := st.numTP,
        numTPAtL := st.numTPAtL, numFN := numFN, numFP := numFP, numTN := numTN,
        duration := duration, group := 0, note := "" }

/-! ## Persistence, the primary format: `SaveProtocolBuffer` and `loadProtocolBuffer` -/

/-- The message `serialization.PropMapItem` (spec 4.7). -/
structure PropMapItem where
  Str : String
  TotalCount : Nat
  SortOrder : Nat
deriving DecidableEq

/-- The message `serialization.SchemaNode` (spec 4.7: property index, support and the
children, inline). -/
inductive pbSchemaNode where
  | mk (PropertyIndex : Nat) (Support : Nat) (Children : List pbSchemaNode)

/-- The enum `serialization.Options`: the flag `TYPED`, or another number. -/
inductive Options where
  | TYPED
  | unknown (n : Nat)
deriving DecidableEq

/-- The message `serialization.SchemaTree` (spec 4.7). -/
structure pbSchemaTree where
  PropMap : List PropMapItem
  MinSup : Nat
  Root : pbSchemaNode
  Options : List Options

/-- The first loop of `SaveProtocolBuffer` (and of `SaveGob`) over the records that are
still to come in the iteration of the map: `props[int(p.SortOrder)] = p`. The slice
`props` holds pointers, `none` being `nil`; an index out of range is a fault (`none`). -/
def fillProps (m : propMap) : List Nat → List (Option Nat) → Option (List (Option Nat))
  | [], props => some props
  | p :: rest, props =>
    if (propMap.item m p).SortOrder < props.length then
      fillProps m rest (props.set (propMap.item m p).SortOrder (some p))
    else none

/-- The second loop of `SaveProtocolBuffer`: one item per element of `props`, in order;
the dereference of a `nil` element is a fault (`none`). -/
def itemsOf (m : propMap) : List (Option Nat) → Option (List PropMapItem)
  | [] => some []
  | none :: _ => none
  | some p :: rest =>
    (itemsOf m rest).map (fun items =>
      (⟨(propMap.item m p).Str, (propMap.item m p).TotalCount, (propMap.item m p).SortOrder⟩ :
        PropMapItem) :: items)

/-- The part of `SaveProtocolBuffer` that encodes the dictionary, `pb_propmap.Items`,
given the order in which the `range` loop iterates the map. -/
def SchemaTree.protoItemsWith (tree : SchemaTree) (order : List Nat) : Option (List PropMapItem) :=
  (fillProps tree.PropMap order (List.replicate tree.PropMap.length none)).bind
    (itemsOf tree.PropMap)

/-- All the results, if none of them is missing. -/
def allResults {α : Type} : List (Option α) → Option (List α)
  | [] => some []
  | none :: _ => none
  | some a :: rest => (allResults rest).map (fun as => a :: as)

/-- Modelled from the spec: `SchemaNode.AsProtoSchemaNode`, not among the sources (spec
4.7: each node references its property by index into the items, which are emitted in sort
order, and the children are emitted inline). The index of a node is the sort order of its
property. `none` when the children do not end within `fuel` levels. -/
def SchemaTree.AsProtoSchemaNode (tree : SchemaTree) : Nat → Nat → Option pbSchemaNode
  | 0, _ => none
  | fuel + 1, node =>
    (allResults ((tree.heap node).Children.map
      (fun pc => SchemaTree.AsProtoSchemaNode tree fuel pc.2))).map
      (fun children =>
        pbSchemaNode.mk (propMap.item tree.PropMap (tree.heap node).ID).SortOrder
          (tree.heap node).Support children)

/-- The method `SchemaTree.SaveProtocolBuffer`, given the iteration order of the map: the
message `pb_tree` that is marshalled and written to the file; `none` when the method
faults before. -/
def SchemaTree.SaveProtocolBufferWith (tree : SchemaTree) (order : List Nat) :
    Option pbSchemaTree :=
  (tree.protoItemsWith order).bind (fun items =>
    (tree.AsProtoSchemaNode tree.size 0).map (fun root =>
      { PropMap := items, MinSup := tree.MinSup, Root := root,
        Options := if tree.Typed then [Options.TYPED] else [] }))

/-- The method `SchemaTree.SaveProtocolBuffer`, the map iterated in order of allocation. -/
def SchemaTree.SaveProtocolBuffer (tree : SchemaTree) : Option pbSchemaTree :=
  tree.SaveProtocolBufferWith (List.range tree.PropMap.length)

/-- The map assignment `tree.PropMap[*item.Str] = item` of a newly allocated record. In
the map the record replaces the record that was stored under the same IRI, which stays
allocated. In the list it is put in front, where `propMap.find` meets it first; the
records behind it move by one place, and the pointers to them move along. -/
def SchemaTree.store (tree : SchemaTree) (item : IItem) : SchemaTree :=
  { tree with
    PropMap := item :: tree.PropMap
    heap := fun a => { tree.heap a with ID := (tree.heap a).ID + 1 } }

mutual
/-- Modelled from the spec: the node decoder `FromProtoSchemaNode`, not among the sources
(spec 4.7: each node references its property by index into the items; occurrence chains
are reconstructed on load by walking the deserialized tree in pre-order and prepending
each node to its property's chain). The node is built at the next free address; `props`
is the list that the index is resolved against, and an index outside of it is a fault
(`none`). -/
def SchemaTree.decodeNode (props : List Nat) :
    pbSchemaNode → Option Nat → SchemaTree → Option (SchemaTree × Nat)
  | pbSchemaNode.mk index support children, parent, tree =>
    match props[index]? with
    | none => none
    | some p =>
      let node : SchemaNode :=
        { ID := p, parent := parent, Children := [],
          nextSameID := (propMap.item tree.PropMap p).traversalPointer, Support := support }
      (SchemaTree.decodeChildren props children tree.size
        { tree with
          PropMap := tree.PropMap.modify (fun it => { it with traversalPointer := some tree.size }) p
          heap := Function.update tree.heap tree.size node
          size := tree.size + 1 }).map (fun t => (t, tree.size))
/-- The children of a node, decoded one after the other and entered in its mapping. -/
def SchemaTree.decodeChildren (props : List Nat) :
    List pbSchemaNode → Nat → SchemaTree → Option SchemaTree
  | [], _, tree => some tree
  | child :: rest, node, tree =>
    match SchemaTree.decodeNode props child (some node) tree with
    | none => none
    | some (t, c) =>
      SchemaTree.decodeChildren props rest node
        { t with
          heap := Function.update t.heap node
            { t.heap node with Children := (t.heap node).Children ++ [((t.heap c).ID, c)] } }
end

/-- The call `FromProtoSchemaNode(pb_tree.Root, props)` and the assignment of its result
to `tree.Root`: the decoded nodes take the place of the nodes of the tree. -/
def SchemaTree.FromProtoSchemaNode (tree : SchemaTree) (root : pbSchemaNode) (props : List Nat) :
    Option SchemaTree :=
  (SchemaTree.decodeNode props root none { tree with size := 0 }).map (fun r => r.1)

/-- The loop of `loadProtocolBuffer` over the options: `TYPED` sets the flag, any other
option ends the process with `log.Fatal` (`none`). -/
def decodeOptions : List Options → SchemaTree → Option SchemaTree
  | [], tree => some tree
  | Options.TYPED :: rest, tree => decodeOptions rest { tree with Typed := true }
  | Options.unknown _ :: _, _ => none

/-- The tree of `loadProtocolBuffer` when it reaches the decoding of the root: the tree
of `New(false, 1)` with the decoded records stored in its map and `MinSup` set. -/
def loadedDictionary (pb_tree : pbSchemaTree) : SchemaTree :=
  { pb_tree.PropMap.foldl
      (fun tree pb_item =>
        tree.store ⟨pb_item.Str, pb_item.TotalCount, pb_item.SortOrder, none⟩)
      (New false 1) with
    MinSup := pb_tree.MinSup }

/-- The function `loadProtocolBuffer`, on the message that `proto.Unmarshal` returns. The
slice `props` is declared and handed to the node decoder, and nothing is appended to it
in between. `none` when the function does not return a tree. -/
def loadProtocolBuffer (pb_tree : pbSchemaTree) : Option SchemaTree :=
  let props : List Nat := []
  ((loadedDictionary pb_tree).FromProtoSchemaNode pb_tree.Root props).bind
    (decodeOptions pb_tree.Options)
/-- The item that `SaveProtocolBuffer` emits for a record. -/
def IItem.toItem (it : IItem) : PropMapItem := ⟨it.Str, it.TotalCount, it.SortOrder⟩

/-! ## Persistence, the legacy format: `SaveGob` and `LoadGob` -/

/-- The property index of an encoded node. -/
def pbSchemaNode.index : pbSchemaNode → Nat
  | pbSchemaNode.mk index _ _ => index

/-- The errors that the calls of `SaveGob` into the file system and the encoder return, in
program order, `none` being `nil`: `os.Create`, `e.Encode(props)`, `e.Encode(tree.MinSup)`,
`tree.Root.writeGob(e)`, the typed marker `e.Encode(1)` or `e.Encode(2)`, and
`e.Encode(tree.Typed)`. -/
structure GobWrites where
  create : Option String
  encodeProps : Option String
  encodeMinSup : Option String
  writeGob : Option String
  encodeMarker : Option String
  encodeTyped : Option String

/-- The assignment `err = v` to a variable that holds an error: the old value is lost. -/
def assignErr (_err : Option String) (v : Option String) : Option String := v

/-- The method `SchemaTree.SaveGob`, given the iteration order of the map and the errors
that its calls return: the error that `SaveGob` returns (`none` is `nil`), or a fault
(outer `none`) when an index of `props` is out of range. -/
def SchemaTree.SaveGobWith (tree : SchemaTree) (order : List Nat) (w : GobWrites) :
    Option (Option String) :=
  match w.create with
  | some err => some (some err)
  | none =>
    match fillProps tree.PropMap order (List.replicate tree.PropMap.length none) with
    | none => none
    | some _ =>
      match w.encodeProps with
      | some err => some (some err)
      | none =>
        match w.encodeMinSup with
        | some err => some (some err)
        | none =>
          let err := assignErr none w.writeGob
          let err := assignErr err w.encodeMarker
          let err := assignErr err w.encodeTyped
          match err with
          | some err => some (some err)
          | none => some none

/-- The method `SchemaTree.SaveGob`, the map iterated in order of allocation. -/
def SchemaTree.SaveGob (tree : SchemaTree) (w : GobWrites) : Option (Option String) :=
  tree.SaveGobWith (List.range tree.PropMap.length) w

/-- What the calls of `LoadGob` into the file system and the decoder deliver, in program
order: the errors of `os.Open` and `gzip.NewReader` (`none` is `nil`); for
`d.Decode(&props)` the records decoded, with their exported fields, or the error; for
`d.Decode(&tree.MinSup)` the number or the error; where `decodeGob` reads, the encoding
of the root node (spec 4.7: the same logical content as in the primary format) or an
error of the decoder right there; for `d.Decode(&i)` the typed marker or the error. -/
structure GobReads where
  openErr : Option String
  gzipErr : Option String
  props : Except String (List PropMapItem)
  MinSup : Except String Nat
  Root : Except String pbSchemaNode
  marker : Except String Int

/-- Modelled from the spec: `SchemaNode.decodeGob` on the root of the tree, not among the
sources (spec 4.7: recursive node encoding, each node references its property by index;
occurrence chains are rebuilt by prepending each node to its property's chain). The tree
after the call and the error returned; a property index outside of `props` is a fault
(`none`). When the decoder fails where the encoding of the root starts, nothing has been
assigned. An error further inside the encoding, which leaves a partly decoded tree, is
not modelled. -/
def SchemaTree.decodeGob (tree : SchemaTree) (root : Except String pbSchemaNode)
    (props : List Nat) : Option (SchemaTree × Option String) :=
  match root with
  | Except.error err => some (tree, some err)
  | Except.ok node => (tree.FromProtoSchemaNode node props).map (fun t => (t, none))

/-- The workaround of `LoadGob` for the legacy root bug: a root whose property does not
have the IRI `"root"` gets the record `tree.PropMap.get("root")`. -/
def SchemaTree.repairRoot (tree : SchemaTree) : SchemaTree :=
  if (propMap.item tree.PropMap (tree.heap 0).ID).Str ≠ "root" then
    { tree with
      PropMap := (propMap.get tree.PropMap "root").1
      heap := Function.update tree.heap 0
        { tree.heap 0 with ID := (propMap.get tree.PropMap "root").2 } }
  else tree

/-- The loop of `LoadGob` over the decoded records, on the tree of `New(false, 1)`:
`item.SortOrder = uint32(sortOrder)` and `tree.PropMap[*item.Str] = item`. Afterwards the
record `props[k]` is at the index `len(props) - 1 - k` of the list. -/
def storeDecoded (items : List PropMapItem) : SchemaTree :=
  items.enum.foldl
    (fun tree (si : Nat × PropMapItem) =>
      tree.store ⟨si.2.Str, si.2.TotalCount, uint32 si.1, none⟩)
    (New false 1)

/-- The function `LoadGob`: the tree or the error returned, or a fault (outer `none`). -/
def LoadGob (r : GobReads) : Option (Except String SchemaTree) :=
  match r.openErr with
  | some err => some (Except.error err)
  | none =>
    match r.gzipErr with
    | some err => some (Except.error err)
    | none =>
      match r.props with
      | Except.error err => some (Except.error err)
      | Except.ok items =>
        let tree := storeDecoded items
        let props := (List.range items.length).reverse
        match r.MinSup with
        | Except.error err => some (Except.error err)
        | Except.ok minSup =>
          match ({ tree with MinSup := minSup } : SchemaTree).decodeGob r.Root props with
          | none => none
          | some (tree, err) =>
            let tree := tree.repairRoot
            let i : Int := match r.marker with
              | Except.ok i => i
              | Except.error _ => 0
            let err := assignErr err (match r.marker with
              | Except.ok _ => none
              | Except.error err => some err)
            let tree := if i = 1 then { tree with Typed := true } else tree
            match err with
            | some err => some (Except.error err)
            | none => some (Except.ok tree)

/-- The records of a legacy file of the tree of the two subjects `{A}` and `{A, B}`. -/
def sampleItems : List PropMapItem := [⟨"A", 2, 0⟩, ⟨"B", 1, 1⟩, ⟨"root", 0, 2⟩]

/-- The encoding of the nodes of that tree: the root, its child `A` and, below it, `B`. -/
def sampleRoot : pbSchemaNode :=
  pbSchemaNode.mk 2 2 [pbSchemaNode.mk 0 2 [pbSchemaNode.mk 1 1 []]]
/-- What the decoder delivers on a legacy file with the root bug: the property list holds
the property of the root under the empty IRI, next to `A`; the root has the child `A`. -/
def legacyReads : GobReads :=
  { openErr := none, gzipErr := none, props := Except.ok [⟨"", 0, 0⟩, ⟨"A", 3, 1⟩],
    MinSup := Except.ok 1,
    Root := Except.ok (pbSchemaNode.mk 0 3 [pbSchemaNode.mk 1 3 []]),
    marker := Except.ok 2 }

/-- The tree that `LoadGob` returns on `legacyReads`. -/
def legacyTree : SchemaTree :=
  match LoadGob legacyReads with
  | some (Except.ok tree) => tree
  | _ => New false 1

/-- What the node decoder leaves alone: the records of the dictionary, but for the heads
of the occurrence chains, and the properties of the nodes allocated before. -/
def DecodeFrame (tree tree' : SchemaTree) : Prop :=
  tree.size ≤ tree'.size ∧
  tree'.PropMap.map IItem.record = tree.PropMap.map IItem.record ∧
  ∀ a, a < tree.size → (tree'.heap a).ID = (tree.heap a).ID

/-- The properties that `evaluatePair` compares with the left-out properties: those of
the recommendations of the workflow for the reduced set, cut to the first `500`. -/
def cappedProps {F : Type} (tree : SchemaTree)
    (Recommend : Instance F → PropertyRecommendations F) (reducedProps : IList) : List Nat :=
  (((Recommend (NewInstance reducedProps tree true)).getD []).take 500).map
    (fun rec => rec.Property)

/-- A creater configuration whose only condition is the too-unlikely-recommendations
condition: one merger, one splitter, one step function, thresholds up to `1`, one
parallel execution and the largest float threshold `1`. -/
def unlikelyCreater : creater ℚ :=
  ⟨["tooUnlikelyRecommendationsCondition"], ["avg"], ["everySecondItem"], ["stepsizeLinear"],
    1, 1, 1⟩

/-- The corpus of the frequency-ordering scenario: three subjects with `A`, two with `A`
and `B`, one with `A`, `B` and `C`. -/
def freqCorpus : List (List String) :=
  [["A"], ["A"], ["A"], ["A", "B"], ["A", "B"], ["A", "B", "C"]]

/-- No node of the tree has two children under one property: the keys of every children
mapping are pairwise distinct. -/
def SchemaTree.KeysNodup (tree : SchemaTree) : Prop :=
  ∀ a, a < tree.size → ((tree.heap a).Children.map Prod.fst).Nodup

/-- The node reached from `node` by following the children mappings along a list of
properties; `none` when a child is missing on the way. -/
def SchemaTree.follow (tree : SchemaTree) : Nat → List Nat → Option Nat
  | node, [] => some node
  | node, p :: rest => (childFor (tree.heap node).Children p).bind (fun c => tree.follow c rest)

/-- The memory that a call of `Support` can reach: the tree, with its nodes and its
records, and the backing array of the caller's list `properties`. -/
structure SupportMem where
  tree : SchemaTree
  properties : IList

/-- The loop of `Support` over the occurrence chain, as a run on the memory: the memory
after the loop, and the sum when the loop ends within `fuel` nodes. The call
`term.prefixContains(properties)`, whose code is not among the sources, is the argument
`contains`: the memory it leaves and its answer (`none` when it does not return). The
loop itself reads `nextSameID` and `Support` and writes the local `support` only. -/
def supportLoopOn (contains : SupportMem → Nat → SupportMem × Option Bool) :
    Nat → SupportMem → Option Nat → Nat → SupportMem × Option Nat
  | _, mem, none, support => (mem, some support)
  | 0, mem, some _, _ => (mem, none)
  | fuel + 1, mem, some term, support =>
    match (contains mem term).2 with
    | none => ((contains mem term).1, none)
    | some true =>
      supportLoopOn contains fuel (contains mem term).1
        ((contains mem term).1.tree.heap term).nextSameID
        (uint32 (support + ((contains mem term).1.tree.heap term).Support))
    | some false =>
      supportLoopOn contains fuel (contains mem term).1
        ((contains mem term).1.tree.heap term).nextSameID support

/-- The method `SchemaTree.Support` as a run on the memory: the memory after the call and
the value returned. The statement `properties.Sort()` sorts the backing array of the
caller's list in place; the rest of the body reads. -/
def SchemaTree.SupportRun (tree : SchemaTree)
    (contains : SupportMem → Nat → SupportMem × Option Bool) (fuel : Nat) (properties : IList) :
    SupportMem × Option Nat :=
  if properties.length = 0 then (⟨tree, properties⟩, some tree.Root.Support)
  else
    let mem : SupportMem := ⟨tree, iList.sort tree.PropMap properties⟩
    supportLoopOn contains fuel mem
      (propMap.item mem.tree.PropMap
        (mem.properties.getD (mem.properties.length - 1) 0)).traversalPointer 0

/-- The query `prefixContains` of the tree model as a call on the memory, which it
leaves as it is. -/
def containsQuery (mem : SupportMem) (term : Nat) : SupportMem × Option Bool :=
  (mem, mem.tree.prefixContains term mem.properties)

/-! ## Theorems -/

theorem propMap.find_lt {m : propMap} {s : String} {i : Nat} (h : propMap.find m s = some i) :
    i < m.length ∧ (propMap.item m i).Str = s := by
  induction m generalizing i with
  | nil => simp [propMap.find] at h
  | cons it m ih =>
    simp only [propMap.find] at h
    split at h
    · rename_i hs
      cases h
      simp [propMap.item, hs]
    · cases hf : propMap.find m s with
      | none => simp [hf] at h
      | some j =>
        simp [hf] at h
        subst h
        have := ih hf
        simpa [propMap.item] using this

theorem propMap.find_eq_none {m : propMap} {s : String} :
    propMap.find m s = none ↔ s ∉ m.map (·.Str) := by
  induction m with
  | nil => simp [propMap.find]
  | cons it m ih =>
    simp only [propMap.find, List.map_cons, List.mem_cons, not_or]
    split
    · rename_i hs
      simp [hs]
    · rename_i hs
      simp [ih, Ne.symm hs]

/-- C9, as amended. `propMap.get` interns an IRI: if the IRI is already a key, `get`
returns the existing record and leaves the map unchanged; otherwise it adds exactly one
record for it, with `TotalCount` `0` and `SortOrder` the number of records before the
call reduced modulo `2 ^ 16`, and returns it. -/
theorem propMap_get_interns (m : propMap) (s : String) :
    (s ∈ m.map (·.Str) ∧ (propMap.get m s).1 = m ∧ (propMap.get m s).2 < m.length ∧
        (propMap.item m (propMap.get m s).2).Str = s) ∨
    (s ∉ m.map (·.Str) ∧
      (propMap.get m s).1 = m ++ [⟨s, 0, m.length % 2 ^ 16, none⟩] ∧
      (propMap.get m s).2 = m.length) := by
  cases hf : propMap.find m s with
  | none =>
    right
    refine ⟨propMap.find_eq_none.1 hf, ?_, ?_⟩ <;> simp [propMap.get, hf, uint16]
  | some i =>
    left
    have h := propMap.find_lt hf
    refine ⟨?_, ?_, ?_, ?_⟩
    · by_contra hc
      rw [← propMap.find_eq_none] at hc
      simp [hc] at hf
    · simp [propMap.get, hf]
    · simpa [propMap.get, hf] using h.1
    · simpa [propMap.get, hf] using h.2

theorem propMap.get_of_find_none {m : propMap} {s : String} (h : propMap.find m s = none) :
    propMap.get m s = (m ++ [⟨s, 0, uint16 m.length, none⟩], m.length) := by
  simp only [propMap.get, h]

theorem propMap.item_append_length (m : propMap) (it : IItem) :
    propMap.item (m ++ [it]) m.length = it := by
  simp [propMap.item, List.getD_eq_getElem?_getD]

theorem fullMap_length : fullMap.length = 65536 := by
  unfold fullMap
  rw [List.length_map, List.length_range]

/-- C9, the claim as stated fails: in a dictionary of `65536` records with distinct IRIs
the IRI `"b"` is not a key, and the record that `get` adds for it has `SortOrder` `0`,
not the number of records `65536`. -/
theorem propMap_get_sortOrder_wraps :
    (fullMap.map (·.Str)).Nodup ∧ "b" ∉ fullMap.map (·.Str) ∧
    (propMap.item (propMap.get fullMap "b").1 (propMap.get fullMap "b").2).SortOrder
      ≠ fullMap.length := by
  have hnot : "b" ∉ fullMap.map (·.Str) := by
    simp only [fullMap, List.map_map, List.mem_map, List.mem_range, Function.comp, not_exists,
      not_and]
    intro i _ h
    have h2 := congrArg String.data h
    simp at h2
    cases i with
    | zero => simp at h2
    | succ i => simp [List.replicate_succ] at h2
  refine ⟨?_, hnot, ?_⟩
  · unfold fullMap
    rw [List.map_map]
    refine List.Nodup.map_on ?_ (List.nodup_range _)
    intro i _ j _ h
    have h2 := congrArg (fun s => s.data.length) h
    simpa using h2
  · rw [propMap.get_of_find_none (propMap.find_eq_none.2 hnot)]
    simp only [propMap.item_append_length]
    rw [fullMap_length]
    decide

theorem sortSlice_perm {α : Type} (less : α → α → Bool) (l : List α) :
    (sortSlice less l).Perm l :=
  List.perm_insertionSort _ l

theorem sortSlice_key_sorted {α : Type} (key : α → Nat) (l : List α) :
    (sortSlice (fun i j => decide (key i < key j)) l).Pairwise (fun a b => key a ≤ key b) := by
  have h1 : IsTotal α (fun a b => decide (key b < key a) = false) :=
    ⟨fun a b => by simp only [decide_eq_false_iff_not, not_lt]; exact Nat.le_total _ _⟩
  have h2 : IsTrans α (fun a b => decide (key b < key a) = false) :=
    ⟨fun a b c => by simp only [decide_eq_false_iff_not, not_lt]; exact Nat.le_trans⟩
  have h := @List.sorted_insertionSort α (fun a b => decide (key b < key a) = false) _ h1 h2 l
  refine List.Pairwise.imp ?_ h
  intro a b hab
  simpa using hab

theorem iList.sort_perm (m : propMap) (l : IList) : (iList.sort m l).Perm l :=
  sortSlice_perm _ l

theorem iList.sort_sorted (m : propMap) (l : IList) :
    (iList.sort m l).Pairwise (fun a b => m.sortOrder a ≤ m.sortOrder b) :=
  sortSlice_key_sorted (fun p => (propMap.item m p).SortOrder) l

theorem take_set_of_le {α : Type} (l : List α) (a : α) {m n : Nat} (h : m ≤ n) :
    (l.set n a).take m = l.take m := by
  apply List.ext_getElem?
  intro i
  rw [List.getElem?_take, List.getElem?_take, List.getElem?_set]
  by_cases hi : i < m
  · have : n ≠ i := by omega
    simp [hi, this]
  · simp [hi]

theorem dedupInv_step (so : Nat → Nat) (s : IList)
    (hs : s.Pairwise (fun a b => so a ≤ so b))
    (hinj : ∀ a ∈ s, ∀ b ∈ s, so a = so b → a = b)
    (k : Nat) (hk : k + 1 < s.length) (st : IList × Nat) (h : DedupInv so s k st) :
    DedupInv so s (k + 1) (dedupStep st (k + 1)) := by
  obtain ⟨l, j⟩ := st
  obtain ⟨hlen, hjk, hrest, hj, hpw, hmem⟩ := h
  simp only at hlen hjk hrest hj hpw hmem
  have hk0 : k < s.length := by omega
  have hx : s[k]? = some s[k] := List.getElem?_eq_getElem hk0
  have hy : s[k+1]? = some s[k+1] := List.getElem?_eq_getElem hk
  have hli : l[k+1]? = some s[k+1] := by rw [hrest (k+1) (by omega), hy]
  have htake : s.take (k + 1 + 1) = s.take (k + 1) ++ [s[k+1]] := by
    rw [List.take_succ, hy]; rfl
  have htakek : s.take (k + 1) = s.take k ++ [s[k]] := by
    rw [List.take_succ, hx]; rfl
  have hxmem : s[k] ∈ s.take (k + 1) :=
    htakek ▸ List.mem_append_right _ (List.mem_singleton_self _)
  unfold dedupStep
  simp only [hj, hli, hx]
  by_cases hxy : s[k] = s[k+1]
  · simp only [hxy, ↓reduceIte]
    refine ⟨hlen, by omega, fun i hi => hrest i (by omega), ?_, hpw, ?_⟩
    · simp only [hj, hx, hy, hxy]
    · intro x
      simp only at hmem ⊢
      rw [hmem x, htake]
      simp only [List.mem_append, List.mem_singleton]
      constructor
      · exact fun h => Or.inl h
      · rintro (h | h)
        · exact h
        · rw [h, ← hxy]; exact hxmem
  · have hne : ¬ (some s[k] = some s[k+1]) := by simpa using hxy
    simp only [hne, ↓reduceIte]
    have hgi : l.getD (k + 1) 0 = s[k+1] := by
      rw [List.getD_eq_getElem?_getD, hli]; rfl
    have hj1 : j + 1 < l.length := by omega
    have hnew : ((l.set (k + 1) (l.getD (j + 1) 0)).set (j + 1) (l.getD (k + 1) 0))[j + 1]?
        = some s[k+1] := by
      rw [List.getElem?_set]
      simp [hj1, hli]
    have htk : ((l.set (k + 1) (l.getD (j + 1) 0)).set (j + 1) (l.getD (k + 1) 0)).take (j + 1)
        = l.take (j + 1) := by
      rw [take_set_of_le _ _ (Nat.le_refl _), take_set_of_le _ _ (by omega)]
    have htk2 : ((l.set (k + 1) (l.getD (j + 1) 0)).set (j + 1) (l.getD (k + 1) 0)).take (j + 1 + 1)
        = l.take (j + 1) ++ [s[k+1]] := by
      rw [List.take_succ, hnew, htk]; rfl
    refine ⟨by simp [hlen], by omega, ?_, hnew.trans hy.symm, ?_, ?_⟩
    · intro i hi
      simp only
      rw [List.getElem?_set, List.getElem?_set]
      have h1 : j + 1 ≠ i := by omega
      have h2 : k + 1 ≠ i := by omega
      simp only [h1, h2, ↓reduceIte]
      exact hrest i (by omega)
    · simp only
      rw [htk2, List.pairwise_append]
      refine ⟨hpw, List.pairwise_singleton _ _, ?_⟩
      intro a ha b hb
      simp only [List.mem_singleton] at hb
      subst hb
      have ha' : a ∈ s.take (k + 1) := (hmem a).1 ha
      have hsub : (s.take (k + 1 + 1)).Pairwise (fun a b => so a ≤ so b) :=
        hs.sublist (List.take_sublist _ _)
      rw [htake, List.pairwise_append] at hsub
      have hxy' : so s[k] ≤ so s[k+1] := hsub.2.2 _ hxmem _ (by simp)
      have hax : so a ≤ so s[k] := by
        rw [htakek, List.mem_append] at ha'
        rcases ha' with h | h
        · have hsub2 := hsub.1
          rw [htakek, List.pairwise_append] at hsub2
          exact hsub2.2.2 _ h _ (by simp)
        · simp only [List.mem_singleton] at h
          rw [h]
      have hneq : so s[k] ≠ so s[k+1] := fun h =>
        hxy (hinj _ (List.getElem_mem _) _ (List.getElem_mem _) h)
      omega
    · intro x
      simp only
      rw [htk2, htake, List.mem_append, List.mem_append, hmem x]

theorem dedupInv_loop (so : Nat → Nat) (s : IList)
    (hs : s.Pairwise (fun a b => so a ≤ so b))
    (hinj : ∀ a ∈ s, ∀ b ∈ s, so a = so b → a = b) (hne : s ≠ [])
    (k : Nat) (hk : k < s.length) :
    DedupInv so s k ((List.range' 1 k).foldl dedupStep (s, 0)) := by
  induction k with
  | zero =>
    have h0 : 0 < s.length := hk
    refine ⟨rfl, Nat.le_refl _, fun _ _ => rfl, rfl, ?_, fun x => Iff.rfl⟩
    cases s with
    | nil => exact absurd rfl hne
    | cons a s => simp
  | succ k ih =>
    rw [List.range'_concat, List.foldl_append]
    simp only [List.foldl_cons, List.foldl_nil, Nat.one_mul]
    rw [Nat.add_comm 1 k]
    exact dedupInv_step so s hs hinj k hk _ (ih (by omega))

/-- C10. For a non-empty list whose distinct items have distinct sort orders,
`sortAndDeduplicate` returns, and leaves the list strictly ascending in `SortOrder`,
with no item occurring twice, and with exactly the items of the input list. -/
theorem sortAndDeduplicate_sorted_nodup (m : propMap) (l : IList) (hne : l ≠ [])
    (hinj : ∀ a ∈ l, ∀ b ∈ l, m.sortOrder a = m.sortOrder b → a = b) :
    ∃ r, iList.sortAndDeduplicate m l = some r ∧
      r.Pairwise (fun a b => m.sortOrder a < m.sortOrder b) ∧ r.Nodup ∧
      ∀ x, x ∈ r ↔ x ∈ l := by
  have hperm := iList.sort_perm m l
  have hs := iList.sort_sorted m l
  have hne' : iList.sort m l ≠ [] := fun h => hne (by simpa [h] using hperm.symm)
  have hpos : 0 < (iList.sort m l).length := List.length_pos.2 hne'
  have hinj' : ∀ a ∈ iList.sort m l, ∀ b ∈ iList.sort m l,
      m.sortOrder a = m.sortOrder b → a = b :=
    fun a ha b hb => hinj a (hperm.mem_iff.1 ha) b (hperm.mem_iff.1 hb)
  have hinv := dedupInv_loop m.sortOrder (iList.sort m l) hs hinj' hne'
    ((iList.sort m l).length - 1) (by omega)
  obtain ⟨hlen, hjk, _, _, hpw, hmem⟩ := hinv
  have hle : ((List.range' 1 ((iList.sort m l).length - 1)).foldl dedupStep
      (iList.sort m l, 0)).2 + 1 ≤ ((List.range' 1 ((iList.sort m l).length - 1)).foldl dedupStep
      (iList.sort m l, 0)).1.length := by omega
  refine ⟨_, by simp only [iList.sortAndDeduplicate, hle, ↓reduceIte], hpw, ?_, ?_⟩
  · exact (hpw.imp (fun {a b} (h : m.sortOrder a < m.sortOrder b) => by
      intro hab; subst hab; exact Nat.lt_irrefl _ h))
  · intro x
    rw [hmem x, Nat.sub_add_cancel hpos, List.take_length]
    exact hperm.mem_iff

/-- C10, at the list `[B, A, B, A, A]` over the dictionary where `B` sorts before `A`. -/
theorem sortAndDeduplicate_sorted_nodup_witness :
    iList.sortAndDeduplicate [⟨"A", 0, 1, none⟩, ⟨"B", 0, 0, none⟩] [1, 0, 1, 0, 0] = some [1, 0] ∧
    ∃ r, iList.sortAndDeduplicate [⟨"A", 0, 1, none⟩, ⟨"B", 0, 0, none⟩] [1, 0, 1, 0, 0] = some r ∧
      r.Pairwise (fun a b =>
        propMap.sortOrder [⟨"A", 0, 1, none⟩, ⟨"B", 0, 0, none⟩] a
          < propMap.sortOrder [⟨"A", 0, 1, none⟩, ⟨"B", 0, 0, none⟩] b) ∧
      r.Nodup ∧ ∀ x, x ∈ r ↔ x ∈ [1, 0, 1, 0, 0] :=
  ⟨by decide,
   sortAndDeduplicate_sorted_nodup [⟨"A", 0, 1, none⟩, ⟨"B", 0, 0, none⟩] [1, 0, 1, 0, 0]
     (by decide) (by decide)⟩

theorem childFor_append (l : List (Nat × Nat)) (p c q : Nat) :
    childFor (l ++ [(p, c)]) q =
      match childFor l q with
      | some x => some x
      | none => if p = q then some c else none := by
  induction l with
  | nil => simp [childFor]
  | cons pc l ih =>
    obtain ⟨p', c'⟩ := pc
    simp only [List.cons_append, childFor]
    split
    · rfl
    · exact ih

@[simp] theorem SchemaTree.incrementSupport_size (t : SchemaTree) (c : Nat) :
    (t.incrementSupport c).size = t.size := rfl

@[simp] theorem SchemaTree.incrementSupport_PropMap (t : SchemaTree) (c : Nat) :
    (t.incrementSupport c).PropMap = t.PropMap := rfl

theorem SchemaTree.incrementSupport_heap (t : SchemaTree) (c a : Nat) :
    (t.incrementSupport c).heap a =
      { t.heap a with Support := if a = c then uint32 ((t.heap a).Support + 1)
                                  else (t.heap a).Support } := by
  unfold SchemaTree.incrementSupport
  by_cases h : a = c
  · subst h; simp
  · simp [Function.update_noteq h, h]

theorem SchemaTree.insertStep_found {t : SchemaTree} {cur p c : Nat}
    (h : childFor (t.heap cur).Children p = some c) :
    SchemaTree.insertStep (t, cur) p = (t.incrementSupport c, c) := by
  simp [SchemaTree.insertStep, SchemaTree.getOrCreateChild, h]

/-- The shape of the tree after a loop iteration of `Insert` that creates a node. -/
theorem SchemaTree.insertStep_new {t : SchemaTree} {cur p : Nat}
    (h : childFor (t.heap cur).Children p = none) (hc : cur < t.size) :
    (SchemaTree.insertStep (t, cur) p).2 = t.size ∧
    (SchemaTree.insertStep (t, cur) p).1.size = t.size + 1 ∧
    (SchemaTree.insertStep (t, cur) p).1.PropMap =
      t.PropMap.modify (fun it => { it with traversalPointer := some t.size }) p ∧
    (SchemaTree.insertStep (t, cur) p).1.heap t.size =
      { ID := p, parent := some cur, Children := [],
        nextSameID := (propMap.item t.PropMap p).traversalPointer, Support := uint32 1 } ∧
    (SchemaTree.insertStep (t, cur) p).1.heap cur =
      { t.heap cur with Children := (t.heap cur).Children ++ [(p, t.size)] } ∧
    ∀ a, a ≠ cur → a ≠ t.size → (SchemaTree.insertStep (t, cur) p).1.heap a = t.heap a := by
  have hne : cur ≠ t.size := Nat.ne_of_lt hc
  have hne' : t.size ≠ cur := Ne.symm hne
  refine ⟨?_, ?_, ?_, ?_, ?_, ?_⟩
  · simp [SchemaTree.insertStep, SchemaTree.getOrCreateChild, h]
  · simp [SchemaTree.insertStep, SchemaTree.getOrCreateChild, h]
  · simp [SchemaTree.insertStep, SchemaTree.getOrCreateChild, h]
  · simp [SchemaTree.insertStep, SchemaTree.getOrCreateChild, h, SchemaTree.incrementSupport,
      Function.update_noteq hne', uint32]
  · simp [SchemaTree.insertStep, SchemaTree.getOrCreateChild, h, SchemaTree.incrementSupport,
      Function.update_noteq hne]
  · intro a ha1 ha2
    simp [SchemaTree.insertStep, SchemaTree.getOrCreateChild, h, SchemaTree.incrementSupport,
      Function.update_noteq ha1, Function.update_noteq ha2]

theorem prefix_concat_self_false {α : Type} (l : List α) (a : α) : ¬ (l ++ [a] <+: l) := by
  intro h
  have := h.length_le
  simp at this

theorem TrieInv.fresh {t : SchemaTree} (h : t.IsFresh) : TrieInv t (fun _ => []) [] := by
  obtain ⟨hs, hp, hc, hsup, _⟩ := h
  refine ⟨by omega, rfl, hp, ?_, ?_, ?_, ?_, ?_⟩
  · intro a b ha hb _; omega
  · intro a h0 ha; omega
  · intro b hb p c
    have : b = 0 := by omega
    subst this
    simp [hc, childFor]
  · intro a ha
    have : a = 0 := by omega
    subst this
    simp [hsup]
  · intro π
    constructor
    · rintro ⟨a, _, rfl⟩; exact Or.inl rfl
    · rintro (h | ⟨s, hs, _⟩)
      · exact ⟨0, by omega, h.symm⟩
      · simp at hs

/-- Incrementing the support of the root starts the walk of a new sequence. -/
theorem TrieInv.start {t : SchemaTree} {paths : Nat → List Nat} {T : List (List Nat)}
    (h : TrieInv t paths T) : TrieInv (t.incrementSupport 0) paths ([] :: T) := by
  refine ⟨h.size_pos, h.root_path, ?_, h.inj, ?_, ?_, ?_, ?_⟩
  · rw [SchemaTree.incrementSupport_heap]; exact h.root_parent
  · intro a h0 ha
    rw [SchemaTree.incrementSupport_heap]
    exact h.parent a h0 ha
  · intro b hb p c
    rw [SchemaTree.incrementSupport_heap]
    exact h.children b hb p c
  · intro a ha
    rw [SchemaTree.incrementSupport_heap, List.countP_cons]
    simp only [SchemaTree.incrementSupport_size] at ha
    by_cases h0 : a = 0
    · subst h0
      simp only [↓reduceIte, h.root_path, List.nil_prefix, decide_True, h.support 0 ha, uint32]
      omega
    · have hne : paths a ≠ [] := fun hp => h0 (h.inj a 0 ha h.size_pos (hp.trans h.root_path.symm))
      simp only [h0, ↓reduceIte, List.prefix_nil, hne, decide_False, h.support a ha]
      simp
  · intro π
    simp only [SchemaTree.incrementSupport_size]
    rw [h.nodes π]
    constructor
    · rintro (h1 | ⟨s, hs, hps⟩)
      · exact Or.inl h1
      · exact Or.inr ⟨s, List.mem_cons_of_mem _ hs, hps⟩
    · rintro (h1 | ⟨s, hs, hps⟩)
      · exact Or.inl h1
      · rcases List.mem_cons.1 hs with rfl | hs
        · exact Or.inl (List.prefix_nil.1 hps)
        · exact Or.inr ⟨s, hs, hps⟩

theorem countP_prefix_concat {L1 : List Nat} {p : Nat} {S : List (List Nat)} {π : List Nat}
    (hne : π ≠ L1 ++ [p]) :
    ((L1 ++ [p]) :: S).countP (fun s => decide (π <+: s))
      = (L1 :: S).countP (fun s => decide (π <+: s)) := by
  rw [List.countP_cons, List.countP_cons]
  have : (π <+: L1 ++ [p]) ↔ (π <+: L1) := by
    rw [List.prefix_concat_iff]
    constructor
    · rintro (h | h)
      · exact absurd h hne
      · exact h
    · exact Or.inr
  simp only [this]

theorem countP_prefix_concat_self {L1 : List Nat} {p : Nat} {S : List (List Nat)} :
    ((L1 ++ [p]) :: S).countP (fun s => decide (L1 ++ [p] <+: s))
      = (L1 :: S).countP (fun s => decide (L1 ++ [p] <+: s)) + 1 := by
  rw [List.countP_cons, List.countP_cons]
  simp [prefix_concat_self_false]

/-- One loop iteration of `Insert` extends the walked sequence by one property. -/
theorem TrieInv.step {t : SchemaTree} {paths : Nat → List Nat} {L1 : List Nat}
    {S : List (List Nat)} {cur : Nat} (p : Nat)
    (h : TrieInv t paths (L1 :: S)) (hc : cur < t.size) (hp : paths cur = L1) :
    ∃ paths', TrieInv (SchemaTree.insertStep (t, cur) p).1 paths' ((L1 ++ [p]) :: S) ∧
      (SchemaTree.insertStep (t, cur) p).2 < (SchemaTree.insertStep (t, cur) p).1.size ∧
      paths' (SchemaTree.insertStep (t, cur) p).2 = L1 ++ [p] := by
  cases hch : childFor (t.heap cur).Children p with
  | some c =>
    obtain ⟨hcs, hcp⟩ := (h.children cur hc p c).1 hch
    rw [hp] at hcp
    rw [SchemaTree.insertStep_found hch]
    refine ⟨paths, ⟨h.size_pos, h.root_path, ?_, h.inj, ?_, ?_, ?_, ?_⟩, hcs, hcp⟩
    · rw [SchemaTree.incrementSupport_heap]; exact h.root_parent
    · intro a h0 ha
      rw [SchemaTree.incrementSupport_heap]
      exact h.parent a h0 ha
    · intro b hb q d
      rw [SchemaTree.incrementSupport_heap]
      exact h.children b hb q d
    · intro a ha
      simp only [SchemaTree.incrementSupport_size] at ha
      rw [SchemaTree.incrementSupport_heap]
      by_cases hac : a = c
      · subst hac
        simp only [↓reduceIte, hcp, countP_prefix_concat_self, uint32]
        rw [h.support a ha, hcp]
        omega
      · have hne : paths a ≠ L1 ++ [p] := fun e => hac (h.inj a c ha hcs (e.trans hcp.symm))
        simp only [hac, ↓reduceIte, countP_prefix_concat hne]
        exact h.support a ha
    · intro π
      simp only [SchemaTree.incrementSupport_size]
      constructor
      · intro hex
        rcases (h.nodes π).1 hex with h1 | ⟨s, hs, hps⟩
        · exact Or.inl h1
        · rcases List.mem_cons.1 hs with rfl | hs
          · exact Or.inr ⟨_, List.mem_cons_self _ _, hps.trans (List.prefix_append _ _)⟩
          · exact Or.inr ⟨s, List.mem_cons_of_mem _ hs, hps⟩
      · rintro (h1 | ⟨s, hs, hps⟩)
        · exact (h.nodes π).2 (Or.inl h1)
        · rcases List.mem_cons.1 hs with rfl | hs
          · rcases List.prefix_concat_iff.1 hps with e | hpre
            · exact ⟨c, hcs, hcp.trans e.symm⟩
            · exact (h.nodes π).2 (Or.inr ⟨_, List.mem_cons_self _ _, hpre⟩)
          · exact (h.nodes π).2 (Or.inr ⟨s, List.mem_cons_of_mem _ hs, hps⟩)
  | none =>
    obtain ⟨h2, hsz, _, hnew, hcur, hoth⟩ := SchemaTree.insertStep_new hch hc
    have hkey : ∀ a, a < t.size → paths a ≠ L1 ++ [p] := by
      intro a ha e
      have := (h.children cur hc p a).2 ⟨ha, by rw [hp]; exact e⟩
      rw [hch] at this
      exact Option.noConfusion this
    have hn0 : t.size ≠ 0 := Nat.ne_of_gt h.size_pos
    have hcn : cur ≠ t.size := Nat.ne_of_lt hc
    have hold : ∀ a, a < t.size → Function.update paths t.size (L1 ++ [p]) a = paths a :=
      fun a ha => Function.update_noteq (Nat.ne_of_lt ha) _ _
    have hself : Function.update paths t.size (L1 ++ [p]) t.size = L1 ++ [p] :=
      Function.update_same _ _ _
    -- unchanged fields of the old nodes
    have hfr : ∀ a, a < t.size →
        ((SchemaTree.insertStep (t, cur) p).1.heap a).parent = (t.heap a).parent ∧
        ((SchemaTree.insertStep (t, cur) p).1.heap a).ID = (t.heap a).ID ∧
        ((SchemaTree.insertStep (t, cur) p).1.heap a).Support = (t.heap a).Support := by
      intro a ha
      by_cases hac : a = cur
      · subst hac; rw [hcur]; exact ⟨rfl, rfl, rfl⟩
      · rw [hoth a hac (Nat.ne_of_lt ha)]; exact ⟨rfl, rfl, rfl⟩
    refine ⟨Function.update paths t.size (L1 ++ [p]), ⟨?_, ?_, ?_, ?_, ?_, ?_, ?_, ?_⟩, ?_, ?_⟩
    · rw [hsz]; omega
    · rw [hold 0 h.size_pos]; exact h.root_path
    · rw [(hfr 0 h.size_pos).1]; exact h.root_parent
    · intro a b ha hb e
      rw [hsz] at ha hb
      by_cases han : a = t.size
      · by_cases hbn : b = t.size
        · rw [han, hbn]
        · have hb' : b < t.size := by omega
          rw [han, hself, hold b hb'] at e
          exact absurd e.symm (hkey b hb')
      · have ha' : a < t.size := by omega
        by_cases hbn : b = t.size
        · rw [hbn, hself, hold a ha'] at e
          exact absurd e (hkey a ha')
        · have hb' : b < t.size := by omega
          rw [hold a ha', hold b hb'] at e
          exact h.inj a b ha' hb' e
    · intro a h0 ha
      rw [hsz] at ha
      by_cases han : a = t.size
      · subst han
        refine ⟨cur, hc, ?_, ?_⟩
        · rw [hnew]
        · rw [hnew, hself, hold cur hc, hp]
      · have ha' : a < t.size := by omega
        obtain ⟨b, hba, hpar, hpath⟩ := h.parent a h0 ha'
        refine ⟨b, hba, ?_, ?_⟩
        · rw [(hfr a ha').1]; exact hpar
        · rw [(hfr a ha').2.1, hold a ha', hold b (by omega)]; exact hpath
    · intro b hb q c
      rw [hsz] at hb
      rw [hsz]
      by_cases hbn : b = t.size
      · subst hbn
        rw [hnew, hself]
        constructor
        · intro e
          simp [childFor] at e
        · rintro ⟨hcl, e⟩
          exfalso
          by_cases hcn' : c = t.size
          · rw [hcn', hself] at e
            have := congrArg List.length e
            simp at this
          · have hc' : c < t.size := by omega
            rw [hold c hc'] at e
            by_cases hc0 : c = 0
            · rw [hc0, h.root_path] at e
              simp at e
            · obtain ⟨b', hb', _, hpath⟩ := h.parent c (by omega) hc'
              rw [hpath] at e
              have e' := List.append_inj' e rfl
              exact hkey b' (by omega) e'.1
      · have hb' : b < t.size := by omega
        rw [hold b hb']
        by_cases hcn' : c = t.size
        · subst hcn'
          rw [hself]
          by_cases hbc : b = cur
          · subst hbc
            rw [hcur, hp]
            simp only [childFor_append]
            cases hq : childFor (t.heap b).Children q with
            | some x =>
              have hx := (h.children b hb' q x).1 hq
              simp only [Option.some.injEq]
              constructor
              · intro e; omega
              · rintro ⟨_, e⟩
                have e' := List.append_inj' e rfl
                have : p = q := by simpa using e'.2
                rw [this] at hch
                rw [hch] at hq
                exact Option.noConfusion hq
            | none =>
              simp only
              constructor
              · intro e
                split at e
                · rename_i hpq; rw [hpq]; exact ⟨by omega, rfl⟩
                · exact Option.noConfusion e
              · rintro ⟨_, e⟩
                have e' := List.append_inj' e rfl
                have : p = q := by simpa using e'.2
                simp [this]
          · rw [hoth b hbc hbn]
            constructor
            · intro e
              have := ((h.children b hb' q t.size).1 e).1
              omega
            · rintro ⟨_, e⟩
              exfalso
              have e' := List.append_inj' e rfl
              exact hbc (h.inj b cur hb' hc (by rw [hp]; exact e'.1.symm))
        · have hiff : (c < t.size + 1 ∧ Function.update paths t.size (L1 ++ [p]) c = paths b ++ [q])
              ↔ (c < t.size ∧ paths c = paths b ++ [q]) := by
            constructor
            · rintro ⟨hcl, e⟩
              have hc' : c < t.size := by omega
              rw [hold c hc'] at e
              exact ⟨hc', e⟩
            · rintro ⟨hc', e⟩
              rw [hold c hc']
              exact ⟨by omega, e⟩
          rw [hiff, ← h.children b hb' q c]
          by_cases hbc : b = cur
          · subst hbc
            rw [hcur]
            simp only [childFor_append]
            cases hq : childFor (t.heap b).Children q with
            | some x => simp
            | none =>
              simp only
              split
              · constructor
                · intro e
                  exact absurd (Option.some.inj e).symm hcn'
                · intro e
                  exact Option.noConfusion e
              · simp
          · rw [hoth b hbc hbn]
    · intro a ha
      rw [hsz] at ha
      by_cases han : a = t.size
      · subst han
        rw [hnew, hself, countP_prefix_concat_self]
        have hz : (L1 :: S).countP (fun s => decide (L1 ++ [p] <+: s)) = 0 := by
          rw [List.countP_eq_zero]
          intro s hs hpre
          have hpre' : L1 ++ [p] <+: s := by simpa using hpre
          obtain ⟨a, ha, e⟩ := (h.nodes (L1 ++ [p])).2 (Or.inr ⟨s, hs, hpre'⟩)
          exact hkey a ha e
        rw [hz]
        simp [uint32]
      · have ha' : a < t.size := by omega
        rw [(hfr a ha').2.2, hold a ha', countP_prefix_concat (hkey a ha')]
        exact h.support a ha'
    · intro π
      rw [hsz]
      constructor
      · rintro ⟨a, ha, e⟩
        by_cases han : a = t.size
        · rw [han, hself] at e
          exact Or.inr ⟨_, List.mem_cons_self _ _, e ▸ List.prefix_refl _⟩
        · have ha' : a < t.size := by omega
          rw [hold a ha'] at e
          rcases (h.nodes π).1 ⟨a, ha', e⟩ with h1 | ⟨s, hs, hps⟩
          · exact Or.inl h1
          · rcases List.mem_cons.1 hs with rfl | hs
            · exact Or.inr ⟨_, List.mem_cons_self _ _, hps.trans (List.prefix_append _ _)⟩
            · exact Or.inr ⟨s, List.mem_cons_of_mem _ hs, hps⟩
      · intro hr
        have hlift : (∃ a, a < t.size ∧ paths a = π) →
            ∃ a, a < t.size + 1 ∧ Function.update paths t.size (L1 ++ [p]) a = π := by
          rintro ⟨a, ha, e⟩
          exact ⟨a, by omega, by rw [hold a ha]; exact e⟩
        rcases hr with h1 | ⟨s, hs, hps⟩
        · exact hlift ((h.nodes π).2 (Or.inl h1))
        · rcases List.mem_cons.1 hs with rfl | hs
          · rcases List.prefix_concat_iff.1 hps with e | hpre
            · exact ⟨t.size, by omega, by rw [hself, e]⟩
            · exact hlift ((h.nodes π).2 (Or.inr ⟨_, List.mem_cons_self _ _, hpre⟩))
          · exact hlift ((h.nodes π).2 (Or.inr ⟨s, List.mem_cons_of_mem _ hs, hps⟩))
    · rw [h2, hsz]; omega
    · rw [h2, hself]

theorem TrieInv.walk (L2 : List Nat) : ∀ {t : SchemaTree} {paths : Nat → List Nat}
    {L1 : List Nat} {S : List (List Nat)} {cur : Nat},
    TrieInv t paths (L1 :: S) → cur < t.size → paths cur = L1 →
    ∃ paths', TrieInv (L2.foldl SchemaTree.insertStep (t, cur)).1 paths' ((L1 ++ L2) :: S) := by
  induction L2 with
  | nil =>
    intro t paths L1 S cur h _ _
    exact ⟨paths, by simpa using h⟩
  | cons p L2 ih =>
    intro t paths L1 S cur h hc hp
    obtain ⟨paths', h', hc', hp'⟩ := h.step p hc hp
    obtain ⟨paths'', h''⟩ := ih (t := (SchemaTree.insertStep (t, cur) p).1) h' hc' hp'
    refine ⟨paths'', ?_⟩
    simpa [List.foldl_cons] using h''

/-- The trie invariant is kept by `Insert`, which walks the sorted property list. -/
theorem TrieInv.Insert {t : SchemaTree} {paths : Nat → List Nat} {T : List (List Nat)}
    (h : TrieInv t paths T) (e : SubjectSummary) :
    ∃ paths', TrieInv (t.Insert e) paths' (iList.sort t.PropMap e.Properties :: T) := by
  have h0 := h.start
  obtain ⟨paths', h'⟩ := TrieInv.walk (iList.sort t.PropMap e.Properties) h0
    h.size_pos h.root_path
  exact ⟨paths', by simpa [SchemaTree.Insert] using h'⟩

theorem map_modify_eq {α β : Type} (g : α → β) (f : α → α) (hfg : ∀ x, g (f x) = g x)
    (l : List α) (n : Nat) : (l.modify f n).map g = l.map g := by
  apply List.ext_getElem?
  intro i
  rw [List.getElem?_map, List.getElem?_map, List.getElem?_modify]
  cases l[i]? with
  | none => rfl
  | some x =>
    by_cases h : n = i
    · simp [h, hfg]
    · simp [h]

theorem SchemaTree.insertStep_record (t : SchemaTree) (cur p : Nat) :
    (SchemaTree.insertStep (t, cur) p).1.PropMap.map IItem.record = t.PropMap.map IItem.record := by
  cases hch : childFor (t.heap cur).Children p with
  | some c => rw [SchemaTree.insertStep_found hch]; rfl
  | none =>
    simp only [SchemaTree.insertStep, SchemaTree.getOrCreateChild, hch,
      SchemaTree.incrementSupport_PropMap]
    exact map_modify_eq IItem.record
      (fun it => { it with traversalPointer := some t.size }) (fun _ => rfl) _ _

theorem SchemaTree.walk_record (L : List Nat) : ∀ (t : SchemaTree) (cur : Nat),
    (L.foldl SchemaTree.insertStep (t, cur)).1.PropMap.map IItem.record
      = t.PropMap.map IItem.record := by
  induction L with
  | nil => intro t cur; rfl
  | cons p L ih =>
    intro t cur
    rw [List.foldl_cons]
    have := ih (SchemaTree.insertStep (t, cur) p).1 (SchemaTree.insertStep (t, cur) p).2
    rw [this, SchemaTree.insertStep_record]

theorem SchemaTree.Insert_record (t : SchemaTree) (e : SubjectSummary) :
    (t.Insert e).PropMap.map IItem.record = t.PropMap.map IItem.record := by
  unfold SchemaTree.Insert
  exact SchemaTree.walk_record _ _ _

theorem propMap.length_eq_of_record {m m' : propMap}
    (h : m'.map IItem.record = m.map IItem.record) : m'.length = m.length := by
  simpa using congrArg List.length h

theorem propMap.item_record_of_record {m m' : propMap}
    (h : m'.map IItem.record = m.map IItem.record) (p : Nat) :
    (propMap.item m' p).record = (propMap.item m p).record := by
  have h1 := congrArg (fun l => l[p]?) h
  simp only [List.getElem?_map] at h1
  unfold propMap.item
  rw [List.getD_eq_getElem?_getD, List.getD_eq_getElem?_getD]
  cases h2 : m'[p]? with
  | none =>
    cases h3 : m[p]? with
    | none => rfl
    | some y => rw [h2, h3] at h1; simp at h1
  | some x =>
    cases h3 : m[p]? with
    | none => rw [h2, h3] at h1; simp at h1
    | some y =>
      rw [h2, h3] at h1
      simpa using h1

theorem propMap.sortOrder_of_record {m m' : propMap}
    (h : m'.map IItem.record = m.map IItem.record) : m'.sortOrder = m.sortOrder := by
  funext p
  have := propMap.item_record_of_record h p
  simp only [IItem.record, Prod.mk.injEq] at this
  exact this.2.2

theorem iList.sort_eq_of_sortOrder {m m' : propMap} (h : m'.sortOrder = m.sortOrder)
    (l : IList) : iList.sort m' l = iList.sort m l := by
  have : (fun i j => decide ((propMap.item m' i).SortOrder < (propMap.item m' j).SortOrder))
      = (fun i j => decide ((propMap.item m i).SortOrder < (propMap.item m j).SortOrder)) := by
    funext i j
    have hi := congrFun h i
    have hj := congrFun h j
    simp only [propMap.sortOrder] at hi hj
    rw [hi, hj]
  unfold iList.sort
  rw [this]

/-- The trie invariant after a sequence of `Insert` calls. -/
theorem TrieInv.insertAll (subjects : List SubjectSummary) : ∀ {t : SchemaTree}
    {paths : Nat → List Nat} {T : List (List Nat)}, TrieInv t paths T →
    ∃ paths', TrieInv (subjects.foldl SchemaTree.Insert t) paths'
      ((subjects.map (fun e => iList.sort t.PropMap e.Properties)).reverse ++ T) ∧
      (subjects.foldl SchemaTree.Insert t).PropMap.map IItem.record
        = t.PropMap.map IItem.record := by
  induction subjects with
  | nil => intro t paths T h; exact ⟨paths, by simpa using h, rfl⟩
  | cons e es ih =>
    intro t paths T h
    obtain ⟨paths', h'⟩ := h.Insert e
    obtain ⟨paths'', h'', hrec⟩ := ih h'
    have hr := SchemaTree.Insert_record t e
    have hso := propMap.sortOrder_of_record hr
    refine ⟨paths'', ?_, by rw [List.foldl_cons, hrec, hr]⟩
    have : (fun e' : SubjectSummary => iList.sort (t.Insert e).PropMap e'.Properties)
        = (fun e' : SubjectSummary => iList.sort t.PropMap e'.Properties) := by
      funext e'
      exact iList.sort_eq_of_sortOrder hso _
    rw [this] at h''
    simpa [List.foldl_cons] using h''

/-- The walk up from a node returns the path of the node, read upwards. -/
theorem TrieInv.pathToRoot {t : SchemaTree} {paths : Nat → List Nat} {T : List (List Nat)}
    (h : TrieInv t paths T) : ∀ (a : Nat), a < t.size → ∀ fuel, a < fuel →
    t.pathToRoot fuel a = some (paths a).reverse := by
  intro a
  induction a using Nat.strong_induction_on with
  | _ a ih =>
    intro ha fuel hf
    cases fuel with
    | zero => omega
    | succ fuel =>
      by_cases h0 : a = 0
      · subst h0
        simp [SchemaTree.pathToRoot, h.root_parent, h.root_path]
      · obtain ⟨b, hba, hpar, hpath⟩ := h.parent a (by omega) ha
        simp only [SchemaTree.pathToRoot, hpar]
        rw [ih b hba (by omega) fuel (by omega), hpath]
        simp

theorem TrieInv.prefixContains {t : SchemaTree} {paths : Nat → List Nat} {T : List (List Nat)}
    (h : TrieInv t paths T) {a : Nat} (ha : a < t.size) (Q : IList) :
    t.prefixContains a Q = some (decide (∀ q ∈ Q, q ∈ paths a)) := by
  unfold SchemaTree.prefixContains
  rw [h.pathToRoot a ha t.size ha]
  simp only [Option.map_some', Option.some.injEq]
  rw [Bool.eq_iff_iff]
  simp [List.all_eq_true]

theorem SchemaTree.occurrences_congr {t t' : SchemaTree} (p : Nat) : ∀ (n : Nat),
    (∀ a, a < n → (t'.heap a).ID = (t.heap a).ID) → t'.occurrences p n = t.occurrences p n := by
  intro n
  induction n with
  | zero => intro _; rfl
  | succ n ih =>
    intro h
    simp only [SchemaTree.occurrences]
    rw [ih (fun a ha => h a (by omega)), h n (by omega)]

theorem SchemaTree.occurrences_head {t : SchemaTree} {p : Nat} : ∀ {n a : Nat},
    (t.occurrences p n).head? = some a →
    a < n ∧ 0 < a ∧ (t.heap a).ID = p ∧ t.occurrences p n = a :: t.occurrences p a := by
  intro n
  induction n with
  | zero => intro a h; simp [SchemaTree.occurrences] at h
  | succ n ih =>
    intro a h
    simp only [SchemaTree.occurrences] at h ⊢
    split at h
    · rename_i hc
      simp only [List.head?_cons, Option.some.injEq] at h
      subst h
      simp [hc]
    · rename_i hc
      obtain ⟨h1, h2, h3, h4⟩ := ih h
      simp only [hc, ↓reduceIte]
      exact ⟨by omega, h2, h3, h4⟩

theorem SchemaTree.mem_occurrences {t : SchemaTree} {p : Nat} : ∀ {n a : Nat},
    a ∈ t.occurrences p n ↔ (a < n ∧ 0 < a ∧ (t.heap a).ID = p) := by
  intro n
  induction n with
  | zero => intro a; simp [SchemaTree.occurrences]
  | succ n ih =>
    intro a
    simp only [SchemaTree.occurrences]
    split
    · rename_i hc
      rw [List.mem_cons, ih]
      constructor
      · rintro (rfl | ⟨h1, h2, h3⟩)
        · exact ⟨by omega, hc.1, hc.2⟩
        · exact ⟨by omega, h2, h3⟩
      · rintro ⟨h1, h2, h3⟩
        by_cases han : a = n
        · exact Or.inl han
        · exact Or.inr ⟨by omega, h2, h3⟩
    · rename_i hc
      rw [ih]
      constructor
      · rintro ⟨h1, h2, h3⟩
        exact ⟨by omega, h2, h3⟩
      · rintro ⟨h1, h2, h3⟩
        by_cases han : a = n
        · subst han; exact absurd ⟨h2, h3⟩ hc
        · exact ⟨by omega, h2, h3⟩

theorem SchemaTree.occurrences_nodup {t : SchemaTree} {p : Nat} : ∀ (n : Nat),
    (t.occurrences p n).Nodup := by
  intro n
  induction n with
  | zero => simp [SchemaTree.occurrences]
  | succ n ih =>
    simp only [SchemaTree.occurrences]
    split
    · rw [List.nodup_cons]
      refine ⟨?_, ih⟩
      rw [SchemaTree.mem_occurrences]
      omega
    · exact ih

theorem ChainInv.chainFresh {t : SchemaTree} (h : t.IsFresh) : ChainInv t := by
  obtain ⟨hs, _, _, _, hptr⟩ := h
  refine ⟨?_, ?_, ?_⟩
  · intro p hp
    rw [hs]
    simp only [SchemaTree.occurrences, Nat.lt_irrefl, false_and, ↓reduceIte, List.head?_nil]
    apply hptr
    unfold propMap.item
    rw [List.getD_eq_getElem _ _ hp]
    exact List.getElem_mem _
  · intro a h0 ha; omega
  · intro a h0 ha; omega

theorem propMap.item_modify (m : propMap) (f : IItem → IItem) (p q : Nat) (hp : p < m.length) :
    propMap.item (m.modify f p) q = if p = q then f (propMap.item m q) else propMap.item m q := by
  unfold propMap.item
  rw [List.getD_eq_getElem?_getD, List.getD_eq_getElem?_getD, List.getElem?_modify]
  by_cases h : p = q
  · subst h
    rw [List.getElem?_eq_getElem hp]
    simp
  · cases m[q]? with
    | none => simp [h]
    | some x => simp [h]

/-- One loop iteration of `Insert` keeps the occurrence chains. -/
theorem ChainInv.chainStep {t : SchemaTree} {cur : Nat} (p : Nat) (h : ChainInv t)
    (hc : cur < t.size) (hp : p < t.PropMap.length) :
    ChainInv (SchemaTree.insertStep (t, cur) p).1 := by
  cases hch : childFor (t.heap cur).Children p with
  | some c =>
    rw [SchemaTree.insertStep_found hch]
    have hid : ∀ a, ((t.incrementSupport c).heap a).ID = (t.heap a).ID := by
      intro a; rw [SchemaTree.incrementSupport_heap]
    have hocc : ∀ q n, (t.incrementSupport c).occurrences q n = t.occurrences q n :=
      fun q n => SchemaTree.occurrences_congr q n (fun a _ => hid a)
    refine ⟨?_, ?_, ?_⟩
    · intro q hq
      rw [hocc]
      exact h.head q hq
    · intro a h0 ha
      rw [hocc, hid, SchemaTree.incrementSupport_heap]
      exact h.next a h0 ha
    · intro a h0 ha
      rw [hid]
      exact h.valid a h0 ha
  | none =>
    obtain ⟨_, hsz, hpm, hnew, hcur, hoth⟩ := SchemaTree.insertStep_new hch hc
    have hpos : 0 < t.size := by omega
    have hfr : ∀ a, a < t.size →
        ((SchemaTree.insertStep (t, cur) p).1.heap a).ID = (t.heap a).ID ∧
        ((SchemaTree.insertStep (t, cur) p).1.heap a).nextSameID = (t.heap a).nextSameID := by
      intro a ha
      by_cases hac : a = cur
      · subst hac; rw [hcur]; exact ⟨rfl, rfl⟩
      · rw [hoth a hac (Nat.ne_of_lt ha)]; exact ⟨rfl, rfl⟩
    have hocc : ∀ q n, n ≤ t.size →
        (SchemaTree.insertStep (t, cur) p).1.occurrences q n = t.occurrences q n :=
      fun q n hn => SchemaTree.occurrences_congr q n (fun a ha => (hfr a (by omega)).1)
    have hlen : ((SchemaTree.insertStep (t, cur) p).1.PropMap).length = t.PropMap.length := by
      rw [hpm]; simp
    refine ⟨?_, ?_, ?_⟩
    · intro q hq
      rw [hsz, hpm, propMap.item_modify _ _ _ _ hp]
      simp only [SchemaTree.occurrences, hnew, hpos, true_and]
      by_cases hpq : p = q
      · simp [hpq]
      · simp only [hpq, ↓reduceIte]
        rw [hocc q _ (Nat.le_refl _)]
        rw [hlen] at hq
        exact h.head q hq
    · intro a h0 ha
      rw [hsz] at ha
      by_cases han : a = t.size
      · subst han
        rw [hnew, hocc _ _ (Nat.le_refl _)]
        exact h.head p hp
      · have ha' : a < t.size := by omega
        rw [(hfr a ha').1, (hfr a ha').2, hocc _ _ (by omega)]
        exact h.next a h0 ha'
    · intro a h0 ha
      rw [hsz] at ha
      rw [hlen]
      by_cases han : a = t.size
      · subst han
        rw [hnew]; exact hp
      · have ha' : a < t.size := by omega
        rw [(hfr a ha').1]
        exact h.valid a h0 ha'

theorem ChainInv.chainWalk (L2 : List Nat) : ∀ {t : SchemaTree} {paths : Nat → List Nat}
    {L1 : List Nat} {S : List (List Nat)} {cur : Nat},
    TrieInv t paths (L1 :: S) → ChainInv t → cur < t.size → paths cur = L1 →
    (∀ p ∈ L2, p < t.PropMap.length) →
    ChainInv (L2.foldl SchemaTree.insertStep (t, cur)).1 := by
  induction L2 with
  | nil => intro t paths L1 S cur _ hch _ _ _; exact hch
  | cons p L2 ih =>
    intro t paths L1 S cur h hch hc hp hv
    obtain ⟨paths', h', hc', hp'⟩ := h.step p hc hp
    have hch' := hch.chainStep p hc (hv p (List.mem_cons_self _ _))
    have hlen := propMap.length_eq_of_record (SchemaTree.insertStep_record t cur p)
    rw [List.foldl_cons]
    exact ih (t := (SchemaTree.insertStep (t, cur) p).1) h' hch' hc' hp'
      (fun q hq => by rw [hlen]; exact hv q (List.mem_cons_of_mem _ hq))

theorem ChainInv.chainStart {t : SchemaTree} (h : ChainInv t) : ChainInv (t.incrementSupport 0) := by
  have hid : ∀ a, ((t.incrementSupport 0).heap a).ID = (t.heap a).ID := by
    intro a; rw [SchemaTree.incrementSupport_heap]
  have hocc : ∀ q n, (t.incrementSupport 0).occurrences q n = t.occurrences q n :=
    fun q n => SchemaTree.occurrences_congr q n (fun a _ => hid a)
  refine ⟨?_, ?_, ?_⟩
  · intro q hq
    rw [hocc]
    exact h.head q hq
  · intro a h0 ha
    rw [hocc, hid, SchemaTree.incrementSupport_heap]
    exact h.next a h0 ha
  · intro a h0 ha
    rw [hid]
    exact h.valid a h0 ha

/-- The occurrence chains are kept by `Insert` of a subject whose properties are records
of the dictionary. -/
theorem ChainInv.chainInsert {t : SchemaTree} {paths : Nat → List Nat} {T : List (List Nat)}
    (h : TrieInv t paths T) (hch : ChainInv t) (e : SubjectSummary)
    (hv : ∀ p ∈ e.Properties, p < t.PropMap.length) : ChainInv (t.Insert e) := by
  unfold SchemaTree.Insert
  refine ChainInv.chainWalk _ h.start hch.chainStart h.size_pos h.root_path ?_
  intro p hp
  exact hv p ((iList.sort_perm _ _).mem_iff.1 hp)

theorem ChainInv.chainInsertAll (subjects : List SubjectSummary) : ∀ {t : SchemaTree}
    {paths : Nat → List Nat} {T : List (List Nat)}, TrieInv t paths T → ChainInv t →
    (∀ e ∈ subjects, ∀ p ∈ e.Properties, p < t.PropMap.length) →
    ChainInv (subjects.foldl SchemaTree.Insert t) := by
  induction subjects with
  | nil => intro t paths T _ hch _; exact hch
  | cons e es ih =>
    intro t paths T h hch hv
    obtain ⟨paths', h'⟩ := h.Insert e
    have hch' := ChainInv.chainInsert h hch e (hv e (List.mem_cons_self _ _))
    have hlen := propMap.length_eq_of_record (SchemaTree.Insert_record t e)
    rw [List.foldl_cons]
    exact ih h' hch' (fun e' he' p hp => by
      rw [hlen]; exact hv e' (List.mem_cons_of_mem _ he') p hp)

/-- The loop of `Support` over an occurrence chain, as a fold over the occurrences. -/
theorem SchemaTree.supportLoop_eq {t : SchemaTree} {paths : Nat → List Nat}
    {T : List (List Nat)} (h : TrieInv t paths T) (hch : ChainInv t) (Q : IList) (p : Nat) :
    ∀ (n : Nat), n ≤ t.size → ∀ (fuel : Nat), n ≤ fuel → ∀ (acc : Nat),
    t.supportLoop Q fuel (t.occurrences p n).head? acc =
      some ((t.occurrences p n).foldl
        (fun acc a => if ∀ q ∈ Q, q ∈ paths a then uint32 (acc + (t.heap a).Support) else acc)
        acc) := by
  intro n
  induction n using Nat.strong_induction_on with
  | _ n ih =>
    intro hn fuel hf acc
    cases hh : (t.occurrences p n).head? with
    | none =>
      have : t.occurrences p n = [] := by
        cases hl : t.occurrences p n with
        | nil => rfl
        | cons x xs => rw [hl] at hh; simp at hh
      rw [this]
      cases fuel <;> simp [SchemaTree.supportLoop]
    | some a =>
      obtain ⟨han, ha0, hid, hocc⟩ := SchemaTree.occurrences_head hh
      cases fuel with
      | zero => omega
      | succ fuel =>
        have ha : a < t.size := by omega
        have hnext := hch.next a ha0 ha
        rw [hid] at hnext
        rw [hocc, List.foldl_cons]
        simp only [SchemaTree.supportLoop, h.prefixContains ha Q]
        by_cases hq : ∀ q ∈ Q, q ∈ paths a
        · rw [decide_eq_true hq, if_pos hq]
          simp only
          rw [hnext]
          exact ih a han (by omega) fuel (by omega) _
        · rw [decide_eq_false hq, if_neg hq]
          simp only
          rw [hnext]
          exact ih a han (by omega) fuel (by omega) _

theorem foldl_uint32_sum {ι : Type} (c : ι → Prop) [DecidablePred c] (x : ι → Nat) (l : List ι) :
    ∀ (acc : Nat), acc < 2 ^ 32 →
    l.foldl (fun acc a => if c a then uint32 (acc + x a) else acc) acc
      = (acc + (l.map (fun a => if c a then x a else 0)).sum) % 2 ^ 32 := by
  induction l with
  | nil =>
    intro acc h
    simp only [List.foldl_nil, List.map_nil, List.sum_nil, Nat.add_zero]
    exact (Nat.mod_eq_of_lt h).symm
  | cons a l ih =>
    intro acc h
    rw [List.foldl_cons, List.map_cons, List.sum_cons]
    by_cases ha : c a
    · simp only [ha, ↓reduceIte]
      have hlt : uint32 (acc + x a) < 2 ^ 32 := Nat.mod_lt _ (by norm_num)
      rw [ih _ hlt]
      simp only [uint32]
      omega
    · simp only [ha, ↓reduceIte]
      rw [ih _ h]
      simp

theorem sum_map_ite_eq_filter {ι : Type} (c : ι → Prop) [DecidablePred c] (f : ι → Nat)
    (l : List ι) :
    (l.map (fun a => if c a then f a else 0)).sum = ((l.filter (fun a => decide (c a))).map f).sum := by
  induction l with
  | nil => rfl
  | cons a l ih =>
    by_cases h : c a
    · simp [h, ih]
    · simp [h, ih]

theorem sum_map_ite_one {ι : Type} (c : ι → Bool) (l : List ι) :
    (l.map (fun a => if c a = true then 1 else 0)).sum = l.countP c := by
  induction l with
  | nil => rfl
  | cons a l ih =>
    rw [List.map_cons, List.sum_cons, List.countP_cons, ih]
    omega

/-- Counting pairs by rows or by columns: if every `s` is related to exactly one member
of `A` when `P s` holds and to none otherwise, the row counts add up to the number of
`s` with `P s`. -/
theorem sum_countP_swap {ι σ : Type} (A : List ι) (R : ι → σ → Bool) (P : σ → Bool) :
    ∀ (T : List σ), (∀ s ∈ T, A.countP (fun a => R a s) = if P s = true then 1 else 0) →
    (A.map (fun a => T.countP (R a))).sum = T.countP P := by
  intro T
  induction T with
  | nil => intro _; simp
  | cons s T ih =>
    intro h
    have h1 : (fun a => (s :: T).countP (R a))
        = (fun a => T.countP (R a) + (if R a s = true then 1 else 0)) := by
      funext a
      rw [List.countP_cons]
    rw [h1, List.sum_map_add, ih (fun s' hs' => h s' (List.mem_cons_of_mem _ hs')),
      sum_map_ite_one (fun a => R a s), h s (List.mem_cons_self _ _), List.countP_cons]

theorem countP_eq_one_of_unique {ι : Type} (P : ι → Bool) :
    ∀ (l : List ι) (a : ι), l.Nodup → a ∈ l → P a = true →
    (∀ b ∈ l, P b = true → b = a) → l.countP P = 1 := by
  intro l
  induction l with
  | nil => intro a _ ha; simp at ha
  | cons x l ih =>
    intro a hnd ha hPa huniq
    rw [List.nodup_cons] at hnd
    rw [List.countP_cons]
    rcases List.mem_cons.1 ha with rfl | hal
    · have hz : l.countP P = 0 := by
        rw [List.countP_eq_zero]
        intro b hb hPb
        have := huniq b (List.mem_cons_of_mem _ hb) hPb
        rw [this] at hb
        exact hnd.1 hb
      simp [hz, hPa]
    · have hx : ¬ (P x = true) := by
        intro hPx
        have := huniq x (List.mem_cons_self _ _) hPx
        rw [this] at hnd
        exact hnd.1 hal
      rw [ih a hnd.2 hal hPa (fun b hb hPb => huniq b (List.mem_cons_of_mem _ hb) hPb)]
      simp [hx]

theorem nodup_split_unique {α : Type} {x : α} : ∀ {u u' v v' : List α},
    (u ++ x :: v).Nodup → u ++ x :: v = u' ++ x :: v' → u = u' := by
  intro u
  induction u with
  | nil =>
    intro u' v v' hnd e
    cases u' with
    | nil => rfl
    | cons y u' =>
      simp only [List.nil_append, List.cons_append, List.cons.injEq] at e
      obtain ⟨rfl, e2⟩ := e
      rw [List.nil_append, List.nodup_cons] at hnd
      exact absurd (by rw [e2]; simp) hnd.1
  | cons y u ih =>
    intro u' v v' hnd e
    cases u' with
    | nil =>
      simp only [List.nil_append, List.cons_append, List.cons.injEq] at e
      obtain ⟨rfl, e2⟩ := e
      rw [List.cons_append, List.nodup_cons] at hnd
      exact absurd (by simp) hnd.1
    | cons z u' =>
      simp only [List.cons_append, List.cons.injEq] at e
      obtain ⟨rfl, e2⟩ := e
      rw [List.cons_append, List.nodup_cons] at hnd
      rw [ih hnd.2 e2]

/-- For a walked sequence `s`: among the nodes that carry the last query property on a
path containing the query, exactly one lies on `s` if `s` contains the query, and none
otherwise. -/
theorem TrieInv.countP_occurrences {t : SchemaTree} {paths : Nat → List Nat}
    {T : List (List Nat)} (h : TrieInv t paths T) (Q : IList) (qs : Nat) (hqs : qs ∈ Q)
    (s : List Nat) (hs : s ∈ T) (hnd : s.Nodup)
    (hH : ∀ s1 s2, s = s1 ++ qs :: s2 → (∀ q ∈ Q, q ∈ s) → ∀ q ∈ Q, q ∈ s1 ++ [qs]) :
    ((t.occurrences qs t.size).filter (fun a => decide (∀ q ∈ Q, q ∈ paths a))).countP
        (fun a => decide (paths a <+: s))
      = if decide (∀ q ∈ Q, q ∈ s) = true then 1 else 0 := by
  by_cases hQ : ∀ q ∈ Q, q ∈ s
  · rw [decide_eq_true hQ, if_pos rfl]
    obtain ⟨s1, s2, hsplit⟩ := List.append_of_mem (hQ qs hqs)
    have hpre : s1 ++ [qs] <+: s := by
      rw [hsplit]
      exact ⟨s2, by simp⟩
    obtain ⟨a, ha, hpa⟩ := (h.nodes (s1 ++ [qs])).2 (Or.inr ⟨s, hs, hpre⟩)
    have ha0 : 0 < a := by
      rcases Nat.eq_zero_or_pos a with h0 | h0
      · rw [h0, h.root_path] at hpa
        simp at hpa
      · exact h0
    obtain ⟨b, _, _, hpb⟩ := h.parent a ha0 ha
    have hid : (t.heap a).ID = qs := by
      rw [hpa] at hpb
      have := List.append_inj' hpb rfl
      simpa using this.2.symm
    refine countP_eq_one_of_unique _ _ a
      ((SchemaTree.occurrences_nodup _).sublist (List.filter_sublist _)) ?_ ?_ ?_
    · rw [List.mem_filter, SchemaTree.mem_occurrences]
      refine ⟨⟨ha, ha0, hid⟩, ?_⟩
      rw [decide_eq_true_iff, hpa]
      exact hH s1 s2 hsplit hQ
    · rw [decide_eq_true_iff, hpa]; exact hpre
    · intro a' ha' hpa'
      rw [List.mem_filter, SchemaTree.mem_occurrences] at ha'
      obtain ⟨⟨ha's, ha'0, hid'⟩, _⟩ := ha'
      rw [decide_eq_true_iff] at hpa'
      obtain ⟨b', _, _, hpb'⟩ := h.parent a' ha'0 ha's
      rw [hid'] at hpb'
      obtain ⟨rest, hrest⟩ := hpa'
      rw [hpb', List.append_assoc, List.singleton_append] at hrest
      have hnd' : (paths b' ++ qs :: rest).Nodup := by rw [hrest]; exact hnd
      have := nodup_split_unique hnd' (hrest.trans hsplit)
      apply h.inj a' a ha's ha
      rw [hpb', hpa, this]
  · rw [decide_eq_false hQ, if_neg (by simp)]
    rw [List.countP_eq_zero]
    intro a ha hpa
    rw [List.mem_filter, decide_eq_true_iff] at ha
    rw [decide_eq_true_iff] at hpa
    exact hQ (fun q hq => hpa.subset (ha.2 q hq))

theorem lastSorted_mem (m : propMap) {Q : IList} (hQ : Q ≠ []) : lastSorted m Q ∈ Q := by
  have hperm := iList.sort_perm m Q
  have hne : iList.sort m Q ≠ [] := fun h => hQ (by simpa [h] using hperm.symm)
  have hpos : 0 < (iList.sort m Q).length := List.length_pos.2 hne
  unfold lastSorted
  rw [List.getD_eq_getElem _ _ (by omega)]
  exact hperm.mem_iff.1 (List.getElem_mem _)

theorem sum_mod_congr {ι : Type} (f g : ι → Nat) (l : List ι)
    (h : ∀ a ∈ l, f a % 2 ^ 32 = g a % 2 ^ 32) :
    (l.map f).sum % 2 ^ 32 = (l.map g).sum % 2 ^ 32 := by
  induction l with
  | nil => rfl
  | cons a l ih =>
    rw [List.map_cons, List.map_cons, List.sum_cons, List.sum_cons]
    have h1 := h a (List.mem_cons_self _ _)
    have h2 := ih (fun b hb => h b (List.mem_cons_of_mem _ hb))
    omega

/-- The value of `Support` on a tree that satisfies the invariants: the number of walked
sequences that contain the query, in 32-bit arithmetic. The hypothesis `hH` says that in
a walked sequence that contains the query, the query lies in the part up to the last
query property. -/
theorem TrieInv.Support_eq {t : SchemaTree} {paths : Nat → List Nat} {T : List (List Nat)}
    (h : TrieInv t paths T) (hch : ChainInv t) (Q : IList) (hQ : Q ≠ [])
    (hv : lastSorted t.PropMap Q < t.PropMap.length)
    (hnd : ∀ s ∈ T, s.Nodup)
    (hH : ∀ s ∈ T, ∀ s1 s2, s = s1 ++ lastSorted t.PropMap Q :: s2 → (∀ q ∈ Q, q ∈ s) →
      ∀ q ∈ Q, q ∈ s1 ++ [lastSorted t.PropMap Q])
    (fuel : Nat) (hf : t.size ≤ fuel) :
    t.SupportWithin fuel Q = some (T.countP (fun s => decide (∀ q ∈ Q, q ∈ s)) % 2 ^ 32) := by
  have hperm := iList.sort_perm t.PropMap Q
  have hlen : Q.length ≠ 0 := fun h0 => hQ (List.length_eq_zero.1 h0)
  have hall : ∀ a, (∀ q ∈ iList.sort t.PropMap Q, q ∈ paths a) ↔ (∀ q ∈ Q, q ∈ paths a) :=
    fun a => ⟨fun hh q hq => hh q (hperm.mem_iff.2 hq), fun hh q hq => hh q (hperm.mem_iff.1 hq)⟩
  unfold SchemaTree.SupportWithin
  rw [if_neg hlen]
  simp only
  change t.supportLoop (iList.sort t.PropMap Q) fuel
    (propMap.item t.PropMap (lastSorted t.PropMap Q)).traversalPointer 0 = _
  rw [hch.head _ hv, SchemaTree.supportLoop_eq h hch _ _ t.size (Nat.le_refl _) fuel hf,
    foldl_uint32_sum (fun a => ∀ q ∈ iList.sort t.PropMap Q, q ∈ paths a) _ _ 0 (by norm_num),
    Nat.zero_add]
  congr 1
  rw [sum_mod_congr _ (fun a => if ∀ q ∈ Q, q ∈ paths a
      then T.countP (fun s => decide (paths a <+: s)) else 0)]
  · rw [sum_map_ite_eq_filter,
      sum_countP_swap _ (fun a s => decide (paths a <+: s)) (fun s => decide (∀ q ∈ Q, q ∈ s))]
    intro s hs
    exact h.countP_occurrences Q _ (lastSorted_mem _ hQ) s hs (hnd s hs) (hH s hs)
  · intro a ha
    rw [SchemaTree.mem_occurrences] at ha
    by_cases hq : ∀ q ∈ Q, q ∈ paths a
    · rw [if_pos ((hall a).2 hq), if_pos hq, h.support a ha.1]
      exact Nat.mod_mod _ _
    · rw [if_neg (fun hh => hq ((hall a).1 hh)), if_neg hq]

theorem lastSorted_max (m : propMap) {Q : IList} {q : Nat} (hq : q ∈ Q) :
    m.sortOrder q ≤ m.sortOrder (lastSorted m Q) := by
  have hperm := iList.sort_perm m Q
  have hs := iList.sort_sorted m Q
  have hq' : q ∈ iList.sort m Q := hperm.mem_iff.2 hq
  obtain ⟨i, hi, hqi⟩ := List.getElem_of_mem hq'
  unfold lastSorted
  rw [List.getD_eq_getElem _ _ (by omega)]
  by_cases hlast : i = (iList.sort m Q).length - 1
  · subst hlast
    rw [← hqi]
  · rw [← hqi]
    exact (List.pairwise_iff_getElem.1 hs) i _ hi (by omega) (by omega)

/-- With pairwise distinct sort orders, a sorted duplicate-free sequence that contains
the query contains it in the part up to the last query property. -/
theorem query_in_front {m : propMap} {Q : IList} {s : List Nat}
    (hsorted : s.Pairwise (fun a b => m.sortOrder a ≤ m.sortOrder b)) (hnd : s.Nodup)
    (hinj : ∀ a ∈ s, ∀ b ∈ s, m.sortOrder a = m.sortOrder b → a = b)
    (s1 s2 : List Nat) (hsplit : s = s1 ++ lastSorted m Q :: s2) (hQ : ∀ q ∈ Q, q ∈ s) :
    ∀ q ∈ Q, q ∈ s1 ++ [lastSorted m Q] := by
  intro q hq
  have hqs := hQ q hq
  have hmax := lastSorted_max m hq
  have hls : lastSorted m Q ∈ s := by rw [hsplit]; simp
  rw [hsplit, List.mem_append, List.mem_cons] at hqs
  rcases hqs with h1 | h1 | h1
  · exact List.mem_append_left _ h1
  · rw [h1]; simp
  · exfalso
    rw [hsplit] at hsorted hnd
    have hle : m.sortOrder (lastSorted m Q) ≤ m.sortOrder q := by
      have := (List.pairwise_append.1 hsorted).2.1
      exact (List.pairwise_cons.1 this).1 q h1
    have heq : q = lastSorted m Q :=
      hinj q (hQ q hq) _ hls (Nat.le_antisymm hmax hle)
    have hnd2 := (List.nodup_append.1 hnd).2.1
    rw [heq] at h1
    exact (List.nodup_cons.1 hnd2).1 h1

theorem sortOrder_inj_of_nodup {m : propMap} (h : (m.map (·.SortOrder)).Nodup) {a b : Nat}
    (ha : a < m.length) (hb : b < m.length) (e : m.sortOrder a = m.sortOrder b) : a = b := by
  have ha' : a < (m.map (·.SortOrder)).length := by simpa using ha
  have hb' : b < (m.map (·.SortOrder)).length := by simpa using hb
  have := (@List.Nodup.getElem_inj_iff _ _ h a ha' b hb').1
  apply this
  simp only [List.getElem_map]
  simp only [propMap.sortOrder, propMap.item] at e
  rw [List.getD_eq_getElem _ _ ha, List.getD_eq_getElem _ _ hb] at e
  exact e

theorem iList.sort_nodup (m : propMap) {l : IList} (h : l.Nodup) : (iList.sort m l).Nodup :=
  (iList.sort_perm m l).nodup_iff.2 h

theorem countP_hasAll (m : propMap) (Q : IList) (subjects : List SubjectSummary) :
    ((subjects.map (fun (e : SubjectSummary) => iList.sort m e.Properties)).reverse ++ []).countP
        (fun s => decide (∀ q ∈ Q, q ∈ s))
      = subjects.countP (SubjectSummary.hasAll Q) := by
  rw [List.append_nil, (List.reverse_perm _).countP_eq, List.countP_map]
  apply List.countP_congr
  intro e _
  simp only [Function.comp, SubjectSummary.hasAll, List.all_eq_true, decide_eq_true_iff]
  constructor
  · intro hh q hq; exact (iList.sort_perm m _).mem_iff.1 (hh q hq)
  · intro hh q hq; exact (iList.sort_perm m _).mem_iff.2 (hh q hq)

/-- The invariants of a tree obtained from a fresh tree by `Insert` calls. -/
theorem SchemaTree.insertAll_inv {t0 : SchemaTree} (hf : t0.IsFresh)
    (subjects : List SubjectSummary) :
    ∃ paths, TrieInv (t0.insertAll subjects) paths
        ((subjects.map (fun e => iList.sort t0.PropMap e.Properties)).reverse ++ []) ∧
      (t0.insertAll subjects).PropMap.map IItem.record = t0.PropMap.map IItem.record ∧
      ((∀ e ∈ subjects, ∀ p ∈ e.Properties, p < t0.PropMap.length) →
        ChainInv (t0.insertAll subjects)) := by
  obtain ⟨paths, h, hrec⟩ := TrieInv.insertAll subjects (TrieInv.fresh hf)
  exact ⟨paths, h, hrec, fun hv => ChainInv.chainInsertAll subjects (TrieInv.fresh hf)
    (ChainInv.chainFresh hf) hv⟩

/-- The value of `Support` after `Insert` calls, in 32-bit arithmetic: the number of
inserted subjects that carry every property of the query. -/
theorem SchemaTree.Support_insertAll {t0 : SchemaTree} (hf : t0.IsFresh)
    (hd : (t0.PropMap.map (·.SortOrder)).Nodup) (subjects : List SubjectSummary)
    (hv : ∀ e ∈ subjects, ∀ p ∈ e.Properties, p < t0.PropMap.length)
    (Q : IList) (hQ : Q ≠ []) (hQv : ∀ q ∈ Q, q < t0.PropMap.length) :
    (t0.insertAll subjects).Support Q
      = some (subjects.countP (SubjectSummary.hasAll Q) % 2 ^ 32) := by
  obtain ⟨paths, h, hrec, hch⟩ := SchemaTree.insertAll_inv hf subjects
  have hso := propMap.sortOrder_of_record hrec
  have hlen := propMap.length_eq_of_record hrec
  have hsort := iList.sort_eq_of_sortOrder hso
  have hlast : lastSorted (t0.insertAll subjects).PropMap Q = lastSorted t0.PropMap Q := by
    unfold lastSorted; rw [hsort]
  have hmemT : ∀ s ∈ (subjects.map (fun e => iList.sort t0.PropMap e.Properties)).reverse ++ [],
      ∃ e ∈ subjects, s = iList.sort t0.PropMap e.Properties := by
    intro s hs
    rw [List.append_nil, List.mem_reverse, List.mem_map] at hs
    obtain ⟨e, he, rfl⟩ := hs
    exact ⟨e, he, rfl⟩
  have h1 : lastSorted (t0.insertAll subjects).PropMap Q
      < (t0.insertAll subjects).PropMap.length := by
    rw [hlast, hlen]; exact hQv _ (lastSorted_mem _ hQ)
  have h2 : ∀ s ∈ (subjects.map (fun e => iList.sort t0.PropMap e.Properties)).reverse ++ [],
      s.Nodup := by
    intro s hs
    obtain ⟨e, _, rfl⟩ := hmemT s hs
    exact iList.sort_nodup _ e.nodup
  have h3 : ∀ s ∈ (subjects.map (fun e => iList.sort t0.PropMap e.Properties)).reverse ++ [],
      ∀ s1 s2, s = s1 ++ lastSorted (t0.insertAll subjects).PropMap Q :: s2 →
      (∀ q ∈ Q, q ∈ s) → ∀ q ∈ Q, q ∈ s1 ++ [lastSorted (t0.insertAll subjects).PropMap Q] := by
    intro s hs
    obtain ⟨e, he, rfl⟩ := hmemT s hs
    rw [hlast]
    refine query_in_front (iList.sort_sorted _ _) (iList.sort_nodup _ e.nodup) ?_
    intro a ha b hb hab
    have ha' := hv e he a ((iList.sort_perm _ _).mem_iff.1 ha)
    have hb' := hv e he b ((iList.sort_perm _ _).mem_iff.1 hb)
    exact sortOrder_inj_of_nodup hd ha' hb' hab
  unfold SchemaTree.Support
  rw [h.Support_eq (hch hv) Q hQ h1 h2 h3 _ (Nat.le_refl _), countP_hasAll]

/-- The support of the root after `Insert` calls, in 32-bit arithmetic. -/
theorem Support_empty_count_aux (t0 : SchemaTree) (hfresh : t0.IsFresh)
    (subjects : List SubjectSummary) :
    (t0.insertAll subjects).Support [] = some (t0.insertAll subjects).Root.Support ∧
    (t0.insertAll subjects).Root.Support = subjects.length % 2 ^ 32 := by
  obtain ⟨paths, h, _, _⟩ := SchemaTree.insertAll_inv hfresh subjects
  refine ⟨rfl, ?_⟩
  have := h.support 0 h.size_pos
  rw [h.root_path] at this
  simpa only [List.nil_prefix, decide_True, List.countP_true, List.append_nil,
    List.length_reverse, List.length_map] using this

/-- C1. Support is exact: on a tree obtained from a fresh tree by fewer than `2 ^ 32`
`Insert` calls, over a dictionary with pairwise distinct sort orders, `Support` of a
non-empty list `Q` of dictionary properties returns the number of inserted subjects whose
property set contains every property of `Q`; it returns `0` when `Q` contains a property
that no inserted subject carries. -/
theorem Support_exact (t0 : SchemaTree) (hfresh : t0.IsFresh)
    (hdistinct : (t0.PropMap.map (·.SortOrder)).Nodup)
    (subjects : List SubjectSummary) (hn : subjects.length < 2 ^ 32)
    (hdict : ∀ e ∈ subjects, ∀ p ∈ e.Properties, p < t0.PropMap.length)
    (Q : IList) (hQ : Q ≠ []) (hQdict : ∀ q ∈ Q, q < t0.PropMap.length) :
    (t0.insertAll subjects).Support Q = some (subjects.countP (SubjectSummary.hasAll Q)) ∧
    ((∃ q ∈ Q, ∀ e ∈ subjects, q ∉ e.Properties) →
      (t0.insertAll subjects).Support Q = some 0) := by
  have h := SchemaTree.Support_insertAll hfresh hdistinct subjects hdict Q hQ hQdict
  have hle : subjects.countP (SubjectSummary.hasAll Q) ≤ subjects.length := List.countP_le_length _
  rw [Nat.mod_eq_of_lt (by omega)] at h
  refine ⟨h, ?_⟩
  rintro ⟨q, hq, hnone⟩
  rw [h]
  congr 1
  rw [List.countP_eq_zero]
  intro e he hall
  simp only [SubjectSummary.hasAll, List.all_eq_true, decide_eq_true_iff] at hall
  exact hnone e he (hall q hq)

/-- C1, at the single subject with the properties `A`, `B`, `C`:
`Support([A]) = 1` and `Support([A, D]) = 0`. -/
theorem Support_exact_witness :
    (abcdTree.insertAll [subjectABC]).Support [1] = some 1 ∧
    (abcdTree.insertAll [subjectABC]).Support [1, 4] = some 0 :=
  ⟨(Support_exact abcdTree (by decide) (by decide) [subjectABC] (by decide) (by decide)
      [1] (by decide) (by decide)).1.trans (by decide),
   (Support_exact abcdTree (by decide) (by decide) [subjectABC] (by decide) (by decide)
      [1, 4] (by decide) (by decide)).2 ⟨4, by decide, by decide⟩⟩

/-- C2. On a tree obtained from a fresh tree by `n < 2 ^ 32` `Insert` calls, `Support`
of the empty list returns `Root.Support`, and both equal `n`. -/
theorem Support_empty_eq_count (t0 : SchemaTree) (hfresh : t0.IsFresh)
    (subjects : List SubjectSummary) (hn : subjects.length < 2 ^ 32) :
    (t0.insertAll subjects).Support [] = some (t0.insertAll subjects).Root.Support ∧
    (t0.insertAll subjects).Root.Support = subjects.length := by
  obtain ⟨paths, h, _, _⟩ := SchemaTree.insertAll_inv hfresh subjects
  refine ⟨rfl, ?_⟩
  have := h.support 0 h.size_pos
  rw [h.root_path] at this
  simp only [List.nil_prefix, decide_True, List.countP_true, List.append_nil,
    List.length_reverse, List.length_map] at this
  rw [Nat.mod_eq_of_lt hn] at this
  exact this

/-- C2, at three inserts into the tree that `New` returns. -/
theorem Support_empty_eq_count_witness :
    (New false 1).IsFresh ∧
    ((New false 1).insertAll [⟨[], by decide⟩, ⟨[], by decide⟩, ⟨[], by decide⟩]).Support []
      = some 3 :=
  ⟨by decide,
   (Support_empty_eq_count (New false 1) (by decide)
      [⟨[], by decide⟩, ⟨[], by decide⟩, ⟨[], by decide⟩] (by decide)).1.trans
     (congrArg some (Support_empty_eq_count (New false 1) (by decide)
      [⟨[], by decide⟩, ⟨[], by decide⟩, ⟨[], by decide⟩] (by decide)).2)⟩

theorem countP_hasAll_congr {Q Q' : IList} (h : ∀ x, x ∈ Q' ↔ x ∈ Q)
    (subjects : List SubjectSummary) :
    subjects.countP (SubjectSummary.hasAll Q') = subjects.countP (SubjectSummary.hasAll Q) := by
  apply List.countP_congr
  intro e _
  simp only [SubjectSummary.hasAll, List.all_eq_true, decide_eq_true_iff]
  exact ⟨fun hh q hq => hh q ((h q).2 hq), fun hh q hq => hh q ((h q).1 hq)⟩

/-- C3, the claim as stated fails: in a dictionary where `A` and `B` have the same sort
order, after the insert of one subject with `A` and `B`, `Support([A, B])` is `1` and
`Support([B, A])` is `0`. -/
theorem Support_permutation_tie :
    tieTree.IsFresh ∧ List.Perm [1, 2] [2, 1] ∧
    (tieTree.insertAll [subjectAB]).Support [1, 2] = some 1 ∧
    (tieTree.insertAll [subjectAB]).Support [2, 1] = some 0 :=
  ⟨by decide, List.Perm.swap _ _ _, by decide, by decide⟩

/-- C3, as amended. Support is permutation invariant when the sort orders of the
dictionary are pairwise distinct: on a tree obtained from a fresh tree by `Insert` calls,
`Support` returns the same value for two lists of dictionary properties that are
permutations of each other. -/
theorem Support_permutation_invariant (t0 : SchemaTree) (hfresh : t0.IsFresh)
    (hdistinct : (t0.PropMap.map (·.SortOrder)).Nodup)
    (subjects : List SubjectSummary)
    (hdict : ∀ e ∈ subjects, ∀ p ∈ e.Properties, p < t0.PropMap.length)
    (Q Q' : IList) (hperm : Q.Perm Q') (hQdict : ∀ q ∈ Q, q < t0.PropMap.length) :
    ∃ n, (t0.insertAll subjects).Support Q = some n ∧
      (t0.insertAll subjects).Support Q' = some n := by
  cases Q with
  | nil =>
    have : Q' = [] := List.Perm.eq_nil hperm.symm
    subst this
    exact ⟨_, rfl, rfl⟩
  | cons q Q =>
    have hQ' : Q' ≠ [] := fun h => by
      rw [h] at hperm
      exact List.cons_ne_nil _ _ (List.Perm.eq_nil hperm)
    have hQ'dict : ∀ x ∈ Q', x < t0.PropMap.length := fun x hx => hQdict x (hperm.mem_iff.2 hx)
    refine ⟨_, SchemaTree.Support_insertAll hfresh hdistinct subjects hdict _
      (List.cons_ne_nil _ _) hQdict, ?_⟩
    rw [SchemaTree.Support_insertAll hfresh hdistinct subjects hdict _ hQ' hQ'dict,
      countP_hasAll_congr (fun x => hperm.mem_iff.symm) subjects]

/-- C3 as amended, at the single subject with `A`, `B`, `C` and the query `[C, A]`. -/
theorem Support_permutation_invariant_witness :
    ∃ n, (abcdTree.insertAll [subjectABC]).Support [3, 1] = some n ∧
      (abcdTree.insertAll [subjectABC]).Support [1, 3] = some n :=
  Support_permutation_invariant abcdTree (by decide) (by decide) [subjectABC] (by decide)
    [3, 1] [1, 3] (List.Perm.swap _ _ _) (by decide)

theorem wrapSubjects_length : wrapSubjects.length = 2 ^ 32 := by
  unfold wrapSubjects
  rw [List.length_append, List.length_replicate]
  rfl

theorem wrapSubjects_mem {e : SubjectSummary} (h : e ∈ wrapSubjects) :
    e = subjectA ∨ e = subjectAC := by
  unfold wrapSubjects at h
  rw [List.mem_append, List.mem_singleton] at h
  rcases h with h | h
  · exact Or.inl (List.eq_of_mem_replicate h)
  · exact Or.inr h

theorem wrapSubjects_countP (p : SubjectSummary → Bool) :
    wrapSubjects.countP p
      = (if p subjectA = true then 2 ^ 32 - 1 else 0) + (if p subjectAC = true then 1 else 0) := by
  unfold wrapSubjects
  rw [List.countP_append, List.countP_replicate]
  simp [List.countP_cons]

theorem wrapSubjects_dict :
    ∀ e ∈ wrapSubjects, ∀ p ∈ e.Properties, p < abcdTree.PropMap.length := by
  intro e he
  rcases wrapSubjects_mem he with rfl | rfl <;> decide

/-- C4, the claim as stated fails. After `2 ^ 32` inserts, of which all carry `A` and the
last one also `C`, the 32-bit count of `A` has wrapped to `0`, so that
`Support([A]) = 0` and `Support([C, A]) = 1`. And in a dictionary where `A` and `B` have
the same sort order, after the insert of one subject with `A`, `B` and `C`,
`Support([B, A]) = 0` and `Support([C, B, A]) = 1`. -/
theorem Support_antimonotone_fails :
    (wrapSubjects.length = 2 ^ 32 ∧
      (abcdTree.insertAll wrapSubjects).Support [1] = some 0 ∧
      (abcdTree.insertAll wrapSubjects).Support [3, 1] = some 1) ∧
    (tieTree.IsFresh ∧
      (tieTree.insertAll [subjectABC]).Support [2, 1] = some 0 ∧
      (tieTree.insertAll [subjectABC]).Support [3, 2, 1] = some 1) := by
  have ha : SubjectSummary.hasAll [1] subjectA = true := by decide
  have hb : SubjectSummary.hasAll [1] subjectAC = true := by decide
  have hc : SubjectSummary.hasAll [3, 1] subjectA = false := by decide
  have hd : SubjectSummary.hasAll [3, 1] subjectAC = true := by decide
  refine ⟨⟨wrapSubjects_length, ?_, ?_⟩, by decide, by decide, by decide⟩
  · rw [SchemaTree.Support_insertAll (by decide) (by decide) wrapSubjects wrapSubjects_dict
      [1] (by decide) (by decide), wrapSubjects_countP, ha, hb]
    rfl
  · rw [SchemaTree.Support_insertAll (by decide) (by decide) wrapSubjects wrapSubjects_dict
      [3, 1] (by decide) (by decide), wrapSubjects_countP, hc, hd]
    rfl

/-- C4, as amended. Support is anti-monotone when the sort orders of the dictionary are
pairwise distinct and fewer than `2 ^ 32` subjects have been inserted: for a list `Q` of
dictionary properties, a dictionary property `c` and a list `Qc` with the elements of
`Q` and `c`, `Support(Qc) ≤ Support(Q)`. -/
theorem Support_antimonotone (t0 : SchemaTree) (hfresh : t0.IsFresh)
    (hdistinct : (t0.PropMap.map (·.SortOrder)).Nodup)
    (subjects : List SubjectSummary) (hn : subjects.length < 2 ^ 32)
    (hdict : ∀ e ∈ subjects, ∀ p ∈ e.Properties, p < t0.PropMap.length)
    (Q : IList) (hQdict : ∀ q ∈ Q, q < t0.PropMap.length)
    (c : Nat) (hc : c < t0.PropMap.length)
    (Qc : IList) (hQc : ∀ x, x ∈ Qc ↔ x = c ∨ x ∈ Q) :
    ∃ m n, (t0.insertAll subjects).Support Qc = some m ∧
      (t0.insertAll subjects).Support Q = some n ∧ m ≤ n := by
  have hQcne : Qc ≠ [] := fun h => by
    have := (hQc c).2 (Or.inl rfl)
    rw [h] at this
    exact List.not_mem_nil _ this
  have hQcdict : ∀ x ∈ Qc, x < t0.PropMap.length := by
    intro x hx
    rcases (hQc x).1 hx with rfl | h
    · exact hc
    · exact hQdict x h
  have hle : ∀ (Q' : IList), subjects.countP (SubjectSummary.hasAll Q') ≤ subjects.length :=
    fun _ => List.countP_le_length _
  have h1 := SchemaTree.Support_insertAll hfresh hdistinct subjects hdict Qc hQcne hQcdict
  rw [Nat.mod_eq_of_lt (by have := hle Qc; omega)] at h1
  by_cases hQ : Q = []
  · subst hQ
    obtain ⟨h2, h3⟩ := Support_empty_count_aux t0 hfresh subjects
    refine ⟨_, _, h1, h2, ?_⟩
    rw [h3, Nat.mod_eq_of_lt hn]
    exact hle Qc
  · have h2 := SchemaTree.Support_insertAll hfresh hdistinct subjects hdict Q hQ hQdict
    refine ⟨_, _, h1, h2, ?_⟩
    rw [Nat.mod_eq_of_lt (by have := hle Q; omega)]
    apply List.countP_mono_left
    intro e _ hall
    simp only [SubjectSummary.hasAll, List.all_eq_true, decide_eq_true_iff] at hall ⊢
    exact fun q hq => hall q ((hQc q).2 (Or.inr hq))

/-- C4 as amended, at the single subject with `A`, `B`, `C`, the query `[A]` and the
property `D`. -/
theorem Support_antimonotone_witness :
    ∃ m n, (abcdTree.insertAll [subjectABC]).Support [4, 1] = some m ∧
      (abcdTree.insertAll [subjectABC]).Support [1] = some n ∧ m ≤ n :=
  Support_antimonotone abcdTree (by decide) (by decide) [subjectABC] (by decide) (by decide)
    [1] (by decide) 4 (by decide) [4, 1] (fun x => by simp)

theorem TrieInv.nodeList_eq {t : SchemaTree} {paths : Nat → List Nat} {T : List (List Nat)}
    (h : TrieInv t paths T) :
    t.nodeList = (List.range t.size).map
      (fun a => (some (paths a), T.countP (fun s => decide (paths a <+: s)) % 2 ^ 32)) := by
  unfold SchemaTree.nodeList
  apply List.map_congr_left
  intro a ha
  rw [List.mem_range] at ha
  rw [h.pathToRoot a ha t.size ha, h.support a ha]
  simp

theorem TrieInv.nodeList_nodup {t : SchemaTree} {paths : Nat → List Nat} {T : List (List Nat)}
    (h : TrieInv t paths T) : t.nodeList.Nodup := by
  rw [h.nodeList_eq]
  refine List.Nodup.map_on ?_ (List.nodup_range _)
  intro a ha b hb e
  rw [List.mem_range] at ha hb
  simp only [Prod.mk.injEq, Option.some.injEq] at e
  exact h.inj a b ha hb e.1

theorem TrieInv.mem_nodeList {t : SchemaTree} {paths : Nat → List Nat} {T : List (List Nat)}
    (h : TrieInv t paths T) (x : Option (List Nat) × Nat) :
    x ∈ t.nodeList ↔ ∃ π, (π = [] ∨ ∃ s ∈ T, π <+: s) ∧
      x = (some π, T.countP (fun s => decide (π <+: s)) % 2 ^ 32) := by
  rw [h.nodeList_eq, List.mem_map]
  constructor
  · rintro ⟨a, ha, rfl⟩
    rw [List.mem_range] at ha
    exact ⟨paths a, (h.nodes _).1 ⟨a, ha, rfl⟩, rfl⟩
  · rintro ⟨π, hπ, rfl⟩
    obtain ⟨a, ha, rfl⟩ := (h.nodes π).2 hπ
    exact ⟨a, List.mem_range.2 ha, rfl⟩

/-- With pairwise distinct sort orders the sorted list of a duplicate-free list of
dictionary properties does not depend on the order of the list. -/
theorem iList.sort_eq_of_perm {m : propMap} (hd : (m.map (·.SortOrder)).Nodup) {l l' : IList}
    (hperm : l.Perm l') (hnd : l.Nodup) (hv : ∀ p ∈ l, p < m.length) :
    iList.sort m l = iList.sort m l' := by
  have hstrict : ∀ (k : IList), k.Perm l →
      (iList.sort m k).Pairwise (fun a b => m.sortOrder a < m.sortOrder b) := by
    intro k hk
    have hp : (iList.sort m k).Perm l := (iList.sort_perm m k).trans hk
    have hn : (iList.sort m k).Nodup := hp.nodup_iff.2 hnd
    have h2 := (iList.sort_sorted m k).and
      (List.Nodup.pairwise_of_forall_ne hn (fun a _ b _ hab => hab))
    refine h2.imp_of_mem ?_
    intro a b ha hb hab
    have ha' := hv a (hp.mem_iff.1 ha)
    have hb' := hv b (hp.mem_iff.1 hb)
    exact Nat.lt_of_le_of_ne hab.1 (fun e => hab.2 (sortOrder_inj_of_nodup hd ha' hb' e))
  have : IsAntisymm Nat (fun a b => m.sortOrder a < m.sortOrder b) :=
    ⟨fun a b hab hba => absurd hab (Nat.lt_asymm hba)⟩
  exact List.eq_of_perm_of_sorted
    (((iList.sort_perm m l).trans hperm).trans (iList.sort_perm m l').symm)
    (hstrict l (List.Perm.refl _)) (hstrict l' hperm.symm)

/-- With pairwise distinct sort orders `Insert` does not depend on the order in which it
iterates the property map of the subject. -/
theorem SchemaTree.Insert_iteration_order (t : SchemaTree)
    (hd : (t.PropMap.map (·.SortOrder)).Nodup) (e e' : SubjectSummary)
    (hperm : e.Properties.Perm e'.Properties)
    (hv : ∀ p ∈ e.Properties, p < t.PropMap.length) : t.Insert e = t.Insert e' := by
  unfold SchemaTree.Insert
  rw [iList.sort_eq_of_perm hd hperm e.nodup hv]

/-- C7. The final tree is insertion-order independent: inserting a list of subjects, or
any permutation of it, into the same fresh tree yields the same nodes, identified by
their property paths from the root, with the same support on every node. -/
theorem Insert_order_independent (t0 : SchemaTree) (hfresh : t0.IsFresh)
    (subjects subjects' : List SubjectSummary) (hperm : subjects.Perm subjects') :
    (t0.insertAll subjects).nodeList.Perm (t0.insertAll subjects').nodeList := by
  obtain ⟨paths, h, _, _⟩ := SchemaTree.insertAll_inv hfresh subjects
  obtain ⟨paths', h', _, _⟩ := SchemaTree.insertAll_inv hfresh subjects'
  have hT : ((subjects.map (fun (e : SubjectSummary) =>
        iList.sort t0.PropMap e.Properties)).reverse ++ []).Perm
      ((subjects'.map (fun (e : SubjectSummary) =>
        iList.sort t0.PropMap e.Properties)).reverse ++ []) := by
    rw [List.append_nil, List.append_nil]
    exact ((List.reverse_perm _).trans (hperm.map _)).trans (List.reverse_perm _).symm
  rw [List.perm_ext_iff_of_nodup h.nodeList_nodup h'.nodeList_nodup]
  intro x
  rw [h.mem_nodeList, h'.mem_nodeList]
  constructor
  · rintro ⟨π, hπ, rfl⟩
    refine ⟨π, ?_, by rw [hT.countP_eq]⟩
    rcases hπ with h1 | ⟨s, hs, hps⟩
    · exact Or.inl h1
    · exact Or.inr ⟨s, hT.mem_iff.1 hs, hps⟩
  · rintro ⟨π, hπ, rfl⟩
    refine ⟨π, ?_, by rw [hT.countP_eq]⟩
    rcases hπ with h1 | ⟨s, hs, hps⟩
    · exact Or.inl h1
    · exact Or.inr ⟨s, hT.mem_iff.2 hs, hps⟩

/-- C7, at two subjects inserted in either order: the nodes are the root (support `2`),
`A` (support `2`), `A, B` (support `1`) and `A, B, C` (support `1`). -/
theorem Insert_order_independent_witness :
    (abcdTree.insertAll [subjectA, subjectABC]).nodeList.Perm
      (abcdTree.insertAll [subjectABC, subjectA]).nodeList ∧
    (abcdTree.insertAll [subjectABC, subjectA]).nodeList
      = [(some [], 2), (some [1], 2), (some [1, 2], 1), (some [1, 2, 3], 1)] :=
  ⟨Insert_order_independent abcdTree (by decide) [subjectA, subjectABC] [subjectABC, subjectA]
    (List.Perm.swap _ _ _), by decide⟩

theorem itemLess_iff (m : propMap) (p q : Nat) :
    itemLess m p q = true ↔ m.sortKey p < m.sortKey q := by
  unfold itemLess propMap.sortKey
  rw [Prod.Lex.lt_iff]
  simp only [OrderDual.toDual_lt_toDual, OrderDual.toDual_inj]
  by_cases h : (propMap.item m p).TotalCount = (propMap.item m q).TotalCount
  · simp [h]
  · simp only [ne_eq, h, not_false_eq_true, ↓reduceIte, gt_iff_lt, decide_eq_true_eq, false_and,
      or_false]

theorem sortSlice_sorted_of_key {α β : Type} [LinearOrder β] (key : α → β)
    (less : α → α → Bool) (hless : ∀ a b, less a b = true ↔ key a < key b) (l : List α) :
    (sortSlice less l).Pairwise (fun a b => key a ≤ key b) := by
  have hr : ∀ a b, less b a = false ↔ key a ≤ key b := by
    intro a b
    rw [← not_lt, ← hless, Bool.not_eq_true]
  have h1 : IsTotal α (fun a b => less b a = false) :=
    ⟨fun a b => by rw [hr, hr]; exact le_total _ _⟩
  have h2 : IsTrans α (fun a b => less b a = false) :=
    ⟨fun a b c => by rw [hr, hr, hr]; exact le_trans⟩
  have h := @List.sorted_insertionSort α (fun a b => less b a = false) _ h1 h2 l
  exact List.Pairwise.imp (fun {a b} hab => (hr a b).1 hab) h

theorem sortKey_inj {m : propMap} (hiri : (m.map (·.Str)).Nodup) {a b : Nat}
    (ha : a < m.length) (hb : b < m.length) (e : m.sortKey a = m.sortKey b) : a = b := by
  have ha' : a < (m.map (·.Str)).length := by simpa using ha
  have hb' : b < (m.map (·.Str)).length := by simpa using hb
  apply (@List.Nodup.getElem_inj_iff _ _ hiri a ha' b hb').1
  simp only [List.getElem_map]
  simp only [propMap.sortKey, propMap.item, EmbeddingLike.apply_eq_iff_eq, Prod.mk.injEq] at e
  rw [List.getD_eq_getElem _ _ ha, List.getD_eq_getElem _ _ hb] at e
  exact String.ext e.2

/-- The sorted list of `updateSortOrder` is strictly sorted when the IRIs are distinct. -/
theorem sortSlice_itemLess_strict {m : propMap} (hiri : (m.map (·.Str)).Nodup)
    {order : List Nat} (hperm : order.Perm (List.range m.length)) :
    (sortSlice (itemLess m) order).Pairwise (fun a b => m.sortKey a < m.sortKey b) := by
  have hp : (sortSlice (itemLess m) order).Perm (List.range m.length) :=
    (sortSlice_perm _ _).trans hperm
  have hnd : (sortSlice (itemLess m) order).Nodup := hp.nodup_iff.2 (List.nodup_range _)
  have hs := sortSlice_sorted_of_key m.sortKey (itemLess m) (itemLess_iff m) order
  have h2 := hs.and (List.Nodup.pairwise_of_forall_ne hnd (fun a _ b _ hab => hab))
  refine h2.imp_of_mem ?_
  intro a b ha hb hab
  have ha' := List.mem_range.1 (hp.mem_iff.1 ha)
  have hb' := List.mem_range.1 (hp.mem_iff.1 hb)
  exact lt_of_le_of_ne hab.1 (fun e => hab.2 (sortKey_inj hiri ha' hb' e))

/-- The sorted list of `updateSortOrder` does not depend on the iteration order. -/
theorem sortSlice_itemLess_unique {m : propMap} (hiri : (m.map (·.Str)).Nodup)
    {order : List Nat} (hperm : order.Perm (List.range m.length)) :
    sortSlice (itemLess m) order = sortSlice (itemLess m) (List.range m.length) := by
  have h1 := sortSlice_itemLess_strict hiri hperm
  have h2 := sortSlice_itemLess_strict hiri (List.Perm.refl (List.range m.length))
  have hp : (sortSlice (itemLess m) order).Perm (sortSlice (itemLess m) (List.range m.length)) :=
    ((sortSlice_perm _ _).trans hperm).trans (sortSlice_perm _ _).symm
  have : IsAntisymm Nat (fun a b => m.sortKey a < m.sortKey b) :=
    ⟨fun a b hab hba => absurd hab (lt_asymm hba)⟩
  exact List.eq_of_perm_of_sorted hp h1 h2

theorem setSortOrder_length (m : propMap) (v i : Nat) : (setSortOrder m v i).length = m.length := by
  simp [setSortOrder]

theorem setSortOrder_item (m : propMap) (v i q : Nat) (hv : v < m.length) :
    propMap.item (setSortOrder m v i) q
      = if v = q then { propMap.item m q with SortOrder := i } else propMap.item m q :=
  propMap.item_modify m _ v q hv

/-- The loop `for i, v := range iList { v.SortOrder = uint32(i) }`. -/
theorem assignLoop_spec (L : List Nat) : ∀ (m : propMap) (k : Nat), L.Nodup →
    (∀ p ∈ L, p < m.length) →
    ((L.enumFrom k).foldl (fun m (iv : Nat × Nat) => setSortOrder m iv.2 (uint32 iv.1)) m).length
      = m.length ∧
    (∀ i (hi : i < L.length),
      propMap.item ((L.enumFrom k).foldl
          (fun m (iv : Nat × Nat) => setSortOrder m iv.2 (uint32 iv.1)) m) L[i]
        = { propMap.item m L[i] with SortOrder := uint32 (k + i) }) ∧
    (∀ p, p ∉ L →
      propMap.item ((L.enumFrom k).foldl
          (fun m (iv : Nat × Nat) => setSortOrder m iv.2 (uint32 iv.1)) m) p
        = propMap.item m p) := by
  induction L with
  | nil => intro m k _ _; exact ⟨rfl, fun i hi => absurd hi (Nat.not_lt_zero _), fun _ _ => rfl⟩
  | cons x L ih =>
    intro m k hnd hv
    rw [List.nodup_cons] at hnd
    have hx : x < m.length := hv x (List.mem_cons_self _ _)
    have hv' : ∀ p ∈ L, p < (setSortOrder m x (uint32 k)).length := by
      intro p hp
      rw [setSortOrder_length]
      exact hv p (List.mem_cons_of_mem _ hp)
    obtain ⟨h1, h2, h3⟩ := ih (setSortOrder m x (uint32 k)) (k + 1) hnd.2 hv'
    rw [List.enumFrom_cons, List.foldl_cons]
    refine ⟨by rw [h1, setSortOrder_length], ?_, ?_⟩
    · intro i hi
      cases i with
      | zero =>
        simp only [List.getElem_cons_zero, Nat.add_zero]
        rw [h3 x hnd.1, setSortOrder_item _ _ _ _ hx, if_pos rfl]
      | succ i =>
        simp only [List.getElem_cons_succ]
        have hi' : i < L.length := by simpa using hi
        rw [h2 i hi', setSortOrder_item _ _ _ _ hx]
        have hne : x ≠ L[i] := fun e => hnd.1 (e ▸ List.getElem_mem _)
        rw [if_neg hne, Nat.add_assoc, Nat.add_comm 1 i]
    · intro p hp
      rw [List.mem_cons, not_or] at hp
      rw [h3 p hp.2, setSortOrder_item _ _ _ _ hx, if_neg (Ne.symm hp.1)]

/-- The dictionary after `updateSortOrder`: the record at position `i` of the sorted
list has sort order `uint32(i)`, and nothing else has changed. -/
theorem updateSortOrderWith_spec (t : SchemaTree) {order : List Nat}
    (hperm : order.Perm (List.range t.PropMap.length)) :
    (t.updateSortOrderWith order).PropMap.length = t.PropMap.length ∧
    ∀ i (hi : i < (sortSlice (itemLess t.PropMap) order).length),
      propMap.item (t.updateSortOrderWith order).PropMap (sortSlice (itemLess t.PropMap) order)[i]
        = { propMap.item t.PropMap (sortSlice (itemLess t.PropMap) order)[i] with
            SortOrder := uint32 i } := by
  have hp : (sortSlice (itemLess t.PropMap) order).Perm (List.range t.PropMap.length) :=
    (sortSlice_perm _ _).trans hperm
  have hnd : (sortSlice (itemLess t.PropMap) order).Nodup := hp.nodup_iff.2 (List.nodup_range _)
  have hv : ∀ p ∈ sortSlice (itemLess t.PropMap) order, p < t.PropMap.length :=
    fun p hp' => List.mem_range.1 (hp.mem_iff.1 hp')
  obtain ⟨h1, h2, _⟩ := assignLoop_spec _ t.PropMap 0 hnd hv
  refine ⟨h1, ?_⟩
  intro i hi
  have := h2 i hi
  rw [Nat.zero_add] at this
  exact this

theorem sortKey_lt_iff (m : propMap) (p q : Nat) :
    m.sortKey p < m.sortKey q ↔
      ((propMap.item m q).TotalCount < (propMap.item m p).TotalCount ∨
        ((propMap.item m p).TotalCount = (propMap.item m q).TotalCount ∧
          (propMap.item m p).Str.data < (propMap.item m q).Str.data)) := by
  unfold propMap.sortKey
  rw [Prod.Lex.lt_iff]
  simp only [OrderDual.toDual_lt_toDual, OrderDual.toDual_inj]

/-- After `updateSortOrder` every sort order is below `2 ^ 32`. -/
theorem updateSortOrderWith_lt (t : SchemaTree) {order : List Nat}
    (hperm : order.Perm (List.range t.PropMap.length)) (p : Nat) (hp : p < t.PropMap.length) :
    (propMap.item (t.updateSortOrderWith order).PropMap p).SortOrder < 2 ^ 32 := by
  have hL : (sortSlice (itemLess t.PropMap) order).Perm (List.range t.PropMap.length) :=
    (sortSlice_perm _ _).trans hperm
  obtain ⟨i, hi, hpi⟩ := List.getElem_of_mem (hL.mem_iff.2 (List.mem_range.2 hp))
  have := (updateSortOrderWith_spec t hperm).2 i hi
  rw [hpi] at this
  rw [this]
  exact Nat.mod_lt _ (by norm_num)

theorem map_sortOrder_eq (m : propMap) :
    m.map (·.SortOrder) = (List.range m.length).map (fun p => (propMap.item m p).SortOrder) := by
  apply List.ext_getElem
  · simp
  · intro i h1 h2
    have hi : i < m.length := by simpa using h1
    simp [propMap.item, List.getElem?_eq_getElem hi]

/-- C6, as amended. After `updateSortOrder` on a dictionary of at most `2 ^ 32` records
(with their distinct IRIs), whatever the order in which the map is iterated: for any two
records, the first has the smaller sort order iff it has the larger total count, or the
same total count and the smaller IRI; the sort orders are the numbers below the number
of records, each used once; and the dictionary is the same as for any other iteration
order. -/
theorem updateSortOrder_ranks (t : SchemaTree) (hiri : (t.PropMap.map (·.Str)).Nodup)
    (hn : t.PropMap.length ≤ 2 ^ 32) (order : List Nat)
    (hperm : order.Perm (List.range t.PropMap.length)) :
    (∀ p, p < t.PropMap.length → ∀ q, q < t.PropMap.length →
      ((propMap.item (t.updateSortOrderWith order).PropMap p).SortOrder
          < (propMap.item (t.updateSortOrderWith order).PropMap q).SortOrder ↔
        ((propMap.item (t.updateSortOrderWith order).PropMap q).TotalCount
            < (propMap.item (t.updateSortOrderWith order).PropMap p).TotalCount ∨
          ((propMap.item (t.updateSortOrderWith order).PropMap p).TotalCount
              = (propMap.item (t.updateSortOrderWith order).PropMap q).TotalCount ∧
            (propMap.item (t.updateSortOrderWith order).PropMap p).Str.data
              < (propMap.item (t.updateSortOrderWith order).PropMap q).Str.data)))) ∧
    ((t.updateSortOrderWith order).PropMap.map (·.SortOrder)).Perm
      (List.range t.PropMap.length) ∧
    (t.updateSortOrderWith order).PropMap = t.updateSortOrder.PropMap := by
  have hL : (sortSlice (itemLess t.PropMap) order).Perm (List.range t.PropMap.length) :=
    (sortSlice_perm _ _).trans hperm
  have hLlen : (sortSlice (itemLess t.PropMap) order).length = t.PropMap.length := by
    simpa using hL.length_eq
  have hstrict := sortSlice_itemLess_strict hiri hperm
  obtain ⟨hlen, hspec⟩ := updateSortOrderWith_spec t hperm
  have hu : ∀ i, i < (sortSlice (itemLess t.PropMap) order).length → uint32 i = i := by
    intro i hi
    exact Nat.mod_eq_of_lt (by omega)
  refine ⟨?_, ?_, ?_⟩
  · intro p hp q hq
    obtain ⟨i, hi, hpi⟩ := List.getElem_of_mem (hL.mem_iff.2 (List.mem_range.2 hp))
    obtain ⟨j, hj, hqj⟩ := List.getElem_of_mem (hL.mem_iff.2 (List.mem_range.2 hq))
    have h1 := hspec i hi
    have h2 := hspec j hj
    rw [hpi] at h1
    rw [hqj] at h2
    rw [h1, h2]
    simp only [hu i hi, hu j hj]
    rw [← sortKey_lt_iff, ← hpi, ← hqj]
    constructor
    · intro hij
      exact (List.pairwise_iff_getElem.1 hstrict) i j hi hj hij
    · intro hk
      rcases Nat.lt_trichotomy i j with h | h | h
      · exact h
      · subst h
        exact absurd hk (lt_irrefl _)
      · exact absurd hk (lt_asymm ((List.pairwise_iff_getElem.1 hstrict) j i hj hi h))
  · rw [map_sortOrder_eq, hlen]
    have hmap : (sortSlice (itemLess t.PropMap) order).map
        (fun p => (propMap.item (t.updateSortOrderWith order).PropMap p).SortOrder)
        = List.range t.PropMap.length := by
      apply List.ext_getElem
      · simp [hLlen]
      · intro i h1 h2
        have hi : i < (sortSlice (itemLess t.PropMap) order).length := by simpa using h1
        simp only [List.getElem_map, List.getElem_range]
        rw [hspec i hi]
        exact hu i hi
    calc (List.range t.PropMap.length).map
          (fun p => (propMap.item (t.updateSortOrderWith order).PropMap p).SortOrder)
        |>.Perm ((sortSlice (itemLess t.PropMap) order).map
          (fun p => (propMap.item (t.updateSortOrderWith order).PropMap p).SortOrder)) :=
          (hL.map _).symm
      _ = List.range t.PropMap.length := hmap
  · unfold SchemaTree.updateSortOrder SchemaTree.updateSortOrderWith
    simp only
    rw [sortSlice_itemLess_unique hiri hperm]

theorem updateSortOrder_perm_range (t : SchemaTree) :
    (List.range t.PropMap.length).Perm (List.range t.PropMap.length) := List.Perm.refl _

/-- Beyond `2 ^ 32` records the sort orders are not the numbers below the number of
records: no record has the sort order `2 ^ 32`. -/
theorem updateSortOrder_not_perm (t : SchemaTree) (hn : 2 ^ 32 < t.PropMap.length) :
    ¬ (t.updateSortOrder.PropMap.map (·.SortOrder)).Perm (List.range t.PropMap.length) := by
  intro hperm
  have hmem : 2 ^ 32 ∈ t.updateSortOrder.PropMap.map (·.SortOrder) :=
    hperm.mem_iff.2 (List.mem_range.2 hn)
  rw [map_sortOrder_eq, List.mem_map] at hmem
  obtain ⟨p, hp, hso⟩ := hmem
  have hlen := (updateSortOrderWith_spec t (updateSortOrder_perm_range t)).1
  have hp' : p < t.PropMap.length := by
    rw [List.mem_range] at hp
    unfold SchemaTree.updateSortOrder at hp
    omega
  have := updateSortOrderWith_lt t (updateSortOrder_perm_range t) p hp'
  unfold SchemaTree.updateSortOrder at hso
  omega

theorem hugeTree_PropMap : hugeTree.PropMap = hugeMap := by
  unfold hugeTree
  dsimp only

theorem hugeTree_length : hugeTree.PropMap.length = 2 ^ 32 + 1 := by
  rw [hugeTree_PropMap]
  unfold hugeMap
  rw [List.length_map, List.length_range]

/-- C6, the claim as stated fails: on a dictionary of `2 ^ 32 + 1` records with distinct
IRIs the sort orders after `updateSortOrder` are not the numbers `0` to `2 ^ 32`, each
used once. -/
theorem updateSortOrder_wraps :
    (hugeTree.PropMap.map (·.Str)).Nodup ∧
    ¬ (hugeTree.updateSortOrder.PropMap.map (·.SortOrder)).Perm
        (List.range hugeTree.PropMap.length) := by
  refine ⟨?_, updateSortOrder_not_perm hugeTree (by rw [hugeTree_length]; omega)⟩
  rw [hugeTree_PropMap]
  unfold hugeMap
  rw [List.map_map]
  refine List.Nodup.map_on ?_ (List.nodup_range _)
  intro i _ j _ h
  have h2 := congrArg (fun s => s.data.length) h
  simpa using h2

/-- C6 as amended, at the dictionary with the total counts `root = 0`, `A = 6`, `B = 3`,
`C = 1`, iterated in the order `B`, `root`, `C`, `A`: the sort orders become `A = 0`,
`B = 1`, `C = 2`, `root = 3`. -/
theorem updateSortOrder_ranks_witness :
    ((countedTree.updateSortOrderWith [2, 0, 3, 1]).PropMap.map (·.SortOrder)).Perm
      (List.range countedTree.PropMap.length) ∧
    (countedTree.updateSortOrderWith [2, 0, 3, 1]).PropMap = countedTree.updateSortOrder.PropMap ∧
    countedTree.updateSortOrder.PropMap.map (·.SortOrder) = [3, 0, 1, 2] :=
  ⟨(updateSortOrder_ranks countedTree (by decide) (by decide) [2, 0, 3, 1] (by decide)).2.1,
   (updateSortOrder_ranks countedTree (by decide) (by decide) [2, 0, 3, 1] (by decide)).2.2,
   by decide⟩

theorem propMap.item_append_left (m ext : propMap) {p : Nat} (hp : p < m.length) :
    propMap.item (m ++ ext) p = propMap.item m p := by
  unfold propMap.item
  rw [List.getD_eq_getElem?_getD, List.getD_eq_getElem?_getD, List.getElem?_append_left hp]

theorem propMap.item_mem (m : propMap) {p : Nat} (hp : p < m.length) : propMap.item m p ∈ m := by
  unfold propMap.item
  rw [List.getD_eq_getElem _ _ hp]
  exact List.getElem_mem _

theorem propMap.key_inj {m : propMap} (h : (m.map (·.Str)).Nodup) {a b : Nat}
    (ha : a < m.length) (hb : b < m.length)
    (e : (propMap.item m a).Str = (propMap.item m b).Str) : a = b := by
  have ha' : a < (m.map (·.Str)).length := by simpa using ha
  have hb' : b < (m.map (·.Str)).length := by simpa using hb
  apply (@List.Nodup.getElem_inj_iff _ _ h a ha' b hb').1
  simp only [List.getElem_map]
  simp only [propMap.item] at e
  rw [List.getD_eq_getElem _ _ ha, List.getD_eq_getElem _ _ hb] at e
  exact e

theorem propMap.get_of_find_some {m : propMap} {s : String} {i : Nat}
    (h : propMap.find m s = some i) : propMap.get m s = (m, i) := by
  simp only [propMap.get, h]

/-- The effect of one `propMap.get` on the dictionary: records are only appended, the
keys stay distinct, and the pointer returned is that of the record of the IRI. -/
theorem propMap.get_effect (m : propMap) (iri : String) (hnd : (m.map (·.Str)).Nodup) :
    ∃ e0, (propMap.get m iri).1 = m ++ e0 ∧
      (∀ it ∈ e0, it.TotalCount = 0 ∧ it.traversalPointer = none ∧ it.Str = iri) ∧
      ((propMap.get m iri).1.map (·.Str)).Nodup ∧
      (propMap.get m iri).2 < (propMap.get m iri).1.length ∧
      (propMap.item (propMap.get m iri).1 (propMap.get m iri).2).Str = iri ∧
      (iri ∈ m.map (·.Str) → (propMap.get m iri).1 = m) := by
  cases hf : propMap.find m iri with
  | some i =>
    rw [propMap.get_of_find_some hf]
    obtain ⟨h3, h4⟩ := propMap.find_lt hf
    exact ⟨[], by simp, by simp, hnd, h3, h4, fun _ => rfl⟩
  | none =>
    have h1 := propMap.find_eq_none.1 hf
    rw [propMap.get_of_find_none hf]
    refine ⟨_, rfl, ?_, ?_, by simp, ?_, fun h => absurd h h1⟩
    · intro it hit
      rw [List.mem_singleton] at hit
      subst hit
      exact ⟨rfl, rfl, rfl⟩
    · rw [List.map_append, List.nodup_append]
      refine ⟨hnd, by simp, ?_⟩
      intro x hx hx'
      simp only [List.map_cons, List.map_nil, List.mem_singleton] at hx'
      subst hx'
      exact h1 hx
    · rw [propMap.item_append_length]

/-- The effect of interning the IRIs of a subject. -/
theorem propMap.internAll_spec (iris : List String) : ∀ (m : propMap),
    (m.map (·.Str)).Nodup →
    (∃ ext, (propMap.internAll m iris).1 = m ++ ext ∧
      ∀ it ∈ ext, it.TotalCount = 0 ∧ it.traversalPointer = none ∧ it.Str ∈ iris) ∧
    ((propMap.internAll m iris).1.map (·.Str)).Nodup ∧
    (∀ iri ∈ iris, iri ∈ (propMap.internAll m iris).1.map (·.Str)) ∧
    (∀ p, p ∈ (propMap.internAll m iris).2 ↔
      (p < (propMap.internAll m iris).1.length ∧
        (propMap.item (propMap.internAll m iris).1 p).Str ∈ iris)) ∧
    ((∀ iri ∈ iris, iri ∈ m.map (·.Str)) → (propMap.internAll m iris).1 = m) := by
  induction iris with
  | nil =>
    intro m hnd
    refine ⟨⟨[], by simp [propMap.internAll], by simp⟩, by simpa [propMap.internAll] using hnd,
      by simp, by simp [propMap.internAll], fun _ => rfl⟩
  | cons iri iris ih =>
    intro m hnd
    obtain ⟨e0, hm1, he0, hnd1, hp0, hs0, hsame0⟩ := propMap.get_effect m iri hnd
    obtain ⟨⟨ext, hm', hext⟩, hnd', hall, hptr, hsame⟩ := ih (propMap.get m iri).1 hnd1
    have hlen1 : (propMap.get m iri).1.length ≤
        (propMap.internAll (propMap.get m iri).1 iris).1.length := by
      rw [hm']; simp
    have hitem0 : propMap.item (propMap.internAll (propMap.get m iri).1 iris).1
        (propMap.get m iri).2 = propMap.item (propMap.get m iri).1 (propMap.get m iri).2 := by
      rw [hm']; exact propMap.item_append_left _ _ hp0
    simp only [propMap.internAll]
    refine ⟨⟨e0 ++ ext, ?_, ?_⟩, hnd', ?_, ?_, ?_⟩
    · rw [hm', hm1, List.append_assoc]
    · intro it hit
      rcases List.mem_append.1 hit with h | h
      · obtain ⟨a, b, c⟩ := he0 it h
        exact ⟨a, b, by rw [c]; exact List.mem_cons_self _ _⟩
      · obtain ⟨a, b, c⟩ := hext it h
        exact ⟨a, b, List.mem_cons_of_mem _ c⟩
    · intro x hx
      rcases List.mem_cons.1 hx with h | hx
      · have hmem : (propMap.item (propMap.internAll (propMap.get m iri).1 iris).1
            (propMap.get m iri).2).Str ∈
            (propMap.internAll (propMap.get m iri).1 iris).1.map (·.Str) :=
          List.mem_map_of_mem _ (propMap.item_mem _ (by omega))
        rw [hitem0, hs0] at hmem
        rw [h]
        exact hmem
      · exact hall x hx
    · intro p
      rw [List.mem_cons, hptr p, List.mem_cons]
      constructor
      · rintro (rfl | ⟨h1, h2⟩)
        · exact ⟨by omega, Or.inl (by rw [hitem0, hs0])⟩
        · exact ⟨h1, Or.inr h2⟩
      · rintro ⟨h1, h2 | h2⟩
        · left
          exact propMap.key_inj hnd' h1 (by omega) (by rw [h2, hitem0, hs0])
        · exact Or.inr ⟨h1, h2⟩
    · intro hk
      have h1 := hsame0 (hk iri (List.mem_cons_self _ _))
      rw [h1] at hsame ⊢
      exact hsame (fun x hx => hk x (List.mem_cons_of_mem _ hx))

theorem foldl_modify_map {α β : Type} (g : α → β) (f : α → α) (hfg : ∀ x, g (f x) = g x)
    (ps : List Nat) : ∀ (l : List α), (ps.foldl (fun m p => m.modify f p) l).map g = l.map g := by
  induction ps with
  | nil => intro l; rfl
  | cons p ps ih =>
    intro l
    rw [List.foldl_cons, ih, map_modify_eq g f hfg]

/-- The loop of `counter`: every property of the subject is incremented once. -/
theorem counter_spec (ps : List Nat) : ∀ (m : propMap), ps.Nodup → (∀ p ∈ ps, p < m.length) →
    ∀ q, propMap.item (ps.foldl (fun m p => m.modify IItem.increment p) m) q
      = if q ∈ ps then (propMap.item m q).increment else propMap.item m q := by
  induction ps with
  | nil => intro m _ _ q; simp
  | cons x ps ih =>
    intro m hnd hv q
    rw [List.nodup_cons] at hnd
    have hx : x < m.length := hv x (List.mem_cons_self _ _)
    have hv' : ∀ p ∈ ps, p < (m.modify IItem.increment x).length := by
      intro p hp
      rw [List.length_modify]
      exact hv p (List.mem_cons_of_mem _ hp)
    rw [List.foldl_cons, ih _ hnd.2 hv' q, propMap.item_modify _ _ _ _ hx]
    by_cases hqx : x = q
    · subst hqx
      simp [hnd.1]
    · have : q ≠ x := Ne.symm hqx
      simp [hqx, this]

theorem propMap.item_of_map_eq {β : Type} (g : IItem → β) {m m' : propMap}
    (h : m'.map g = m.map g) {p : Nat} (hp : p < m.length) :
    g (propMap.item m' p) = g (propMap.item m p) := by
  have hlen : m'.length = m.length := by simpa using congrArg List.length h
  have h1 := congrArg (fun l => l[p]?) h
  simp only [List.getElem?_map] at h1
  unfold propMap.item
  rw [List.getD_eq_getElem?_getD, List.getD_eq_getElem?_getD,
    List.getElem?_eq_getElem hp, List.getElem?_eq_getElem (by omega)] at *
  simpa using h1

theorem New_isFresh (typed : Bool) (minSup : Nat) : (New typed minSup).IsFresh := by
  refine ⟨rfl, ?_, ?_, ?_, ?_⟩
  · simp [New, newRootNode]
  · simp [New, newRootNode]
  · simp [New, newRootNode]
  · simp [New, newRootNode, propMap.get, propMap.find]

theorem New_PropMap (typed : Bool) (minSup : Nat) :
    (New typed minSup).PropMap = [⟨"root", 0, uint16 0, none⟩] := by
  simp [New, newRootNode, propMap.get, propMap.find]

theorem CountInv.init (typed : Bool) (minSup : Nat) : CountInv (New typed minSup) [] := by
  refine ⟨New_isFresh typed minSup, ?_, ?_, ?_⟩
  · rw [New_PropMap]; simp
  · intro iris h; exact absurd h (List.not_mem_nil _)
  · intro p hp
    rw [New_PropMap] at hp ⊢
    have hp0 : p = 0 := by simpa using hp
    subst hp0
    simp [propMap.item]

/-- The first pass on one subject keeps its invariant. -/
theorem CountInv.read {t : SchemaTree} {C : List (List String)} (h : CountInv t C)
    (iris : List String) : CountInv (readSubject counter t iris) (C ++ [iris]) := by
  obtain ⟨⟨ext, hm1, hext⟩, hnd1, hall, hptr, _⟩ := propMap.internAll_spec iris t.PropMap h.keys
  have hlen1 : t.PropMap.length ≤ (propMap.internAll t.PropMap iris).1.length := by
    rw [hm1]; simp
  have hv : ∀ p ∈ (propMap.internAll t.PropMap iris).2.dedup,
      p < (propMap.internAll t.PropMap iris).1.length :=
    fun p hp => ((hptr p).1 (List.mem_dedup.1 hp)).1
  have hitem := counter_spec (propMap.internAll t.PropMap iris).2.dedup
    (propMap.internAll t.PropMap iris).1 (List.nodup_dedup _) hv
  have hpm : (readSubject counter t iris).PropMap
      = (propMap.internAll t.PropMap iris).2.dedup.foldl
          (fun m p => m.modify IItem.increment p) (propMap.internAll t.PropMap iris).1 := rfl
  have hstr : (readSubject counter t iris).PropMap.map (·.Str)
      = (propMap.internAll t.PropMap iris).1.map (·.Str) := by
    rw [hpm]
    exact foldl_modify_map (fun (it : IItem) => it.Str) IItem.increment (fun _ => rfl) _ _
  have htp : (readSubject counter t iris).PropMap.map (·.traversalPointer)
      = (propMap.internAll t.PropMap iris).1.map (·.traversalPointer) := by
    rw [hpm]
    exact foldl_modify_map (fun (it : IItem) => it.traversalPointer) IItem.increment (fun _ => rfl) _ _
  have hlen : (readSubject counter t iris).PropMap.length
      = (propMap.internAll t.PropMap iris).1.length := by
    simpa using congrArg List.length hstr
  obtain ⟨hf1, hf2, hf3, hf4, hf5⟩ := h.fresh
  refine ⟨⟨hf1, hf2, hf3, hf4, ?_⟩, by rw [hstr]; exact hnd1, ?_, ?_⟩
  · intro it hit
    have h1 : it.traversalPointer ∈ (readSubject counter t iris).PropMap.map (·.traversalPointer) :=
      List.mem_map_of_mem _ hit
    rw [htp, hm1, List.map_append, List.mem_append, List.mem_map, List.mem_map] at h1
    rcases h1 with ⟨it', hit', e⟩ | ⟨it', hit', e⟩
    · rw [← e]; exact hf5 it' hit'
    · rw [← e]; exact (hext it' hit').2.1
  · intro iris' hi iri hiri
    rw [hstr]
    rcases List.mem_append.1 hi with h1 | h1
    · have := h.known iris' h1 iri hiri
      rw [hm1, List.map_append]
      exact List.mem_append_left _ this
    · rw [List.mem_singleton] at h1
      subst h1
      exact hall iri hiri
  · intro p hp
    rw [hlen] at hp
    have hs : (propMap.item (readSubject counter t iris).PropMap p).Str
        = (propMap.item (propMap.internAll t.PropMap iris).1 p).Str :=
      propMap.item_of_map_eq (·.Str) hstr hp
    rw [hs, hpm, hitem p, List.countP_append]
    simp only [List.countP_cons, List.countP_nil, Nat.zero_add, List.mem_dedup]
    -- the record before the subject was read
    have hold : (propMap.item (propMap.internAll t.PropMap iris).1 p).TotalCount
        = C.countP (fun iris' =>
            decide ((propMap.item (propMap.internAll t.PropMap iris).1 p).Str ∈ iris')) % 2 ^ 32 := by
      by_cases hpo : p < t.PropMap.length
      · have : propMap.item (propMap.internAll t.PropMap iris).1 p = propMap.item t.PropMap p := by
          rw [hm1]; exact propMap.item_append_left _ _ hpo
        rw [this]
        exact h.count p hpo
      · have hmem : propMap.item (propMap.internAll t.PropMap iris).1 p ∈ ext := by
          have : (propMap.internAll t.PropMap iris).1[p]? = ext[p - t.PropMap.length]? := by
            rw [hm1, List.getElem?_append_right (by omega)]
          have hpe : p - t.PropMap.length < ext.length := by
            have := hp
            rw [hm1, List.length_append] at this
            omega
          unfold propMap.item
          rw [List.getD_eq_getElem?_getD, this, List.getElem?_eq_getElem hpe]
          exact List.getElem_mem _
        have hz : C.countP (fun iris' =>
            decide ((propMap.item (propMap.internAll t.PropMap iris).1 p).Str ∈ iris')) = 0 := by
          rw [List.countP_eq_zero]
          intro iris' hi hin
          rw [decide_eq_true_iff] at hin
          have hk := h.known iris' hi _ hin
          -- the IRI of a new record is not a key of the old dictionary
          rw [List.mem_map] at hk
          obtain ⟨it, hit, e⟩ := hk
          obtain ⟨i, hi', hgi⟩ := List.getElem_of_mem hit
          have hi1 : i < (propMap.internAll t.PropMap iris).1.length := by omega
          have hii : propMap.item (propMap.internAll t.PropMap iris).1 i = it := by
            rw [hm1, propMap.item_append_left _ _ hi']
            unfold propMap.item
            rw [List.getD_eq_getElem _ _ hi', hgi]
          have := propMap.key_inj hnd1 hi1 hp (by rw [hii]; exact e)
          omega
        rw [hz, (hext _ hmem).1]
        rfl
    by_cases hin : p ∈ (propMap.internAll t.PropMap iris).2
    · have hstrin : (propMap.item (propMap.internAll t.PropMap iris).1 p).Str ∈ iris :=
        ((hptr p).1 hin).2
      simp only [hin, ↓reduceIte, hstrin, decide_True, IItem.increment, uint32]
      rw [hold]
      omega
    · have hstrin : ¬ (propMap.item (propMap.internAll t.PropMap iris).1 p).Str ∈ iris :=
        fun hc => hin ((hptr p).2 ⟨hp, hc⟩)
      simp only [hin, ↓reduceIte, hstrin, decide_False, Nat.add_zero]
      exact hold

theorem CountInv.readAll (C2 : List (List String)) : ∀ {t : SchemaTree}
    {C1 : List (List String)}, CountInv t C1 →
    CountInv (C2.foldl (readSubject counter) t) (C1 ++ C2) := by
  induction C2 with
  | nil => intro t C1 h; simpa using h
  | cons iris C2 ih =>
    intro t C1 h
    have := ih (h.read iris)
    simpa [List.foldl_cons] using this

theorem propMap.getElem_eq_item (m : propMap) {i : Nat} (hi : i < m.length) :
    m[i] = propMap.item m i := by
  unfold propMap.item
  rw [List.getD_eq_getElem _ _ hi]

/-- The method `updateSortOrder` changes sort orders only. -/
theorem SchemaTree.updateSortOrder_counted (t : SchemaTree) :
    t.updateSortOrder.PropMap.map IItem.counted = t.PropMap.map IItem.counted := by
  have hperm : (List.range t.PropMap.length).Perm (List.range t.PropMap.length) := List.Perm.refl _
  obtain ⟨hlen, hspec⟩ := updateSortOrderWith_spec t hperm
  have hL : (sortSlice (itemLess t.PropMap) (List.range t.PropMap.length)).Perm
      (List.range t.PropMap.length) := sortSlice_perm _ _
  apply List.ext_getElem
  · simp only [List.length_map]
    exact hlen
  · intro i h1 h2
    have hi : i < t.PropMap.length := by simpa using h2
    have hi' : i < t.updateSortOrder.PropMap.length := by simpa using h1
    obtain ⟨j, hj, hji⟩ := List.getElem_of_mem (hL.mem_iff.2 (List.mem_range.2 hi))
    have := hspec j hj
    rw [hji] at this
    simp only [List.getElem_map]
    rw [propMap.getElem_eq_item _ hi', propMap.getElem_eq_item _ hi]
    show (propMap.item (t.updateSortOrderWith (List.range t.PropMap.length)).PropMap i).counted = _
    rw [this]
    rfl

theorem map_Str_of_counted {m m' : propMap} (h : m'.map IItem.counted = m.map IItem.counted) :
    m'.map (·.Str) = m.map (·.Str) := by
  have := congrArg (List.map Prod.fst) h
  simpa [List.map_map, Function.comp, IItem.counted] using this

theorem map_Str_of_record {m m' : propMap} (h : m'.map IItem.record = m.map IItem.record) :
    m'.map (·.Str) = m.map (·.Str) := by
  have := congrArg (List.map Prod.fst) h
  simpa [List.map_map, Function.comp, IItem.record] using this

theorem CountInv.updateSortOrder {t : SchemaTree} {C : List (List String)} (h : CountInv t C) :
    CountInv t.updateSortOrder C := by
  have hc := SchemaTree.updateSortOrder_counted t
  have hstr := map_Str_of_counted hc
  have hlen : t.updateSortOrder.PropMap.length = t.PropMap.length := by
    simpa using congrArg List.length hc
  obtain ⟨hf1, hf2, hf3, hf4, hf5⟩ := h.fresh
  refine ⟨⟨hf1, hf2, hf3, hf4, ?_⟩, by rw [hstr]; exact h.keys, ?_, ?_⟩
  · intro it hit
    have h1 : it.counted ∈ t.updateSortOrder.PropMap.map IItem.counted :=
      List.mem_map_of_mem _ hit
    rw [hc, List.mem_map] at h1
    obtain ⟨it', hit', e⟩ := h1
    have := hf5 it' hit'
    simp only [IItem.counted, Prod.mk.injEq] at e
    rw [← e.2.2]
    exact this
  · intro iris hi iri hiri
    rw [hstr]
    exact h.known iris hi iri hiri
  · intro p hp
    rw [hlen] at hp
    have := propMap.item_of_map_eq IItem.counted hc hp
    simp only [IItem.counted, Prod.mk.injEq] at this
    rw [this.1, this.2.1]
    exact h.count p hp

theorem propMap.find_congr : ∀ {m m' : propMap}, m'.map (·.Str) = m.map (·.Str) →
    ∀ s, propMap.find m' s = propMap.find m s := by
  intro m
  induction m with
  | nil =>
    intro m' h s
    have : m' = [] := by simpa using h
    rw [this]
  | cons it m ih =>
    intro m' h s
    cases m' with
    | nil => simp at h
    | cons it' m' =>
      simp only [List.map_cons, List.cons.injEq] at h
      simp only [propMap.find, h.1, ih h.2 s]

theorem propMap.get_known {m : propMap} {s : String} (h : s ∈ m.map (·.Str)) :
    ∃ i, propMap.find m s = some i ∧ propMap.get m s = (m, i) := by
  cases hf : propMap.find m s with
  | none => exact absurd h (propMap.find_eq_none.1 hf)
  | some i => exact ⟨i, rfl, propMap.get_of_find_some hf⟩

/-- Interning known IRIs changes nothing and returns pointers that depend on the keys
of the dictionary only. -/
theorem propMap.internAll_known (iris : List String) : ∀ {m m' : propMap},
    m'.map (·.Str) = m.map (·.Str) → (∀ iri ∈ iris, iri ∈ m.map (·.Str)) →
    (propMap.internAll m' iris).1 = m' ∧
    (propMap.internAll m' iris).2 = (propMap.internAll m iris).2 := by
  induction iris with
  | nil => intro m m' _ _; exact ⟨rfl, rfl⟩
  | cons iri iris ih =>
    intro m m' h hk
    have hk0 := hk iri (List.mem_cons_self _ _)
    obtain ⟨i, hfi, hgi⟩ := propMap.get_known hk0
    obtain ⟨i', hfi', hgi'⟩ := propMap.get_known (m := m') (by rw [h]; exact hk0)
    have hii : i' = i := by
      rw [propMap.find_congr h iri, hfi] at hfi'
      exact (Option.some.inj hfi').symm
    simp only [propMap.internAll, hgi, hgi', hii]
    obtain ⟨h1, h2⟩ := ih h (fun x hx => hk x (List.mem_cons_of_mem _ hx))
    exact ⟨h1, by rw [h2]⟩

theorem SchemaTree.Insert_congr (t : SchemaTree) {l l' : List Nat} (h : l.Nodup) (h' : l'.Nodup)
    (e : l = l') : t.Insert ⟨l, h⟩ = t.Insert ⟨l', h'⟩ := by
  subst e
  rfl

/-- The second pass inserts the subjects of the corpus, resolved over the dictionary. -/
theorem readAll_Insert (m : propMap) (C : List (List String))
    (hk : ∀ iris ∈ C, ∀ iri ∈ iris, iri ∈ m.map (·.Str)) : ∀ (t : SchemaTree),
    t.PropMap.map (·.Str) = m.map (·.Str) →
    C.foldl (readSubject SchemaTree.Insert) t = t.insertAll (C.map (resolveSubject m)) := by
  induction C with
  | nil => intro t _; rfl
  | cons iris C ih =>
    intro t ht
    obtain ⟨h1, h2⟩ := propMap.internAll_known iris ht (hk iris (List.mem_cons_self _ _))
    have hstep : readSubject SchemaTree.Insert t iris = t.Insert (resolveSubject m iris) := by
      unfold readSubject resolveSubject
      rw [h1]
      exact SchemaTree.Insert_congr t _ _ (by rw [h2])
    have hkeys : (t.Insert (resolveSubject m iris)).PropMap.map (·.Str) = m.map (·.Str) := by
      rw [map_Str_of_record (SchemaTree.Insert_record t _), ht]
    rw [List.foldl_cons, hstep, ih (fun x hx => hk x (List.mem_cons_of_mem _ hx)) _ hkeys]
    rfl

theorem SchemaTree.chainFrom_eq {t : SchemaTree} (hch : ChainInv t) (p : Nat) :
    ∀ (n : Nat), n ≤ t.size → ∀ (fuel : Nat), n ≤ fuel →
    t.chainFrom fuel (t.occurrences p n).head? = some (t.occurrences p n) := by
  intro n
  induction n using Nat.strong_induction_on with
  | _ n ih =>
    intro hn fuel hf
    cases hh : (t.occurrences p n).head? with
    | none =>
      have : t.occurrences p n = [] := by
        cases hl : t.occurrences p n with
        | nil => rfl
        | cons x xs => rw [hl] at hh; simp at hh
      rw [this]
      cases fuel <;> simp [SchemaTree.chainFrom]
    | some a =>
      obtain ⟨han, ha0, hid, hocc⟩ := SchemaTree.occurrences_head hh
      cases fuel with
      | zero => omega
      | succ fuel =>
        have hnext := hch.next a ha0 (by omega)
        rw [hid] at hnext
        simp only [SchemaTree.chainFrom]
        rw [hnext, ih a han (by omega) fuel (by omega), hocc]
        rfl

theorem TrieInv.mem_path_of_occurrence {t : SchemaTree} {paths : Nat → List Nat}
    {T : List (List Nat)} (h : TrieInv t paths T) {p a : Nat}
    (ha : a ∈ t.occurrences p t.size) : ∀ q ∈ [p], q ∈ paths a := by
  rw [SchemaTree.mem_occurrences] at ha
  obtain ⟨b, _, _, hpath⟩ := h.parent a ha.2.1 ha.1
  intro q hq
  rw [List.mem_singleton] at hq
  rw [hq, hpath, ha.2.2]
  simp

theorem lastSorted_singleton (m : propMap) (p : Nat) : lastSorted m [p] = p := by
  simp [lastSorted, iList.sort, sortSlice]

/-- The chain of a property, its supports and `Support` of the single property, on a
tree that satisfies the invariants. -/
theorem TrieInv.Support_single {t : SchemaTree} {paths : Nat → List Nat} {T : List (List Nat)}
    (h : TrieInv t paths T) (hch : ChainInv t) (hnd : ∀ s ∈ T, s.Nodup) (p : Nat)
    (hp : p < t.PropMap.length) :
    t.chainFrom t.size (propMap.item t.PropMap p).traversalPointer
      = some (t.occurrences p t.size) ∧
    t.Support [p] = some (T.countP (fun s => decide (∀ q ∈ [p], q ∈ s)) % 2 ^ 32) ∧
    ((t.occurrences p t.size).map (fun a => (t.heap a).Support)).sum % 2 ^ 32
      = T.countP (fun s => decide (∀ q ∈ [p], q ∈ s)) % 2 ^ 32 ∧
    (T.length < 2 ^ 32 →
      ((t.occurrences p t.size).map (fun a => (t.heap a).Support)).sum
        = T.countP (fun s => decide (∀ q ∈ [p], q ∈ s))) := by
  have hlast := lastSorted_singleton t.PropMap p
  have hH : ∀ s ∈ T, ∀ s1 s2, s = s1 ++ lastSorted t.PropMap [p] :: s2 → (∀ q ∈ [p], q ∈ s) →
      ∀ q ∈ [p], q ∈ s1 ++ [lastSorted t.PropMap [p]] := by
    intro s _ s1 s2 _ _ q hq
    rw [List.mem_singleton] at hq
    rw [hlast, hq]
    simp
  have hS := h.Support_eq hch [p] (List.cons_ne_nil _ _) (by rw [hlast]; exact hp) hnd hH
    t.size (Nat.le_refl _)
  have hsum : ((t.occurrences p t.size).map
      (fun a => T.countP (fun s => decide (paths a <+: s)))).sum
      = T.countP (fun s => decide (∀ q ∈ [p], q ∈ s)) := by
    have hfil : (t.occurrences p t.size).filter (fun a => decide (∀ q ∈ [p], q ∈ paths a))
        = t.occurrences p t.size := by
      rw [List.filter_eq_self]
      intro a ha
      exact decide_eq_true (h.mem_path_of_occurrence ha)
    have := sum_countP_swap
      ((t.occurrences p t.size).filter (fun a => decide (∀ q ∈ [p], q ∈ paths a)))
      (fun a s => decide (paths a <+: s)) (fun s => decide (∀ q ∈ [p], q ∈ s)) T
      (fun s hs => h.countP_occurrences [p] p (List.mem_singleton_self _) s hs (hnd s hs)
        (by rw [← hlast]; exact hH s hs))
    rw [hfil] at this
    exact this
  have hsupp : ∀ a ∈ t.occurrences p t.size,
      (t.heap a).Support = T.countP (fun s => decide (paths a <+: s)) % 2 ^ 32 := by
    intro a ha
    rw [SchemaTree.mem_occurrences] at ha
    exact h.support a ha.1
  refine ⟨?_, hS, ?_, ?_⟩
  · rw [hch.head p hp]
    exact SchemaTree.chainFrom_eq hch p t.size (Nat.le_refl _) t.size (Nat.le_refl _)
  · rw [← hsum]
    apply sum_mod_congr
    intro a ha
    rw [hsupp a ha]
    exact Nat.mod_mod _ _
  · intro hlt
    rw [← hsum]
    congr 1
    apply List.map_congr_left
    intro a ha
    rw [hsupp a ha]
    apply Nat.mod_eq_of_lt
    have := List.countP_le_length (fun s => decide (paths a <+: s)) (l := T)
    omega

/-- The state of the tree after the two passes: the tree that `Create` returns is the
fresh tree of the first pass with the resolved subjects inserted, and the first pass has
counted the subjects. -/
theorem Create_eq (corpus : List (List String)) (firstN : Nat) (typed : Bool) (minSup : Nat) :
    ∃ t2, CountInv t2 (firstSubjects corpus firstN) ∧
      Create corpus firstN typed minSup
        = t2.insertAll ((firstSubjects corpus firstN).map (resolveSubject t2.PropMap)) := by
  have h1 : CountInv ((firstSubjects corpus firstN).foldl (readSubject counter)
      (New typed minSup)) (firstSubjects corpus firstN) := by
    simpa using CountInv.readAll (firstSubjects corpus firstN) (CountInv.init typed minSup)
  have h2 := h1.updateSortOrder.updateSortOrder
  refine ⟨_, h2, ?_⟩
  exact readAll_Insert _ _ h2.known _ rfl

theorem resolveSubject_mem {m : propMap} (hnd : (m.map (·.Str)).Nodup) {iris : List String}
    (hk : ∀ iri ∈ iris, iri ∈ m.map (·.Str)) (p : Nat) :
    p ∈ (resolveSubject m iris).Properties ↔
      (p < m.length ∧ (propMap.item m p).Str ∈ iris) := by
  obtain ⟨_, _, _, hptr, hsame⟩ := propMap.internAll_spec iris m hnd
  have := hptr p
  rw [hsame hk] at this
  simp only [resolveSubject, List.mem_dedup]
  exact this

/-- C5. After a two-pass build over a corpus, for every record `p` of the dictionary:
the walk of the occurrence chain of `p` ends, `Support([p])` returns `p.TotalCount`, and
`p.TotalCount` is the sum of the supports of the nodes of the chain, in the 32-bit
arithmetic of `Support`; with fewer than `2 ^ 32` subjects it is their sum as a natural
number. -/
theorem TwoPass_totalCount (corpus : List (List String)) (firstN : Nat) (typed : Bool)
    (minSup : Nat) (p : Nat) (hp : p < (Create corpus firstN typed minSup).PropMap.length) :
    ∃ chain,
      (Create corpus firstN typed minSup).chainFrom (Create corpus firstN typed minSup).size
        (propMap.item (Create corpus firstN typed minSup).PropMap p).traversalPointer
        = some chain ∧
      (Create corpus firstN typed minSup).Support [p]
        = some (propMap.item (Create corpus firstN typed minSup).PropMap p).TotalCount ∧
      uint32 ((chain.map (fun a => ((Create corpus firstN typed minSup).heap a).Support)).sum)
        = (propMap.item (Create corpus firstN typed minSup).PropMap p).TotalCount ∧
      ((firstSubjects corpus firstN).length < 2 ^ 32 →
        (chain.map (fun a => ((Create corpus firstN typed minSup).heap a).Support)).sum
          = (propMap.item (Create corpus firstN typed minSup).PropMap p).TotalCount) := by
  obtain ⟨t2, hc, heq⟩ := Create_eq corpus firstN typed minSup
  rw [heq] at hp ⊢
  have hv : ∀ e ∈ (firstSubjects corpus firstN).map (resolveSubject t2.PropMap),
      ∀ q ∈ e.Properties, q < t2.PropMap.length := by
    intro e he q hq
    rw [List.mem_map] at he
    obtain ⟨iris, hi, rfl⟩ := he
    exact ((resolveSubject_mem hc.keys (hc.known iris hi) q).1 hq).1
  obtain ⟨paths, h, hrec, hch⟩ := SchemaTree.insertAll_inv hc.fresh
    ((firstSubjects corpus firstN).map (resolveSubject t2.PropMap))
  have hlen := propMap.length_eq_of_record hrec
  rw [hlen] at hp
  have hnd : ∀ s ∈ (((firstSubjects corpus firstN).map (resolveSubject t2.PropMap)).map
      (fun (e : SubjectSummary) => iList.sort t2.PropMap e.Properties)).reverse ++ [],
      s.Nodup := by
    intro s hs
    rw [List.append_nil, List.mem_reverse, List.mem_map] at hs
    obtain ⟨e, _, rfl⟩ := hs
    exact iList.sort_nodup _ e.nodup
  obtain ⟨h1, h2, h3, h4⟩ := h.Support_single (hch hv) hnd p (by rw [hlen]; exact hp)
  -- the count of the trie is the count of the first pass
  have hcount : ((((firstSubjects corpus firstN).map (resolveSubject t2.PropMap)).map
      (fun (e : SubjectSummary) => iList.sort t2.PropMap e.Properties)).reverse ++ []).countP
        (fun s => decide (∀ q ∈ [p], q ∈ s))
      = (firstSubjects corpus firstN).countP
          (fun iris => decide ((propMap.item t2.PropMap p).Str ∈ iris)) := by
    rw [countP_hasAll, List.countP_map]
    apply List.countP_congr
    intro iris hi
    simp only [Function.comp, SubjectSummary.hasAll, List.all_cons, List.all_nil, Bool.and_true,
      decide_eq_true_iff]
    rw [resolveSubject_mem hc.keys (hc.known iris hi) p]
    exact ⟨fun hh => hh.2, fun hh => ⟨hp, hh⟩⟩
  have htc : (propMap.item (t2.insertAll
      ((firstSubjects corpus firstN).map (resolveSubject t2.PropMap))).PropMap p).TotalCount
      = (firstSubjects corpus firstN).countP
          (fun iris => decide ((propMap.item t2.PropMap p).Str ∈ iris)) % 2 ^ 32 := by
    have := propMap.item_record_of_record hrec p
    simp only [IItem.record, Prod.mk.injEq] at this
    rw [this.2.1]
    exact hc.count p hp
  have hTlen : ((((firstSubjects corpus firstN).map (resolveSubject t2.PropMap)).map
      (fun (e : SubjectSummary) => iList.sort t2.PropMap e.Properties)).reverse ++ []).length
      = (firstSubjects corpus firstN).length := by simp
  rw [hcount] at h2 h3 h4
  rw [hTlen] at h4
  refine ⟨_, h1, by rw [h2, htc], by rw [htc]; exact h3, ?_⟩
  intro hlt
  rw [htc, h4 hlt]
  symm
  apply Nat.mod_eq_of_lt
  have := List.countP_le_length
    (fun iris => decide ((propMap.item t2.PropMap p).Str ∈ iris)) (l := firstSubjects corpus firstN)
  omega

/-- C5, at the corpus of one subject with `A` and one with `B` and `A`, for the record
`B` (pointer `2`): the chain of `B` is the single node at address `2`, whose support `1`
is the total count of `B`. -/
theorem TwoPass_totalCount_witness :
    (Create smallCorpus 0 false 1).chainFrom (Create smallCorpus 0 false 1).size
      (propMap.item (Create smallCorpus 0 false 1).PropMap 2).traversalPointer = some [2] ∧
    (propMap.item (Create smallCorpus 0 false 1).PropMap 2).TotalCount = 1 ∧
    ∃ chain,
      (Create smallCorpus 0 false 1).chainFrom (Create smallCorpus 0 false 1).size
        (propMap.item (Create smallCorpus 0 false 1).PropMap 2).traversalPointer = some chain ∧
      (Create smallCorpus 0 false 1).Support [2]
        = some (propMap.item (Create smallCorpus 0 false 1).PropMap 2).TotalCount ∧
      uint32 ((chain.map (fun a => ((Create smallCorpus 0 false 1).heap a).Support)).sum)
        = (propMap.item (Create smallCorpus 0 false 1).PropMap 2).TotalCount ∧
      ((firstSubjects smallCorpus 0).length < 2 ^ 32 →
        (chain.map (fun a => ((Create smallCorpus 0 false 1).heap a).Support)).sum
          = (propMap.item (Create smallCorpus 0 false 1).PropMap 2).TotalCount) :=
  ⟨by decide, by decide, TwoPass_totalCount smallCorpus 0 false 1 2 (by decide)⟩

/-- What `sortAndDeduplicate` returns on a non-empty list whose distinct items have
distinct sort orders: a strictly ascending list with the items of the input. -/
theorem iList.sortAndDeduplicate_spec (m : propMap) (l : IList) (hne : l ≠ [])
    (hinj : ∀ a ∈ l, ∀ b ∈ l, m.sortOrder a = m.sortOrder b → a = b) :
    ∃ r, iList.sortAndDeduplicate m l = some r ∧
      r.Pairwise (fun a b => m.sortOrder a < m.sortOrder b) ∧ ∀ x, x ∈ r ↔ x ∈ l := by
  have hperm := iList.sort_perm m l
  have hne' : iList.sort m l ≠ [] := fun h => hne (by simpa [h] using hperm.symm)
  have hpos : 0 < (iList.sort m l).length := List.length_pos.2 hne'
  have hinv := dedupInv_loop m.sortOrder (iList.sort m l) (iList.sort_sorted m l)
    (fun a ha b hb => hinj a (hperm.mem_iff.1 ha) b (hperm.mem_iff.1 hb)) hne'
    ((iList.sort m l).length - 1) (by omega)
  obtain ⟨hlen, hjk, _, _, hpw, hmem⟩ := hinv
  have hle : ((List.range' 1 ((iList.sort m l).length - 1)).foldl dedupStep
      (iList.sort m l, 0)).2 + 1 ≤ ((List.range' 1 ((iList.sort m l).length - 1)).foldl dedupStep
      (iList.sort m l, 0)).1.length := by omega
  refine ⟨_, by simp only [iList.sortAndDeduplicate, hle, ↓reduceIte], hpw, ?_⟩
  intro x
  rw [hmem x, Nat.sub_add_cancel hpos, List.take_length]
  exact hperm.mem_iff

/-- Two strictly ascending lists with the same items are the same list. -/
theorem strictly_ascending_unique (so : Nat → Nat) {r r' : IList}
    (hr : r.Pairwise (fun a b => so a < so b)) (hr' : r'.Pairwise (fun a b => so a < so b))
    (hmem : ∀ x, x ∈ r ↔ x ∈ r') : r = r' := by
  have hnd : ∀ {k : IList}, k.Pairwise (fun a b => so a < so b) → k.Nodup := fun h =>
    h.imp (fun {a b} (hab : so a < so b) => by
      intro e; subst e; exact Nat.lt_irrefl _ hab)
  have : IsAntisymm Nat (fun a b => so a < so b) :=
    ⟨fun a b hab hba => absurd hab (Nat.lt_asymm hba)⟩
  exact List.eq_of_perm_of_sorted ((List.perm_ext_iff_of_nodup (hnd hr) (hnd hr')).2 hmem) hr hr'

/-- C11. Property-list building is idempotent under duplicate inputs: for a non-empty
list `l` whose distinct items have distinct sort orders, `sortAndDeduplicate` gives on
every list with the items of `l`, however often and wherever they are repeated, the same
list as on `l`, and applied to its own result it gives that result again. -/
theorem sortAndDeduplicate_idempotent (m : propMap) (l l' : IList) (hne : l ≠ [])
    (hinj : ∀ a ∈ l, ∀ b ∈ l, m.sortOrder a = m.sortOrder b → a = b)
    (hrep : ∀ x, x ∈ l' ↔ x ∈ l) :
    iList.sortAndDeduplicate m l' = iList.sortAndDeduplicate m l ∧
    ∃ r, iList.sortAndDeduplicate m l = some r ∧ iList.sortAndDeduplicate m r = some r := by
  obtain ⟨r, hr, hpw, hmem⟩ := iList.sortAndDeduplicate_spec m l hne hinj
  have hne' : l' ≠ [] := by
    obtain ⟨a, ha⟩ := List.exists_mem_of_ne_nil l hne
    exact List.ne_nil_of_mem ((hrep a).2 ha)
  obtain ⟨r', hr', hpw', hmem'⟩ := iList.sortAndDeduplicate_spec m l' hne'
    (fun a ha b hb => hinj a ((hrep a).1 ha) b ((hrep b).1 hb))
  have hrne : r ≠ [] := by
    obtain ⟨a, ha⟩ := List.exists_mem_of_ne_nil l hne
    exact List.ne_nil_of_mem ((hmem a).2 ha)
  obtain ⟨r'', hr'', hpw'', hmem''⟩ := iList.sortAndDeduplicate_spec m r hrne
    (fun a ha b hb => hinj a ((hmem a).1 ha) b ((hmem b).1 hb))
  refine ⟨?_, r, hr, ?_⟩
  · rw [hr, hr']
    exact congrArg some (strictly_ascending_unique m.sortOrder hpw' hpw
      (fun x => (hmem' x).trans ((hrep x).trans (hmem x).symm)))
  · rw [hr'']
    exact congrArg some (strictly_ascending_unique m.sortOrder hpw'' hpw hmem'')

/-- C11, at the list `[A, B]` and the list `[B, A, B, A, A]` with repeated items, over the
dictionary where `B` sorts before `A`: both give `[B, A]`, and so does `[B, A]` itself. -/
theorem sortAndDeduplicate_idempotent_witness :
    iList.sortAndDeduplicate [⟨"A", 0, 1, none⟩, ⟨"B", 0, 0, none⟩] [0, 1] = some [1, 0] ∧
    (iList.sortAndDeduplicate [⟨"A", 0, 1, none⟩, ⟨"B", 0, 0, none⟩] [1, 0, 1, 0, 0]
        = iList.sortAndDeduplicate [⟨"A", 0, 1, none⟩, ⟨"B", 0, 0, none⟩] [0, 1] ∧
      ∃ r, iList.sortAndDeduplicate [⟨"A", 0, 1, none⟩, ⟨"B", 0, 0, none⟩] [0, 1] = some r ∧
        iList.sortAndDeduplicate [⟨"A", 0, 1, none⟩, ⟨"B", 0, 0, none⟩] r = some r) :=
  ⟨by decide,
   sortAndDeduplicate_idempotent [⟨"A", 0, 1, none⟩, ⟨"B", 0, 0, none⟩] [0, 1] [1, 0, 1, 0, 0]
     (by decide) (by decide) (fun x => by simp; tauto)⟩

theorem Instance.CalcRecommendations_cached {F : Type}
    (R : SchemaTree → IList → PropertyRecommendations F) (inst : Instance F)
    (huse : inst.useOptimisticCache = true)
    (hcache : inst.cachedRecommendations = none ∨ inst.cachedRecommendations = R inst.tree inst.Props) :
    (inst.CalcRecommendations R).2 = R inst.tree inst.Props ∧
    (inst.CalcRecommendations R).1.Props = inst.Props ∧
    (inst.CalcRecommendations R).1.tree = inst.tree ∧
    (inst.CalcRecommendations R).1.useOptimisticCache = true ∧
    (inst.CalcRecommendations R).1.cachedRecommendations = R inst.tree inst.Props := by
  unfold Instance.CalcRecommendations
  rw [if_pos huse]
  rcases hcache with h | h
  · simp [h, huse]
  · cases hc : inst.cachedRecommendations with
    | none => simp [huse]
    | some v => simp [huse, hc, ← h]

theorem Instance.callResults_uncached {F : Type}
    (R : SchemaTree → IList → PropertyRecommendations F) (n : Nat) (inst : Instance F)
    (huse : inst.useOptimisticCache = false) :
    inst.callResults R n = List.replicate n (R inst.tree inst.Props) := by
  induction n with
  | zero => rfl
  | succ n ih =>
    have h : inst.CalcRecommendations R = (inst, R inst.tree inst.Props) := by
      simp [Instance.CalcRecommendations, huse]
    simp only [Instance.callResults, h, ih, List.replicate_succ]

theorem Instance.callResults_cached {F : Type}
    (R : SchemaTree → IList → PropertyRecommendations F) (n : Nat) (inst : Instance F)
    (huse : inst.useOptimisticCache = true)
    (hcache : inst.cachedRecommendations = none ∨ inst.cachedRecommendations = R inst.tree inst.Props) :
    inst.callResults R n = List.replicate n (R inst.tree inst.Props) := by
  induction n generalizing inst with
  | zero => rfl
  | succ n ih =>
    obtain ⟨h2, hp, ht, hu, hc⟩ := Instance.CalcRecommendations_cached R inst huse hcache
    have := ih (inst.CalcRecommendations R).1 hu (Or.inr (by rw [hc, hp, ht]))
    simp only [Instance.callResults, this, h2, hp, ht, List.replicate_succ]

/-- C18. With the optimistic cache enabled and `Props` not altered, every call of
`CalcRecommendations`, whatever the number of calls, returns what the recommender returns
on `Props`, which is what the same calls return on the instance with the cache disabled;
this holds for an instance as `NewInstance` builds it (empty cache) and for one that has
served calls before (the cache holds the recommendations for `Props`). -/
theorem CalcRecommendations_cache_equiv {F : Type}
    (RecommendProperty : SchemaTree → IList → PropertyRecommendations F) (inst : Instance F)
    (n : Nat) (huse : inst.useOptimisticCache = true)
    (hcache : inst.cachedRecommendations = none ∨
      inst.cachedRecommendations = RecommendProperty inst.tree inst.Props) :
    inst.callResults RecommendProperty n
      = List.replicate n (inst.uncachedRecommendations RecommendProperty) ∧
    inst.callResults RecommendProperty n
      = Instance.callResults RecommendProperty n { inst with useOptimisticCache := false } := by
  have h1 := Instance.callResults_cached RecommendProperty n inst huse hcache
  have h2 := Instance.callResults_uncached RecommendProperty n
    { inst with useOptimisticCache := false } rfl
  exact ⟨h1, h1.trans h2.symm⟩

/-- C18, at three calls on the instance that `NewInstance` builds for the query `[A]` over
the dictionary with `A`, `B`, `C` and `D`: each call returns `B`, `C` and `D`. -/
theorem CalcRecommendations_cache_equiv_witness :
    Instance.callResults sampleRecommender 3 (NewInstance [1] abcdTree true)
      = List.replicate 3 (some [⟨2, 1 / 2⟩, ⟨3, 1 / 2⟩, ⟨4, 1 / 2⟩]) ∧
    (Instance.callResults sampleRecommender 3 (NewInstance [1] abcdTree true)
      = List.replicate 3
          (Instance.uncachedRecommendations sampleRecommender (NewInstance [1] abcdTree true)) ∧
    Instance.callResults sampleRecommender 3 (NewInstance [1] abcdTree true)
      = Instance.callResults sampleRecommender 3
          { (NewInstance [1] abcdTree true : Instance ℚ) with useOptimisticCache := false }) :=
  ⟨by
    rw [(CalcRecommendations_cache_equiv sampleRecommender (NewInstance [1] abcdTree true) 3 rfl
      (Or.inl rfl)).1]
    rfl,
   CalcRecommendations_cache_equiv sampleRecommender (NewInstance [1] abcdTree true) 3 rfl
    (Or.inl rfl)⟩

theorem writeConfigs_files {F : Type} (ops : Float32Ops F)
    (write : String → Configuration F → Option String) (all : List (Layer F))
    (layers : List (Layer F)) :
    ∀ (i : Nat) (files : List (String × Configuration F)) (err : Option String),
    (∀ l ∈ layers, l ∈ all) →
    (∀ e ∈ files, ∃ l ∈ all, e.2.Layers = [l, fallbackLayer ops]) →
    ∀ e ∈ (writeConfigs ops write i layers files err).files,
      ∃ l ∈ all, e.2.Layers = [l, fallbackLayer ops] := by
  induction layers with
  | nil =>
    intro i files err _ hfiles e he
    exact hfiles e he
  | cons l rest ih =>
    intro i files err hall hfiles e he
    have hfiles' : ∀ e ∈ files ++ [("./configs/config_" ++ toString i ++ ".json",
        (⟨"../testdata/10M.nt_1in2_test.gz", [l, fallbackLayer ops]⟩ : Configuration F))],
        ∃ l ∈ all, e.2.Layers = [l, fallbackLayer ops] := by
      intro e he
      rcases List.mem_append.1 he with h | h
      · exact hfiles e h
      · rw [List.mem_singleton] at h
        subst h
        exact ⟨l, hall l (List.mem_cons_self _ _), rfl⟩
    simp only [writeConfigs] at he
    split at he
    · exact hfiles' e he
    · exact ih (i + 1) _ none (fun l hl => hall l (List.mem_cons_of_mem _ hl)) hfiles' e he

/-- C19. Every configuration that `createConfigFiles` generates and hands to
`writeConfigFile` has exactly two layers: the first is one of the generated backoff
layers, the last is the layer with condition `"always"` and backoff `"standard"` whose
threshold, float threshold, merger, splitter, step size and parallel executions are zero
or empty. -/
theorem createConfigFiles_fallback {F : Type} (ops : Float32Ops F)
    (readFile : String → Except String String) (unmarshal : String → creater F × Option String)
    (write : String → Configuration F → Option String) (creater : String)
    (name : String) (c : Configuration F)
    (h : (name, c) ∈ (createConfigFiles ops readFile unmarshal write creater).files) :
    c.Layers.length = 2 ∧
    ∃ createrConfig layers l,
      (readCreaterConfig readFile unmarshal creater).1 = some createrConfig ∧
      backoffLayers ops createrConfig = some layers ∧ l ∈ layers ∧
      c.Layers = [l, ⟨"always", "standard", 0, ops.zero, "", "", "", 0⟩] := by
  unfold createConfigFiles at h
  split at h
  · simp at h
  · rename_i createrConfig err hread
    split at h
    · simp at h
    · rename_i layers hlayers
      obtain ⟨l, hl, hc⟩ := writeConfigs_files ops write layers layers 0 [] err
        (fun l hl => hl) (fun e he => by simp at he) (name, c) h
      refine ⟨by rw [hc]; rfl, createrConfig, layers, l, by rw [hread], hlayers, hl, hc⟩

/-- C19, at the creater configuration with one condition, merger, splitter and step
function: the second configuration written is a delete-low-frequency layer followed by
the fallback layer. -/
theorem createConfigFiles_fallback_witness :
    (createConfigFiles ratOps (fun _ => Except.ok "") (fun _ => (sampleCreater, none))
      (fun _ _ => none) "creater.json").files =
      [("./configs/config_0.json", ⟨"../testdata/10M.nt_1in2_test.gz",
          [⟨"tooManyRecommendations", "splitProperty", 1, 0, "avg", "everySecondItem", "", 0⟩,
           ⟨"always", "standard", 0, 0, "", "", "", 0⟩]⟩),
       ("./configs/config_1.json", ⟨"../testdata/10M.nt_1in2_test.gz",
          [⟨"tooManyRecommendations", "deleteLowFrequency", 1, 0, "", "", "stepsizeLinear", 1⟩,
           ⟨"always", "standard", 0, 0, "", "", "", 0⟩]⟩)] ∧
    ((⟨"../testdata/10M.nt_1in2_test.gz",
        [⟨"tooManyRecommendations", "deleteLowFrequency", 1, 0, "", "", "stepsizeLinear", 1⟩,
         ⟨"always", "standard", 0, 0, "", "", "", 0⟩]⟩ : Configuration ℚ).Layers.length = 2 ∧
    ∃ createrConfig layers l,
      (readCreaterConfig (fun _ => Except.ok "") (fun _ => (sampleCreater, none))
        "creater.json").1 = some createrConfig ∧
      backoffLayers ratOps createrConfig = some layers ∧ l ∈ layers ∧
      (⟨"../testdata/10M.nt_1in2_test.gz",
        [⟨"tooManyRecommendations", "deleteLowFrequency", 1, 0, "", "", "stepsizeLinear", 1⟩,
         ⟨"always", "standard", 0, 0, "", "", "", 0⟩]⟩ : Configuration ℚ).Layers
        = [l, ⟨"always", "standard", 0, ratOps.zero, "", "", "", 0⟩]) :=
  ⟨rfl,
   createConfigFiles_fallback ratOps (fun _ => Except.ok "") (fun _ => (sampleCreater, none))
    (fun _ _ => none) "creater.json" "./configs/config_1.json" _
    (List.mem_cons_of_mem _ (List.mem_cons_self _ _))⟩

/-- C20, the code at two calls where the left-out properties are not all recommended
back, over the dictionary with `A`, `B`, `C` and `D` and the reduced set `[A]`. With `B`
and `C` left out and the recommendations `B`, `D`, one of the two left-out properties is
found and the rank is `1`, the position of `B`, where the number of recommendations plus
one is `3`. With `B` left out and the recommendation `D`, nothing is found and the rank is
`500`, where the number of recommendations plus one is `2`. -/
theorem evaluatePair_rank_first_match :
    (evaluatePair abcdTree (fun _ => some [⟨2, (1 : ℚ)⟩, ⟨4, 1⟩]) 0 [1] [2, 3]).map
        (fun r => (r.numLeftOut, r.numTP, r.rank)) = some (2, 1, 1) ∧
    (evaluatePair abcdTree (fun _ => some [⟨4, (1 : ℚ)⟩]) 0 [1] [2]).map
        (fun r => (r.numLeftOut, r.numTP, r.rank)) = some (1, 0, 500) := by
  constructor <;> decide

theorem fillProps_spec (m : propMap) (rest : List Nat) :
    ∀ (props : List (Option Nat)), (∀ q ∈ rest, m.sortOrder q < props.length) →
    (rest.map m.sortOrder).Nodup →
    ∃ props', fillProps m rest props = some props' ∧ props'.length = props.length ∧
      (∀ q ∈ rest, props'[m.sortOrder q]? = some (some q)) ∧
      (∀ i, (∀ q ∈ rest, m.sortOrder q ≠ i) → props'[i]? = props[i]?) := by
  induction rest with
  | nil =>
    intro props _ _
    exact ⟨props, rfl, rfl, fun q hq => by simp at hq, fun i _ => rfl⟩
  | cons p rest ih =>
    intro props hlt hnd
    have hp : m.sortOrder p < props.length := hlt p (List.mem_cons_self _ _)
    rw [List.map_cons, List.nodup_cons] at hnd
    obtain ⟨props', hf, hlen, hset, hkeep⟩ := ih (props.set (m.sortOrder p) (some p))
      (fun q hq => by rw [List.length_set]; exact hlt q (List.mem_cons_of_mem _ hq)) hnd.2
    refine ⟨props', ?_, by rw [hlen, List.length_set], ?_, ?_⟩
    · have hp' : (propMap.item m p).SortOrder < props.length := hp
      simp only [fillProps, hp', ↓reduceIte]
      exact hf
    · intro q hq
      rcases List.mem_cons.1 hq with h | h
      · subst h
        rw [hkeep _ (fun q' hq' e => hnd.1 (by rw [← e]; exact List.mem_map_of_mem _ hq'))]
        simp [List.getElem?_set, hp]
      · exact hset q h
    · intro i hi
      rw [hkeep i (fun q hq => hi q (List.mem_cons_of_mem _ hq)), List.getElem?_set_ne]
      exact hi p (List.mem_cons_self _ _)

theorem itemsOf_map_some (m : propMap) (ps : List Nat) :
    itemsOf m (ps.map some) = some (ps.map (fun p => (propMap.item m p).toItem)) := by
  induction ps with
  | nil => rfl
  | cons p ps ih => simp [itemsOf, ih, IItem.toItem]

theorem propMap.map_item_range (m : propMap) :
    (List.range m.length).map (propMap.item m) = m := by
  apply List.ext_getElem?
  intro i
  by_cases hi : i < m.length
  · rw [List.getElem?_map, List.getElem?_range hi]
    simp [propMap.item, List.getD_eq_getElem?_getD, List.getElem?_eq_getElem hi]
  · rw [List.getElem?_eq_none (by simpa using hi), List.getElem?_eq_none (by simpa using hi)]

/-- What the dictionary part of `SaveProtocolBuffer` emits when the sort orders are a
permutation of `0..n-1`, for any iteration order of the map: the pointers in `props` are
the records in sort order. -/
theorem SchemaTree.protoItemsWith_spec (tree : SchemaTree) (order : List Nat)
    (horder : order.Perm (List.range tree.PropMap.length))
    (hso : (tree.PropMap.map (·.SortOrder)).Perm (List.range tree.PropMap.length)) :
    ∃ ps : List Nat, tree.protoItemsWith order
        = some (ps.map (fun p => (propMap.item tree.PropMap p).toItem)) ∧
      ps.Perm (List.range tree.PropMap.length) ∧
      ∀ i, i < tree.PropMap.length → (ps[i]?).map tree.PropMap.sortOrder = some i := by
  have hmapso : (order.map tree.PropMap.sortOrder).Perm (List.range tree.PropMap.length) := by
    refine (horder.map _).trans ?_
    have : (List.range tree.PropMap.length).map tree.PropMap.sortOrder
        = tree.PropMap.map (·.SortOrder) := by
      conv_rhs => rw [← propMap.map_item_range tree.PropMap]
      rw [List.map_map]
      rfl
    rw [this]
    exact hso
  obtain ⟨props', hf, hlen, hset, _⟩ := fillProps_spec tree.PropMap order
    (List.replicate tree.PropMap.length none)
    (fun q hq => by
      have := hmapso.mem_iff.1 (List.mem_map_of_mem tree.PropMap.sortOrder hq)
      simpa using this)
    (hmapso.nodup_iff.2 (List.nodup_range _))
  rw [List.length_replicate] at hlen
  have hall : ∀ i, i < tree.PropMap.length →
      ∃ q ∈ order, tree.PropMap.sortOrder q = i ∧ props'[i]? = some (some q) := by
    intro i hi
    have : i ∈ order.map tree.PropMap.sortOrder := hmapso.mem_iff.2 (List.mem_range.2 hi)
    obtain ⟨q, hq, hqi⟩ := List.mem_map.1 this
    exact ⟨q, hq, hqi, hqi ▸ hset q hq⟩
  have hprops : props' = (props'.map (fun o => o.getD 0)).map some := by
    apply List.ext_getElem?
    intro i
    by_cases hi : i < tree.PropMap.length
    · obtain ⟨q, _, _, hq⟩ := hall i hi
      simp [List.getElem?_map, hq]
    · rw [List.getElem?_eq_none (by omega), List.getElem?_eq_none (by simp; omega)]
  have hget : ∀ i, i < tree.PropMap.length →
      ((props'.map (fun o => o.getD 0))[i]?).map tree.PropMap.sortOrder = some i := by
    intro i hi
    obtain ⟨q, _, hqi, hq⟩ := hall i hi
    simp [List.getElem?_map, hq, hqi]
  refine ⟨props'.map (fun o => o.getD 0), ?_, ?_, hget⟩
  · unfold SchemaTree.protoItemsWith
    rw [hf, Option.some_bind, hprops, itemsOf_map_some, List.map_map, List.map_map]
    simp
  · have hmap : (props'.map (fun o => o.getD 0)).map tree.PropMap.sortOrder
        = List.range tree.PropMap.length := by
      apply List.ext_getElem?
      intro i
      by_cases hi : i < tree.PropMap.length
      · rw [List.getElem?_map, hget i hi, List.getElem?_range hi]
      · rw [List.getElem?_eq_none (by simp; omega), List.getElem?_eq_none (by simp; omega)]
    have hnd : (props'.map (fun o => o.getD 0)).Nodup :=
      List.Nodup.of_map _ (hmap ▸ List.nodup_range _)
    have hsub : props'.map (fun o => o.getD 0) ⊆ order := by
      intro q hq
      obtain ⟨i, hi, hiq⟩ := List.getElem_of_mem hq
      rw [List.length_map, hlen] at hi
      obtain ⟨q', hq', _, hp'⟩ := hall i hi
      have : (props'.map (fun o => o.getD 0))[i]? = some q' := by
        simp [List.getElem?_map, hp']
      rw [List.getElem?_eq_getElem (by simpa [hlen] using hi), hiq] at this
      cases this
      exact hq'
    exact ((List.subperm_of_subset hnd hsub).perm_of_length_le
      (by rw [List.length_map, hlen, horder.length_eq, List.length_range])).trans horder

/-- C14. `SaveProtocolBuffer` emits the items in sort order: on a tree whose sort orders
are a permutation of `0..n-1`, whatever the iteration order of the map, the dictionary
part returns a list with exactly one item per record of the dictionary, the item at index
`i` has `SortOrder` `i`, and this list is the `PropMap` of the message that
`SaveProtocolBuffer` builds. -/
theorem SaveProtocolBuffer_items_in_sort_order (tree : SchemaTree) (order : List Nat)
    (horder : order.Perm (List.range tree.PropMap.length))
    (hso : (tree.PropMap.map (·.SortOrder)).Perm (List.range tree.PropMap.length)) :
    ∃ items, tree.protoItemsWith order = some items ∧
      items.length = tree.PropMap.length ∧
      items.Perm (tree.PropMap.map IItem.toItem) ∧
      (∀ i, i < tree.PropMap.length → (items[i]?).map (·.SortOrder) = some i) ∧
      ∀ pb_tree, tree.SaveProtocolBufferWith order = some pb_tree → pb_tree.PropMap = items := by
  obtain ⟨ps, hitems, hperm, hget⟩ := tree.protoItemsWith_spec order horder hso
  refine ⟨_, hitems, ?_, ?_, ?_, ?_⟩
  · rw [List.length_map, hperm.length_eq, List.length_range]
  · have h := hperm.map (fun p => (propMap.item tree.PropMap p).toItem)
    have h2 : (List.range tree.PropMap.length).map (fun p => (propMap.item tree.PropMap p).toItem)
        = tree.PropMap.map IItem.toItem := by
      conv_rhs => rw [← propMap.map_item_range tree.PropMap]
      rw [List.map_map]
      rfl
    rw [h2] at h
    exact h
  · intro i hi
    have := hget i hi
    rw [List.getElem?_map, Option.map_map]
    exact this
  · intro pb_tree hpb
    unfold SchemaTree.SaveProtocolBufferWith at hpb
    rw [hitems, Option.some_bind] at hpb
    cases hroot : tree.AsProtoSchemaNode tree.size 0 with
    | none => simp [hroot] at hpb
    | some root =>
      simp only [hroot, Option.map_some', Option.some.injEq] at hpb
      rw [← hpb]

/-- C14, at the tree built from the corpus of two subjects: the items are `A`, `B` and
`root`, with the sort orders `0`, `1` and `2`. -/
theorem SaveProtocolBuffer_items_in_sort_order_witness :
    (Create smallCorpus 0 false 1).SaveProtocolBuffer.map (fun pb_tree => pb_tree.PropMap)
      = some [⟨"A", 2, 0⟩, ⟨"B", 1, 1⟩, ⟨"root", 0, 2⟩] ∧
    ∃ items, (Create smallCorpus 0 false 1).protoItemsWith [2, 0, 1] = some items ∧
      items.length = (Create smallCorpus 0 false 1).PropMap.length ∧
      items.Perm ((Create smallCorpus 0 false 1).PropMap.map IItem.toItem) ∧
      (∀ i, i < (Create smallCorpus 0 false 1).PropMap.length →
        (items[i]?).map (·.SortOrder) = some i) ∧
      ∀ pb_tree, (Create smallCorpus 0 false 1).SaveProtocolBufferWith [2, 0, 1] = some pb_tree →
        pb_tree.PropMap = items :=
  ⟨by decide,
   SaveProtocolBuffer_items_in_sort_order (Create smallCorpus 0 false 1) [2, 0, 1]
    (by decide) (by decide)⟩

/-- The node decoder cannot resolve any property index against the empty list. -/
theorem SchemaTree.decodeNode_nil (nd : pbSchemaNode) (parent : Option Nat) (tree : SchemaTree) :
    SchemaTree.decodeNode [] nd parent tree = none := by
  cases nd with
  | mk index support children => simp [SchemaTree.decodeNode]

/-- The function `loadProtocolBuffer` returns no tree, whatever the message. -/
theorem loadProtocolBuffer_eq_none (pb_tree : pbSchemaTree) :
    loadProtocolBuffer pb_tree = none := by
  simp [loadProtocolBuffer, SchemaTree.FromProtoSchemaNode, SchemaTree.decodeNode_nil]

theorem propMap.find_append_of_some {m : propMap} (ext : propMap) {s : String} {i : Nat}
    (h : propMap.find m s = some i) : propMap.find (m ++ ext) s = some i := by
  induction m generalizing i with
  | nil => simp [propMap.find] at h
  | cons it m ih =>
    simp only [propMap.find, List.cons_append] at h ⊢
    split
    · rename_i hs
      simpa [hs] using h
    · rename_i hs
      simp only [hs, ↓reduceIte] at h
      cases hf : propMap.find m s with
      | none => simp [hf] at h
      | some j =>
        have hj := ih hf
        simp only [List.append_eq] at hj ⊢
        rw [hj]
        simpa [hf] using h

theorem propMap.find_item_of_nodup {m : propMap} (hnd : (m.map (·.Str)).Nodup) {i : Nat}
    (hi : i < m.length) : propMap.find m (propMap.item m i).Str = some i := by
  cases hf : propMap.find m (propMap.item m i).Str with
  | none =>
    exact absurd (List.mem_map_of_mem (·.Str) (propMap.item_mem m hi)) (propMap.find_eq_none.1 hf)
  | some j =>
    have h := propMap.find_lt hf
    rw [propMap.key_inj hnd h.1 hi h.2]

theorem SchemaTree.foldl_store_PropMap {α : Type} (rec : α → IItem) (items : List α) :
    ∀ tree : SchemaTree, (items.foldl (fun tree it => tree.store (rec it)) tree).PropMap
      = (items.map rec).reverse ++ tree.PropMap := by
  induction items with
  | nil => intro tree; rfl
  | cons it items ih =>
    intro tree
    rw [List.foldl_cons, ih, List.map_cons, List.reverse_cons, List.append_assoc]
    rfl

/-- The dictionary that `loadProtocolBuffer` has decoded when it reaches the root: for a
message whose items have pairwise distinct IRIs, every IRI of an item is a key of the map,
the record stored under it has the IRI, total count and sort order of the item, and
`MinSup` is that of the message. -/
theorem loadedDictionary_spec (pb_tree : pbSchemaTree)
    (hnd : (pb_tree.PropMap.map (·.Str)).Nodup) :
    (loadedDictionary pb_tree).MinSup = pb_tree.MinSup ∧
    ∀ it ∈ pb_tree.PropMap, ∃ p,
      propMap.find (loadedDictionary pb_tree).PropMap it.Str = some p ∧
      (propMap.item (loadedDictionary pb_tree).PropMap p).toItem = it := by
  refine ⟨rfl, ?_⟩
  intro it hit
  have hmap : (loadedDictionary pb_tree).PropMap
      = (pb_tree.PropMap.map (fun (pb_item : PropMapItem) =>
            (⟨pb_item.Str, pb_item.TotalCount, pb_item.SortOrder, none⟩ : IItem))).reverse
          ++ (New false 1).PropMap :=
    SchemaTree.foldl_store_PropMap _ pb_tree.PropMap (New false 1)
  rw [hmap]
  generalize hl : (pb_tree.PropMap.map (fun (pb_item : PropMapItem) =>
            (⟨pb_item.Str, pb_item.TotalCount, pb_item.SortOrder, none⟩ : IItem))).reverse = l
  have hlnd : (l.map (·.Str)).Nodup := by
    rw [← hl, List.map_reverse, List.map_map, List.nodup_reverse]
    exact hnd
  have hmem : (⟨it.Str, it.TotalCount, it.SortOrder, none⟩ : IItem) ∈ l := by
    rw [← hl, List.mem_reverse]
    exact List.mem_map_of_mem _ hit
  obtain ⟨i, hi, hget⟩ := List.getElem_of_mem hmem
  have hitem : propMap.item l i = ⟨it.Str, it.TotalCount, it.SortOrder, none⟩ := by
    rw [← propMap.getElem_eq_item l hi, hget]
  have hfind := propMap.find_item_of_nodup hlnd hi
  rw [hitem] at hfind
  refine ⟨i, propMap.find_append_of_some _ hfind, ?_⟩
  rw [propMap.item_append_left l _ hi, hitem]
  rfl

/-- C12, the code at the tree built from the corpus of two subjects, whose sort orders are
a permutation of `0..2`. `SaveProtocolBuffer` builds a message with the items `A`, `B`
and `root`. On this message `loadProtocolBuffer` decodes the dictionary and `MinSup` as
saved, every saved IRI with its total count and sort order, and then returns no tree: the
node decoder is handed the empty list and cannot resolve the property of the root. -/
theorem loadProtocolBuffer_returns_no_tree :
    ((Create smallCorpus 0 false 1).PropMap.map (·.SortOrder)).Perm (List.range 3) ∧
    (Create smallCorpus 0 false 1).SaveProtocolBuffer.map (fun pb_tree => pb_tree.PropMap)
      = some [⟨"A", 2, 0⟩, ⟨"B", 1, 1⟩, ⟨"root", 0, 2⟩] ∧
    (Create smallCorpus 0 false 1).SaveProtocolBuffer.map
        (fun pb_tree => ((loadedDictionary pb_tree).MinSup,
          ["A", "B", "root"].map (fun iri =>
            (propMap.find (loadedDictionary pb_tree).PropMap iri).map
              (fun p => (propMap.item (loadedDictionary pb_tree).PropMap p).toItem))))
      = some ((Create smallCorpus 0 false 1).MinSup,
          [some ⟨"A", 2, 0⟩, some ⟨"B", 1, 1⟩, some ⟨"root", 0, 2⟩]) ∧
    (Create smallCorpus 0 false 1).SaveProtocolBuffer.map
        (fun pb_tree => (loadProtocolBuffer pb_tree).isSome) = some false := by
  refine ⟨by decide, by decide, by decide, ?_⟩
  simp only [loadProtocolBuffer_eq_none, Option.isSome_none]
  decide

/-- C13, the code at the message saved from the tree built from the corpus of two
subjects. The message has three items, and the list that `loadProtocolBuffer` hands to the
node decoder is empty (for every message): the index of the root cannot be resolved, and
no tree is returned. Handed the list of the claim, the record decoded from item `i` at
index `i`, the node decoder returns a tree with the supports of the saved tree: `2` for
`A`, `1` for `B`, `1` for `A` and `B` together and `2` for the empty list. -/
theorem loadProtocolBuffer_props_not_filled :
    (Create smallCorpus 0 false 1).SaveProtocolBuffer.map (fun pb_tree => pb_tree.PropMap.length)
      = some 3 ∧
    (∀ pb_tree, loadProtocolBuffer pb_tree
      = ((loadedDictionary pb_tree).FromProtoSchemaNode pb_tree.Root []).bind
          (decodeOptions pb_tree.Options)) ∧
    (Create smallCorpus 0 false 1).SaveProtocolBuffer.map
        (fun pb_tree => (loadProtocolBuffer pb_tree).isSome) = some false ∧
    ((Create smallCorpus 0 false 1).SaveProtocolBuffer.bind (fun pb_tree =>
        (loadedDictionary pb_tree).FromProtoSchemaNode pb_tree.Root [2, 1, 0])).map
        (fun tree => (tree.Support [2], tree.Support [1], tree.Support [2, 1], tree.Support []))
      = some (some 2, some 1, some 1, some 2) ∧
    ((Create smallCorpus 0 false 1).Support [1], (Create smallCorpus 0 false 1).Support [2],
      (Create smallCorpus 0 false 1).Support [1, 2], (Create smallCorpus 0 false 1).Support [])
      = (some 2, some 1, some 1, some 2) := by
  refine ⟨by decide, fun _ => rfl, ?_, by decide, by decide⟩
  simp only [loadProtocolBuffer_eq_none, Option.isSome_none]
  decide

theorem DecodeFrame.refl (tree : SchemaTree) : DecodeFrame tree tree :=
  ⟨Nat.le_refl _, rfl, fun _ _ => rfl⟩

theorem DecodeFrame.trans {t1 t2 t3 : SchemaTree} (h12 : DecodeFrame t1 t2)
    (h23 : DecodeFrame t2 t3) : DecodeFrame t1 t3 :=
  ⟨Nat.le_trans h12.1 h23.1, h23.2.1.trans h12.2.1,
    fun a ha => (h23.2.2 a (Nat.lt_of_lt_of_le ha h12.1)).trans (h12.2.2 a ha)⟩

theorem map_record_modify (m : propMap) (v : Option Nat) (p : Nat) :
    (m.modify (fun it => { it with traversalPointer := v }) p).map IItem.record
      = m.map IItem.record := by
  apply List.ext_getElem?
  intro i
  rw [List.getElem?_map, List.getElem?_map, List.getElem?_modify]
  by_cases h : p = i
  · subst h
    cases m[p]? <;> simp [IItem.record]
  · cases m[i]? <;> simp [h, IItem.record]

mutual
theorem SchemaTree.decodeNode_frame (props : List Nat) :
    ∀ (nd : pbSchemaNode) (parent : Option Nat) (tree : SchemaTree) (r : SchemaTree × Nat),
    SchemaTree.decodeNode props nd parent tree = some r →
    DecodeFrame tree r.1 ∧ tree.size < r.1.size ∧ r.2 = tree.size ∧
    ∃ p, props[nd.index]? = some p ∧ (r.1.heap tree.size).ID = p
  | pbSchemaNode.mk index support children, parent, tree, r, h => by
    simp only [SchemaTree.decodeNode] at h
    cases hp : props[index]? with
    | none => simp [hp] at h
    | some p =>
      simp only [hp] at h
      cases hc : SchemaTree.decodeChildren props children tree.size
        { tree with
          PropMap := tree.PropMap.modify (fun it => { it with traversalPointer := some tree.size }) p
          heap := Function.update tree.heap tree.size
            { ID := p, parent := parent, Children := [],
              nextSameID := (propMap.item tree.PropMap p).traversalPointer, Support := support }
          size := tree.size + 1 } with
      | none => simp [hc] at h
      | some t =>
        simp only [hc, Option.map_some', Option.some.injEq] at h
        subst h
        obtain ⟨hsz, hrec, hid⟩ := SchemaTree.decodeChildren_frame props children tree.size _ t hc
          (Nat.lt_succ_self _)
        simp only at hsz hrec hid
        refine ⟨⟨?_, ?_, ?_⟩, ?_, rfl, p, hp, ?_⟩
        · show tree.size ≤ t.size
          omega
        · show t.PropMap.map IItem.record = tree.PropMap.map IItem.record
          rw [hrec, map_record_modify]
        · intro a ha
          show (t.heap a).ID = (tree.heap a).ID
          rw [hid a (by omega), Function.update_noteq (Nat.ne_of_lt ha)]
        · show tree.size < t.size
          omega
        · show (t.heap tree.size).ID = p
          rw [hid tree.size (by omega), Function.update_same]
theorem SchemaTree.decodeChildren_frame (props : List Nat) :
    ∀ (children : List pbSchemaNode) (node : Nat) (tree t : SchemaTree),
    SchemaTree.decodeChildren props children node tree = some t → node < tree.size →
    DecodeFrame tree t
  | [], _, tree, t, h, _ => by
    simp only [SchemaTree.decodeChildren, Option.some.injEq] at h
    subst h
    exact DecodeFrame.refl _
  | child :: rest, node, tree, t, h, hnode => by
    simp only [SchemaTree.decodeChildren] at h
    cases hc : SchemaTree.decodeNode props child (some node) tree with
    | none => simp [hc] at h
    | some r =>
      obtain ⟨t1, c⟩ := r
      simp only [hc] at h
      obtain ⟨hf, hlt, _, _⟩ := SchemaTree.decodeNode_frame props child (some node) tree (t1, c) hc
      simp only at hf hlt
      have hrest := SchemaTree.decodeChildren_frame props rest node _ t h (by simp only; omega)
      have hmid : DecodeFrame t1
          { t1 with
            heap := Function.update t1.heap node
              { t1.heap node with Children := (t1.heap node).Children ++ [((t1.heap c).ID, c)] } } := by
        refine ⟨Nat.le_refl _, rfl, ?_⟩
        intro a _
        simp only
        by_cases ha : a = node
        · subst ha
          rw [Function.update_same]
        · rw [Function.update_noteq ha]
      exact DecodeFrame.trans (DecodeFrame.trans hf hmid) hrest
end

theorem SchemaTree.foldl_store_heap {α : Type} (rec : α → IItem) (items : List α) :
    ∀ (tree : SchemaTree) (a : Nat),
      ((items.foldl (fun tree it => tree.store (rec it)) tree).heap a).ID
        = (tree.heap a).ID + items.length := by
  induction items with
  | nil => intro tree a; rfl
  | cons it items ih =>
    intro tree a
    rw [List.foldl_cons, ih, List.length_cons]
    simp only [SchemaTree.store]
    omega

theorem storeDecoded_PropMap (items : List PropMapItem) :
    (storeDecoded items).PropMap
      = (items.enum.map (fun (si : Nat × PropMapItem) =>
          (⟨si.2.Str, si.2.TotalCount, uint32 si.1, none⟩ : IItem))).reverse
        ++ [⟨"root", 0, 0, none⟩] := by
  unfold storeDecoded
  rw [SchemaTree.foldl_store_PropMap
    (fun (si : Nat × PropMapItem) => (⟨si.2.Str, si.2.TotalCount, uint32 si.1, none⟩ : IItem)),
    New_PropMap]
  rfl

theorem storeDecoded_root (items : List PropMapItem) :
    ((storeDecoded items).heap 0).ID = items.length := by
  unfold storeDecoded
  rw [SchemaTree.foldl_store_heap
    (fun (si : Nat × PropMapItem) => (⟨si.2.Str, si.2.TotalCount, uint32 si.1, none⟩ : IItem)),
    List.enum_length]
  simp [New, newRootNode, propMap.get, propMap.find]

/-- The record that the pointer `props[k]` of `LoadGob` points to. -/
theorem storeDecoded_item (items : List PropMapItem) (k : Nat) (it : PropMapItem)
    (hk : items[k]? = some it) :
    (List.range items.length).reverse[k]? = some (items.length - 1 - k) ∧
    items.length - 1 - k < items.length ∧
    propMap.item (storeDecoded items).PropMap (items.length - 1 - k)
      = ⟨it.Str, it.TotalCount, uint32 k, none⟩ := by
  have hlt : k < items.length := by
    by_contra hc
    rw [List.getElem?_eq_none (by omega)] at hk
    cases hk
  refine ⟨?_, by omega, ?_⟩
  · rw [List.getElem?_reverse (by simpa using hlt), List.length_range,
      List.getElem?_range (by omega)]
  · rw [storeDecoded_PropMap, propMap.item_append_left _ _ (by simp; omega)]
    unfold propMap.item
    rw [List.getD_eq_getElem?_getD, List.getElem?_reverse (by simp; omega)]
    simp only [List.length_map, List.enum_length]
    have : items.length - 1 - (items.length - 1 - k) = k := by omega
    rw [this, List.getElem?_map, List.getElem?_enum, hk]
    rfl

theorem SchemaTree.decodeGob_spec (tree : SchemaTree) (root : Except String pbSchemaNode)
    (props : List Nat) (t1 : SchemaTree) (err : Option String)
    (h : tree.decodeGob root props = some (t1, err)) :
    t1.PropMap.map IItem.record = tree.PropMap.map IItem.record ∧
    ((∃ e, root = Except.error e ∧ t1 = tree) ∨
     (∃ nd p, root = Except.ok nd ∧ props[nd.index]? = some p ∧ (t1.heap 0).ID = p)) := by
  cases root with
  | error e =>
    simp only [SchemaTree.decodeGob, Option.some.injEq, Prod.mk.injEq] at h
    rw [← h.1]
    exact ⟨rfl, Or.inl ⟨e, rfl, rfl⟩⟩
  | ok nd =>
    simp only [SchemaTree.decodeGob, SchemaTree.FromProtoSchemaNode, Option.map_map] at h
    cases hd : SchemaTree.decodeNode props nd none { tree with size := 0 } with
    | none => simp [hd] at h
    | some r =>
      simp only [hd, Option.map_some', Function.comp, Option.some.injEq, Prod.mk.injEq] at h
      obtain ⟨hf, _, _, p, hp, hid⟩ := SchemaTree.decodeNode_frame props nd none _ r hd
      rw [h.1] at hf hid
      exact ⟨hf.2.1, Or.inr ⟨nd, p, rfl, hp, hid⟩⟩

theorem SchemaTree.repairRoot_spec (tree : SchemaTree)
    (hroot : "root" ∈ tree.PropMap.map (·.Str)) :
    tree.repairRoot.PropMap = tree.PropMap ∧
    (propMap.item tree.PropMap (tree.repairRoot.heap 0).ID).Str = "root" ∧
    ((propMap.item tree.PropMap (tree.heap 0).ID).Str ≠ "root" →
      propMap.find tree.PropMap "root" = some (tree.repairRoot.heap 0).ID) ∧
    ((propMap.item tree.PropMap (tree.heap 0).ID).Str = "root" →
      (tree.repairRoot.heap 0).ID = (tree.heap 0).ID) := by
  cases hf : propMap.find tree.PropMap "root" with
  | none => exact absurd hroot (propMap.find_eq_none.1 hf)
  | some q =>
    have hget := propMap.get_of_find_some hf
    have hq := propMap.find_lt hf
    unfold SchemaTree.repairRoot
    by_cases hs : (propMap.item tree.PropMap (tree.heap 0).ID).Str = "root"
    · rw [if_neg (fun h => h hs)]
      exact ⟨rfl, hs, fun h => absurd hs h, fun _ => rfl⟩
    · rw [if_pos hs, hget]
      refine ⟨rfl, ?_, fun _ => ?_, fun h => absurd h hs⟩
      · simp only [Function.update_same]
        exact hq.2
      · simp only [Function.update_same]

/-- The steps of a run of `LoadGob` that returns a tree. -/
theorem LoadGob_ok (r : GobReads) (tree : SchemaTree) (h : LoadGob r = some (Except.ok tree)) :
    ∃ items minSup t1 err,
      r.props = Except.ok items ∧ r.MinSup = Except.ok minSup ∧
      ({ storeDecoded items with MinSup := minSup } : SchemaTree).decodeGob r.Root
        (List.range items.length).reverse = some (t1, err) ∧
      tree.PropMap = t1.repairRoot.PropMap ∧ tree.heap = t1.repairRoot.heap := by
  unfold LoadGob at h
  cases ho : r.openErr with
  | some e => simp [ho] at h
  | none =>
    cases hg : r.gzipErr with
    | some e => simp [ho, hg] at h
    | none =>
      cases hp : r.props with
      | error e => simp [ho, hg, hp] at h
      | ok items =>
        cases hm : r.MinSup with
        | error e => simp [ho, hg, hp, hm] at h
        | ok minSup =>
          simp only [ho, hg, hp, hm] at h
          cases hd : ({ storeDecoded items with MinSup := minSup } : SchemaTree).decodeGob r.Root
              (List.range items.length).reverse with
          | none => simp [hd] at h
          | some res =>
            obtain ⟨t1, err⟩ := res
            simp only [hd] at h
            refine ⟨items, minSup, t1, err, rfl, rfl, hd, ?_⟩
            cases hmk : r.marker with
            | error e => simp [hmk, assignErr] at h
            | ok i =>
              simp only [hmk, assignErr, Option.some.injEq, Except.ok.injEq] at h
              rw [← h]
              split <;> exact ⟨rfl, rfl⟩

theorem storeDecoded_keys (items : List PropMapItem) :
    ((items.enum.map (fun (si : Nat × PropMapItem) =>
      (⟨si.2.Str, si.2.TotalCount, uint32 si.1, none⟩ : IItem))).reverse).map (·.Str)
      = (items.map (·.Str)).reverse := by
  rw [List.map_reverse, List.map_map]
  congr 1
  apply List.ext_getElem?
  intro i
  simp only [List.getElem?_map, List.getElem?_enum, Function.comp]
  cases items[i]? <;> rfl

/-- C15, as amended. Whenever `LoadGob` returns a tree, the property of the root is an
allocated record with the IRI `"root"`. If the stored root property had any other IRI,
the root has got the record that the map of the tree holds under `"root"`. The property
of the root is also the record of the map under `"root"` when the root was decoded and
the IRIs of the stored property list are pairwise distinct. -/
theorem LoadGob_root_repaired (r : GobReads) (tree : SchemaTree)
    (h : LoadGob r = some (Except.ok tree)) :
    (propMap.item tree.PropMap (tree.heap 0).ID).Str = "root" ∧
    (tree.heap 0).ID < tree.PropMap.length ∧
    (∀ items nd it, r.props = Except.ok items → r.Root = Except.ok nd →
      items[nd.index]? = some it → it.Str ≠ "root" →
      propMap.find tree.PropMap "root" = some (tree.heap 0).ID) ∧
    (∀ items nd, r.props = Except.ok items → r.Root = Except.ok nd →
      (items.map (·.Str)).Nodup →
      propMap.find tree.PropMap "root" = some (tree.heap 0).ID) := by
  obtain ⟨items, minSup, t1, err, hprops, _, hdec, hPM, hheap⟩ := LoadGob_ok r tree h
  obtain ⟨hrec, hcase⟩ := SchemaTree.decodeGob_spec _ _ _ _ _ hdec
  have hrec' : t1.PropMap.map IItem.record = (storeDecoded items).PropMap.map IItem.record := hrec
  have hkeys := map_Str_of_record hrec'
  have hroot : "root" ∈ t1.PropMap.map (·.Str) := by
    rw [hkeys, storeDecoded_PropMap]
    simp
  obtain ⟨hPM2, hstr, hrep, hkeep⟩ := SchemaTree.repairRoot_spec t1 hroot
  rw [hPM2] at hPM
  have hstrOf : ∀ p, (propMap.item t1.PropMap p).Str
      = (propMap.item (storeDecoded items).PropMap p).Str := fun p =>
    congrArg Prod.fst (propMap.item_record_of_record hrec' p)
  have hpoint : ∀ nd, r.Root = Except.ok nd → ∃ it, items[nd.index]? = some it ∧
      (t1.heap 0).ID = items.length - 1 - nd.index := by
    intro nd hnd
    rcases hcase with ⟨e, he, _⟩ | ⟨nd0, p, hnd0, hp, hid⟩
    · rw [he] at hnd
      cases hnd
    · have hEq : nd0 = nd := by
        rw [hnd0] at hnd
        exact Except.ok.inj hnd
      subst hEq
      have hlt : nd0.index < items.length := by
        by_contra hc
        rw [List.getElem?_eq_none (by simp; omega)] at hp
        cases hp
      have hp2 := (storeDecoded_item items nd0.index _ (List.getElem?_eq_getElem hlt)).1
      rw [hp] at hp2
      cases hp2
      exact ⟨_, List.getElem?_eq_getElem hlt, hid⟩
  rw [hPM, hheap]
  refine ⟨hstr, ?_, ?_, ?_⟩
  · by_contra hc
    have : propMap.item t1.PropMap (t1.repairRoot.heap 0).ID = default := by
      unfold propMap.item
      rw [List.getD_eq_getElem?_getD, List.getElem?_eq_none (by omega)]
      rfl
    rw [this] at hstr
    exact absurd hstr (by decide)
  · intro items' nd it hitems hnd hit hne
    rw [hprops] at hitems
    cases hitems
    obtain ⟨it', hit', hid⟩ := hpoint nd hnd
    rw [hit] at hit'
    cases hit'
    apply hrep
    rw [hid, hstrOf, (storeDecoded_item items nd.index it hit).2.2]
    exact hne
  · intro items' nd hitems hnd hnodup
    rw [hprops] at hitems
    cases hitems
    by_cases hs : (propMap.item t1.PropMap (t1.heap 0).ID).Str = "root"
    · obtain ⟨it, hit, hid⟩ := hpoint nd hnd
      obtain ⟨_, hlt, hitem⟩ := storeDecoded_item items nd.index it hit
      rw [hkeep hs, propMap.find_congr hkeys, hid]
      rw [hid, hstrOf] at hs
      rw [storeDecoded_PropMap] at hs hitem ⊢
      have hlen : items.length - 1 - nd.index < ((items.enum.map (fun (si : Nat × PropMapItem) =>
          (⟨si.2.Str, si.2.TotalCount, uint32 si.1, none⟩ : IItem))).reverse).length := by
        simpa using hlt
      rw [propMap.item_append_left _ _ hlen] at hs
      have hfind := propMap.find_item_of_nodup
        (by rw [storeDecoded_keys]; exact List.nodup_reverse.2 hnodup) hlen
      rw [hs] at hfind
      exact propMap.find_append_of_some _ hfind
    · exact hrep hs

/-- C15, the claim as stated fails: on a file whose property list holds two records with
the IRI `"root"` and whose root node refers to the first, `LoadGob` returns a tree; the
property of its root is that first record, with total count `0`, which has the IRI
`"root"` and is not replaced, while the map of the tree holds under `"root"` the second
record, with total count `5`, stored after it. -/
theorem LoadGob_root_shadowed :
    (LoadGob
      { openErr := none, gzipErr := none, props := Except.ok [⟨"root", 0, 0⟩, ⟨"root", 5, 1⟩],
        MinSup := Except.ok 1, Root := Except.ok (pbSchemaNode.mk 0 0 []),
        marker := Except.ok 2 }).map
      (fun res => res.toOption.map (fun tree =>
        ((propMap.item tree.PropMap (tree.heap 0).ID).toItem, (tree.heap 0).ID,
          propMap.find tree.PropMap "root",
          (propMap.find tree.PropMap "root").map
            (fun p => (propMap.item tree.PropMap p).toItem))))
      = some (some (⟨"root", 0, 0⟩, 1, some 0, some ⟨"root", 5, 1⟩)) := by
  decide

/-- C15 as amended, at a legacy file with the root bug: the property of the root was
stored under the empty IRI, and the root of the tree returned has the record of the map
for `"root"`, at the pointer `2`. -/
theorem LoadGob_root_repaired_witness :
    LoadGob legacyReads = some (Except.ok legacyTree) ∧
    ((legacyTree.heap 0).ID, propMap.find legacyTree.PropMap "root") = (2, some 2) ∧
    ((propMap.item legacyTree.PropMap (legacyTree.heap 0).ID).Str = "root" ∧
    (legacyTree.heap 0).ID < legacyTree.PropMap.length ∧
    (∀ items nd it, legacyReads.props = Except.ok items → legacyReads.Root = Except.ok nd →
      items[nd.index]? = some it → it.Str ≠ "root" →
      propMap.find legacyTree.PropMap "root" = some (legacyTree.heap 0).ID) ∧
    (∀ items nd, legacyReads.props = Except.ok items → legacyReads.Root = Except.ok nd →
      (items.map (·.Str)).Nodup →
      propMap.find legacyTree.PropMap "root" = some (legacyTree.heap 0).ID)) :=
  ⟨rfl, by decide, LoadGob_root_repaired legacyReads legacyTree rfl⟩

/-- C16, the code on a stream where the decoding of the root node fails and the typed
marker after it is decoded: `LoadGob` returns a tree and no error; the tree has the root
alone, as `New` made it, without support or children. When the decoding of the typed
marker fails as well, `LoadGob` returns the error and no tree. -/
theorem LoadGob_returns_tree_after_root_error :
    (LoadGob
      { openErr := none, gzipErr := none, props := Except.ok sampleItems,
        MinSup := Except.ok 1, Root := Except.error "gob: decoding the root node failed",
        marker := Except.ok 1 }).map
      (fun res => res.toOption.map (fun tree =>
        (tree.size, (tree.heap 0).Support, (tree.heap 0).Children)))
      = some (some (1, 0, [])) ∧
    (LoadGob
      { openErr := none, gzipErr := none, props := Except.ok sampleItems,
        MinSup := Except.ok 1, Root := Except.error "gob: decoding the root node failed",
        marker := Except.error "EOF" }).map
      (fun res => res.toOption.isSome) = some false ∧
    (LoadGob
      { openErr := none, gzipErr := none, props := Except.ok sampleItems,
        MinSup := Except.ok 1, Root := Except.ok sampleRoot, marker := Except.ok 1 }).map
      (fun res => res.toOption.map (fun tree =>
        (tree.size, (tree.heap 0).Support, (tree.heap 0).Children)))
      = some (some (3, 2, [(2, 1)])) := by
  refine ⟨by decide, by decide, by decide⟩

/-- C17, the code on the tree built from the corpus of two subjects: when the encoding of
the root node fails and the two encodings after it succeed, `SaveGob` returns `nil`, and
so it does when the encoding of the typed marker fails and the encoding of the typed flag
succeeds. An error of the last step, the typed flag, or of the property list is
returned. -/
theorem SaveGob_returns_nil_after_failed_steps :
    (Create smallCorpus 0 false 1).SaveGob
      ⟨none, none, none, some "write error", none, none⟩ = some none ∧
    (Create smallCorpus 0 false 1).SaveGob
      ⟨none, none, none, none, some "write error", none⟩ = some none ∧
    (Create smallCorpus 0 false 1).SaveGob
      ⟨none, none, none, none, none, some "write error"⟩ = some (some "write error") ∧
    (Create smallCorpus 0 false 1).SaveGob
      ⟨none, some "write error", none, none, none, none⟩ = some (some "write error") := by
  refine ⟨by decide, by decide, by decide, by decide⟩

/-- C30, the code on the empty list. The loop of `sortAndDeduplicate` does not run and
leaves `j = 0`, and the final reslicing `(*l)[:j+1]` asks for one element of a slice of
length and capacity `0`: the bounds are out of range and the call does not return a list,
whatever the dictionary. -/
theorem sortAndDeduplicate_empty_out_of_range (m : propMap) :
    iList.sortAndDeduplicate m [] = none := by
  simp [iList.sortAndDeduplicate, iList.sort, sortSlice]

theorem matchLoop_found (leftoutProps : IList) (recs : List Nat) :
    ∀ (i : Nat) (st : matchState), st.matchFound = true →
      (matchLoop leftoutProps recs i st).rank = st.rank := by
  induction recs with
  | nil => intro i st _; rfl
  | cons p recs ih =>
    intro i st hf
    simp only [matchLoop]
    rw [ih]
    · simp only [matchStep]
      split
      · simp [hf]
      · rfl
    · simp only [matchStep]
      split
      · rfl
      · exact hf

theorem matchLoop_no_match (leftoutProps : IList) (recs : List Nat)
    (hno : ∀ p ∈ recs, p ∉ leftoutProps) :
    ∀ (i : Nat) (st : matchState), matchLoop leftoutProps recs i st = st := by
  induction recs with
  | nil => intro i st; rfl
  | cons p recs ih =>
    intro i st
    have hp : leftoutProps.contains p = false := by
      simpa using hno p (List.mem_cons_self _ _)
    simp only [matchLoop, matchStep, hp]
    exact ih (fun q hq => hno q (List.mem_cons_of_mem _ hq)) _ _

theorem matchLoop_first_match (leftoutProps : IList) (recs : List Nat) :
    ∀ (k i : Nat) (st : matchState), st.matchFound = false →
      (∃ p, recs[k]? = some p ∧ p ∈ leftoutProps) →
      (∀ j, j < k → ∀ q, recs[j]? = some q → q ∉ leftoutProps) →
      (matchLoop leftoutProps recs i st).rank = uint32 (uint32 (i + k) + 1) := by
  induction recs with
  | nil =>
    intro k i st _ h _
    obtain ⟨p, hp, _⟩ := h
    simp at hp
  | cons r recs ih =>
    intro k i st hf hk hbefore
    cases k with
    | zero =>
      obtain ⟨p, hp, hmem⟩ := hk
      simp only [List.getElem?_cons_zero, Option.some.injEq] at hp
      subst hp
      have hc : leftoutProps.contains r = true := by simpa using hmem
      simp only [matchLoop, matchStep, hc, ↓reduceIte]
      rw [matchLoop_found _ _ _ _ rfl]
      simp [hf]
    | succ k =>
      have hr : leftoutProps.contains r = false := by
        simpa using hbefore 0 (Nat.succ_pos _) r (by simp)
      simp only [matchLoop, matchStep, hr, Bool.false_eq_true, ↓reduceIte]
      have := ih k (i + 1) st hf (by simpa using hk)
        (fun j hj q hq => hbefore (j + 1) (by omega) q (by simpa using hq))
      rw [this, Nat.add_right_comm i 1 k, Nat.add_assoc i k 1]

theorem matchLoop_rank_bound (leftoutProps : IList) (recs : List Nat) :
    ∀ (i : Nat) (st : matchState), i + recs.length ≤ 500 → (1 ≤ st.rank ∧ st.rank ≤ 500) →
      1 ≤ (matchLoop leftoutProps recs i st).rank ∧
        (matchLoop leftoutProps recs i st).rank ≤ 500 := by
  induction recs with
  | nil => intro i st _ h; exact h
  | cons p recs ih =>
    intro i st hi h
    simp only [matchLoop]
    apply ih
    · simp only [List.length_cons] at hi; omega
    · simp only [matchStep]
      simp only [List.length_cons] at hi
      by_cases hc : leftoutProps.contains p = true
      · by_cases hf : st.matchFound = true
        · simp only [hc, hf, ↓reduceIte]; exact h
        · simp only [hc, hf, ↓reduceIte, uint32, Bool.false_eq_true]; omega
      · simp only [hc, ↓reduceIte, Bool.false_eq_true]; exact h

/-- C27. For a non-empty reduced set `evaluatePair` returns a result, and over the
recommendations cut to the first `500`: when recommendation `i` is a left-out property
and none before it is, the rank is `i + 1`; when no recommendation is a left-out
property, the rank is `500`; in every case the rank lies between `1` and `500`. -/
theorem evaluatePair_rank_first_correct {F : Type} (tree : SchemaTree)
    (Recommend : Instance F → PropertyRecommendations F) (duration : Int)
    (reducedProps leftoutProps : IList) (hne : reducedProps ≠ []) :
    ∃ r, evaluatePair tree Recommend duration reducedProps leftoutProps = some r ∧
      (∀ i rec, (((Recommend (NewInstance reducedProps tree true)).getD []).take 500)[i]?
            = some rec →
          rec.Property ∈ leftoutProps →
          (∀ j, j < i → ∀ rec',
            (((Recommend (NewInstance reducedProps tree true)).getD []).take 500)[j]? = some rec' →
            rec'.Property ∉ leftoutProps) →
          r.rank = i + 1) ∧
      ((∀ rec ∈ ((Recommend (NewInstance reducedProps tree true)).getD []).take 500,
          rec.Property ∉ leftoutProps) → r.rank = 500) ∧
      1 ≤ r.rank ∧ r.rank ≤ 500 := by
  have hlen : ¬ reducedProps.length = 0 := fun h => hne (List.length_eq_zero.1 h)
  have htake : (if ((Recommend (NewInstance reducedProps tree true)).getD []).length > 500
      then ((Recommend (NewInstance reducedProps tree true)).getD []).take 500
      else (Recommend (NewInstance reducedProps tree true)).getD [])
      = ((Recommend (NewInstance reducedProps tree true)).getD []).take 500 := by
    split
    · rfl
    · rw [List.take_of_length_le (by omega)]
  simp only [evaluatePair, hlen, ↓reduceIte, htake]
  generalize hrecs : ((Recommend (NewInstance reducedProps tree true)).getD []).take 500 = recs
  have hl : recs.length ≤ 500 := by rw [← hrecs, List.length_take]; exact Nat.min_le_left _ _
  have hfirst : ∀ i rec, recs[i]? = some rec → rec.Property ∈ leftoutProps →
      (∀ j, j < i → ∀ rec', recs[j]? = some rec' → rec'.Property ∉ leftoutProps) →
      (matchLoop leftoutProps (recs.map (fun rec => rec.Property)) 0
        { numTP := 0, numTPAtL := 0, rank := uint32 500, matchFound := false }).rank = i + 1 := by
    intro i rec hi hmem hbefore
    have hil : i < recs.length := (List.getElem?_eq_some.1 hi).1
    rw [matchLoop_first_match leftoutProps _ i 0 _ rfl ⟨rec.Property, by simp [hi], hmem⟩]
    · simp only [uint32, Nat.zero_add]
      omega
    · intro j hj q hq
      simp only [List.getElem?_map, Option.map_eq_some'] at hq
      obtain ⟨rec', h1, h2⟩ := hq
      rw [← h2]
      exact hbefore j hj rec' h1
  have hnone : (∀ rec ∈ recs, rec.Property ∉ leftoutProps) →
      (matchLoop leftoutProps (recs.map (fun rec => rec.Property)) 0
        { numTP := 0, numTPAtL := 0, rank := uint32 500, matchFound := false }).rank = 500 := by
    intro hno
    rw [matchLoop_no_match]
    · rfl
    · intro p hp
      obtain ⟨rec, hrec, rfl⟩ := List.mem_map.1 hp
      exact hno rec hrec
  refine ⟨_, rfl, hfirst, hnone, ?_⟩
  show 1 ≤ (matchLoop leftoutProps (recs.map (fun rec => rec.Property)) 0
        { numTP := 0, numTPAtL := 0, rank := uint32 500, matchFound := false }).rank ∧
      (matchLoop leftoutProps (recs.map (fun rec => rec.Property)) 0
        { numTP := 0, numTPAtL := 0, rank := uint32 500, matchFound := false }).rank ≤ 500
  exact matchLoop_rank_bound leftoutProps _ 0 _ (by simpa using hl) ⟨by decide, by decide⟩

/-- C27, at the reduced set `[A]`, the left-out properties `B` and `C` and the
recommendations `D`, `B`: the first correct recommendation is the second one and the
rank is `2`. -/
theorem evaluatePair_rank_first_correct_witness :
    [1] ≠ ([] : IList) ∧
    (evaluatePair abcdTree (fun _ => some [⟨4, (1 : ℚ)⟩, ⟨2, 1⟩]) 0 [1] [2, 3]).map
      (fun r => r.rank) = some 2 := by
  obtain ⟨r, hr, hfirst, _, _⟩ := evaluatePair_rank_first_correct abcdTree
    (fun _ => some [⟨4, (1 : ℚ)⟩, ⟨2, 1⟩]) 0 [1] [2, 3] (by decide)
  refine ⟨by decide, ?_⟩
  rw [hr]
  refine congrArg some (hfirst 1 ⟨2, 1⟩ rfl (by decide) ?_)
  intro j hj rec' hrec'
  have hj0 : j = 0 := by omega
  subst hj0
  have e : rec' = ⟨4, 1⟩ := (Option.some.inj hrec').symm
  rw [e]
  decide

theorem matchLoop_numTP (leftoutProps : IList) (recs : List Nat) :
    ∀ (i : Nat) (st : matchState), st.numTP < 2 ^ 32 →
      (matchLoop leftoutProps recs i st).numTP
        = uint32 (st.numTP + recs.countP (fun p => leftoutProps.contains p)) := by
  induction recs with
  | nil =>
    intro i st h
    simp only [matchLoop, List.countP_nil, Nat.add_zero, uint32]
    exact (Nat.mod_eq_of_lt h).symm
  | cons p recs ih =>
    intro i st h
    simp only [matchLoop]
    by_cases hc : leftoutProps.contains p = true
    · rw [ih _ _ (by simp only [matchStep, hc, ↓reduceIte, uint32]; exact Nat.mod_lt _ (by decide))]
      simp only [matchStep, hc, ↓reduceIte, List.countP_cons_of_pos, uint32]
      rw [Nat.mod_add_mod, Nat.add_assoc, Nat.add_comm 1]
    · rw [ih _ _ (by simp only [matchStep, hc, Bool.false_eq_true, ↓reduceIte]; exact h)]
      simp only [matchStep, hc, Bool.false_eq_true, ↓reduceIte]
      rw [List.countP_cons_of_neg _ _ hc]

theorem countP_mem_swap {l1 l2 : List Nat} (h1 : l1.Nodup) (h2 : l2.Nodup) :
    l1.countP (fun p => decide (p ∈ l2)) = l2.countP (fun p => decide (p ∈ l1)) := by
  rw [List.countP_eq_length_filter, List.countP_eq_length_filter]
  apply List.Perm.length_eq
  rw [List.perm_ext_iff_of_nodup (h1.filter _) (h2.filter _)]
  intro a
  simp only [List.mem_filter, decide_eq_true_eq]
  tauto

theorem countP_add_countP_not {α : Type} (l : List α) (p : α → Bool) :
    l.countP p + l.countP (fun a => !p a) = l.length := by
  induction l with
  | nil => rfl
  | cons a l ih =>
    by_cases h : p a = true
    · rw [List.countP_cons_of_pos _ _ h, List.countP_cons_of_neg _ _ (by simp [h])]
      simp only [List.length_cons]; omega
    · rw [List.countP_cons_of_neg _ _ h, List.countP_cons_of_pos _ _ (by simpa using h)]
      simp only [List.length_cons]; omega

theorem countP_range_mem {n : Nat} {l : List Nat} (hl : l.Nodup) (hlt : ∀ p ∈ l, p < n) :
    (List.range n).countP (fun p => decide (p ∈ l)) = l.length := by
  rw [countP_mem_swap (List.nodup_range n) hl, List.countP_eq_length]
  intro p hp
  simpa using hlt p hp

/-- C28, as amended. Over a dictionary of fewer than `2 ^ 32` records, when the
properties of the recommendations (cut to the first `500`) and the left-out properties
are each free of duplicates and records of the dictionary: `numTP` is the number of
left-out properties among the recommendations, `numFN` the number of left-out properties
not among them, `numFP` the number of recommendations that are not left out, `numTN` the
number of records neither recommended nor left out, and the sums are the lengths of the
left-out list, of the recommendations and of the dictionary, so that no subtraction
wrapped. -/
theorem evaluatePair_confusion_matrix {F : Type} (tree : SchemaTree)
    (Recommend : Instance F → PropertyRecommendations F) (duration : Int)
    (reducedProps leftoutProps : IList) (hne : reducedProps ≠ [])
    (hsize : tree.PropMap.length < 2 ^ 32)
    (hrecs : (cappedProps tree Recommend reducedProps).Nodup) (hleft : leftoutProps.Nodup)
    (hrd : ∀ p ∈ cappedProps tree Recommend reducedProps, p < tree.PropMap.length)
    (hld : ∀ p ∈ leftoutProps, p < tree.PropMap.length) :
    ∃ r, evaluatePair tree Recommend duration reducedProps leftoutProps = some r ∧
      r.numTP = leftoutProps.countP
        (fun p => decide (p ∈ cappedProps tree Recommend reducedProps)) ∧
      r.numFN = leftoutProps.countP
        (fun p => decide (p ∉ cappedProps tree Recommend reducedProps)) ∧
      r.numFP = (cappedProps tree Recommend reducedProps).countP
        (fun p => decide (p ∉ leftoutProps)) ∧
      r.numTN = (List.range tree.PropMap.length).countP
        (fun p => decide (p ∉ cappedProps tree Recommend reducedProps ∧ p ∉ leftoutProps)) ∧
      r.numTP + r.numFN = leftoutProps.length ∧
      r.numTP + r.numFP = (cappedProps tree Recommend reducedProps).length ∧
      r.numTP + r.numFP + r.numFN + r.numTN = tree.PropMap.length := by
  have hlen : ¬ reducedProps.length = 0 := fun h => hne (List.length_eq_zero.1 h)
  have htake : (if ((Recommend (NewInstance reducedProps tree true)).getD []).length > 500
      then ((Recommend (NewInstance reducedProps tree true)).getD []).take 500
      else (Recommend (NewInstance reducedProps tree true)).getD [])
      = ((Recommend (NewInstance reducedProps tree true)).getD []).take 500 := by
    split
    · rfl
    · rw [List.take_of_length_le (by omega)]
  simp only [evaluatePair, hlen, ↓reduceIte, htake]
  have hR : (((Recommend (NewInstance reducedProps tree true)).getD []).take 500).map
      (fun rec => rec.Property) = cappedProps tree Recommend reducedProps := rfl
  have hRl : (((Recommend (NewInstance reducedProps tree true)).getD []).take 500).length
      = (cappedProps tree Recommend reducedProps).length := by
    rw [← hR, List.length_map]
  rw [hR, hRl]
  generalize cappedProps tree Recommend reducedProps = R at hrecs hrd ⊢
  clear hR hRl htake
  have hRlen : R.length ≤ tree.PropMap.length := by
    rw [← countP_range_mem hrecs hrd]; exact (List.countP_le_length _).trans (by simp)
  have hLlen : leftoutProps.length ≤ tree.PropMap.length := by
    rw [← countP_range_mem hleft hld]; exact (List.countP_le_length _).trans (by simp)
  have hn : tree.PropMap.length % 2 ^ 32 = tree.PropMap.length := Nat.mod_eq_of_lt hsize
  -- the number of true positives
  have hTP0 : (matchLoop leftoutProps R 0
      { numTP := 0, numTPAtL := 0, rank := uint32 500, matchFound := false }).numTP
      = R.countP (fun p => decide (p ∈ leftoutProps)) := by
    rw [matchLoop_numTP _ _ _ _ (by decide)]
    have hc : R.countP (fun p => leftoutProps.contains p)
        = R.countP (fun p => decide (p ∈ leftoutProps)) :=
      List.countP_congr (fun p _ => by simp)
    have hle : R.countP (fun p => decide (p ∈ leftoutProps)) ≤ R.length :=
      List.countP_le_length _
    simp only [Nat.zero_add, uint32, hc]
    exact Nat.mod_eq_of_lt (by omega)
  rw [hTP0]
  have hsw : R.countP (fun p => decide (p ∈ leftoutProps))
      = leftoutProps.countP (fun p => decide (p ∈ R)) := countP_mem_swap hrecs hleft
  have hL := countP_add_countP_not leftoutProps (fun p => decide (p ∈ R))
  have hR := countP_add_countP_not R (fun p => decide (p ∈ leftoutProps))
  have hLn : leftoutProps.countP (fun p => !decide (p ∈ R))
      = leftoutProps.countP (fun p => decide (p ∉ R)) :=
    List.countP_congr (fun p _ => by simp)
  have hRn : R.countP (fun p => !decide (p ∈ leftoutProps))
      = R.countP (fun p => decide (p ∉ leftoutProps)) :=
    List.countP_congr (fun p _ => by simp)
  rw [hLn] at hL
  rw [hRn] at hR
  -- the records of the dictionary, split three ways
  have hA := countP_range_mem hrecs hrd
  have hB : (List.range tree.PropMap.length).countP
      (fun p => decide (p ∈ leftoutProps.filter (fun p => decide (p ∉ R))))
      = leftoutProps.countP (fun p => decide (p ∉ R)) := by
    rw [countP_range_mem (hleft.filter _) (fun p hp => hld p (List.mem_of_mem_filter hp)),
      List.countP_eq_length_filter]
  have hsplit1 := countP_add_countP_not (List.range tree.PropMap.length)
    (fun p => decide (p ∈ R))
  have hsplit2 : (List.range tree.PropMap.length).countP (fun p => !decide (p ∈ R))
      = (List.range tree.PropMap.length).countP
          (fun p => decide (p ∈ leftoutProps.filter (fun p => decide (p ∉ R))))
        + (List.range tree.PropMap.length).countP
          (fun p => decide (p ∉ R ∧ p ∉ leftoutProps)) := by
    generalize List.range tree.PropMap.length = l
    induction l with
    | nil => rfl
    | cons a l ih =>
      by_cases h1 : a ∈ R <;> by_cases h2 : a ∈ leftoutProps <;>
        simp [List.countP_cons, h1, h2, List.mem_filter] at ih ⊢ <;> omega
  rw [List.length_range] at hsplit1
  generalize (List.range tree.PropMap.length).countP
    (fun p => decide (p ∉ R ∧ p ∉ leftoutProps)) = TN at hsplit2 ⊢
  have hFN : sub32 (uint32 leftoutProps.length) (leftoutProps.countP (fun p => decide (p ∈ R)))
      = leftoutProps.countP (fun p => decide (p ∉ R)) := by
    simp only [sub32, uint32]; omega
  have hFP : sub32 (uint32 R.length) (leftoutProps.countP (fun p => decide (p ∈ R)))
      = R.countP (fun p => decide (p ∉ leftoutProps)) := by
    simp only [sub32, uint32]; omega
  have hTN : sub32 (sub32 (sub32 (uint32 tree.PropMap.length)
        (leftoutProps.countP (fun p => decide (p ∈ R))))
        (leftoutProps.countP (fun p => decide (p ∉ R))))
        (R.countP (fun p => decide (p ∉ leftoutProps))) = TN := by
    simp only [sub32, uint32]; omega
  rw [hsw, hFN, hFP, hTN]
  refine ⟨_, rfl, rfl, rfl, rfl, rfl, ?_, ?_, ?_⟩
  · exact hL
  · show leftoutProps.countP (fun p => decide (p ∈ R))
      + R.countP (fun p => decide (p ∉ leftoutProps)) = R.length
    omega
  · show leftoutProps.countP (fun p => decide (p ∈ R))
      + R.countP (fun p => decide (p ∉ leftoutProps))
      + leftoutProps.countP (fun p => decide (p ∉ R)) + TN = tree.PropMap.length
    omega

/-- C28 as amended, at the dictionary of `abcdTree` (five records), the reduced set `[A]`,
the left-out properties `B`, `C` and the recommendations `B`, `D`: one true positive,
one false negative, one false positive and two true negatives. -/
theorem evaluatePair_confusion_matrix_witness :
    [1] ≠ ([] : IList) ∧ abcdTree.PropMap.length < 2 ^ 32 ∧
    (evaluatePair abcdTree (fun _ => some [⟨2, (1 : ℚ)⟩, ⟨4, 1⟩]) 0 [1] [2, 3]).map
      (fun r => (r.numTP, r.numFN, r.numFP, r.numTN)) = some (1, 1, 1, 2) := by
  obtain ⟨r, hr, h1, h2, h3, h4, _⟩ := evaluatePair_confusion_matrix abcdTree
    (fun _ => some [⟨2, (1 : ℚ)⟩, ⟨4, 1⟩]) 0 [1] [2, 3] (by decide) (by decide) (by decide)
    (by decide) (by decide) (by decide)
  refine ⟨by decide, by decide, ?_⟩
  rw [hr]
  show some (r.numTP, r.numFN, r.numFP, r.numTN) = some (1, 1, 1, 2)
  rw [h1, h2, h3, h4]
  decide

/-- C28, the claim as stated fails: over the dictionary of `2 ^ 32 + 1` records, with no
recommendation and the two left-out properties at the pointers `1` and `2`, the
conversion `uint32(len(tree.PropMap))` gives `1`, the subtraction of `numFN = 2` wraps
below zero, and `numTN` is `2 ^ 32 - 1`, so the four numbers do not add up to the number
of records. -/
theorem evaluatePair_numTN_wraps :
    hugeTree.PropMap.length = 2 ^ 32 + 1 ∧
    (evaluatePair hugeTree (fun _ => (none : PropertyRecommendations ℚ)) 0 [1] [1, 2]).map
      (fun r => (r.numTP, r.numFN, r.numFP, r.numTN)) = some (0, 2, 0, 2 ^ 32 - 1) := by
  refine ⟨hugeTree_length, ?_⟩
  simp only [evaluatePair, List.length_cons, List.length_nil, Option.getD_none,
    Nat.reduceAdd, OfNat.ofNat_ne_zero, ↓reduceIte, gt_iff_lt, Nat.not_lt_zero,
    Option.map_some', List.map_nil, matchLoop, hugeTree_length, Option.some.injEq,
    Prod.mk.injEq]
  decide

theorem concatRuns_mem {α : Type} : ∀ (runs : List (Option (List α))) (out : List α),
    concatRuns runs = some out → ∀ x ∈ out, ∃ r ∈ runs, ∃ l, r = some l ∧ x ∈ l := by
  intro runs
  induction runs with
  | nil =>
    intro out h x hx
    simp only [concatRuns, Option.some.injEq] at h
    subst h
    exact absurd hx (List.not_mem_nil _)
  | cons r rest ih =>
    intro out h x hx
    cases r with
    | none => simp [concatRuns] at h
    | some a =>
      simp only [concatRuns, Option.map_eq_some'] at h
      obtain ⟨b, hb, rfl⟩ := h
      rcases List.mem_append.1 hx with hxa | hxb
      · exact ⟨some a, List.mem_cons_self _ _, a, rfl, hxa⟩
      · obtain ⟨r, hr, l, hl, hxl⟩ := ih b hb x hxb
        exact ⟨r, List.mem_cons_of_mem _ hr, l, hl, hxl⟩

theorem countTo_mem {max : Int} {l : List Int} (h : countTo max = some l) {x : Int}
    (hx : x ∈ l) : 1 ≤ x ∧ x ≤ max := by
  unfold countTo at h
  split at h
  · exact Option.noConfusion h
  · simp only [Option.some.injEq] at h
    subst h
    simp only [List.mem_map, List.mem_range'_1] at hx
    obtain ⟨n, ⟨h1, h2⟩, rfl⟩ := hx
    simp only [Int.ofNat_eq_coe]
    omega

/-- C29, as amended. In every layer that `createConfigFiles` generates: a split-property
layer has an empty step size and `0` parallel executions; a delete-low-frequency layer
has an empty merger and an empty splitter; a layer whose condition is not the
too-unlikely-recommendations condition has the float threshold `0.0`; and every layer,
those of the too-unlikely-recommendations condition included, carries the integer
threshold `thresh` of its iteration, between `1` and `MaxThreshold`, from which the float
threshold of a too-unlikely-recommendations layer is computed. -/
theorem backoffLayers_unused_fields {F : Type} (ops : Float32Ops F) (c : creater F)
    (layers : List (Layer F)) (h : backoffLayers ops c = some layers) (l : Layer F)
    (hl : l ∈ layers) :
    (l.Backoff = "splitProperty" ∨ l.Backoff = "deleteLowFrequency") ∧
    (l.Backoff = "splitProperty" → l.Stepsize = "" ∧ l.ParallelExecutions = 0) ∧
    (l.Backoff = "deleteLowFrequency" → l.Merger = "" ∧ l.Splitter = "") ∧
    (l.Condition ≠ "tooUnlikelyRecommendationsCondition" → l.ThresholdFloat = ops.zero) ∧
    (1 ≤ l.Threshold ∧ l.Threshold ≤ c.MaxThreshold) ∧
    (l.Condition = "tooUnlikelyRecommendationsCondition" →
      l.ThresholdFloat
        = ops.mul (ops.div (ops.ofInt l.Threshold) (ops.ofInt c.MaxThreshold)) c.MaxFloat) := by
  unfold backoffLayers at h
  cases hct : countTo c.MaxThreshold with
  | none => rw [hct] at h; exact Option.noConfusion h
  | some threshs =>
    rw [hct] at h
    simp only [Option.some_bind] at h
    obtain ⟨r, hr, ls, hls, hlls⟩ := concatRuns_mem _ _ h l hl
    simp only [List.mem_flatMap, List.mem_map] at hr
    obtain ⟨thresh, hth, con, _, rfl⟩ := hr
    have hbound := countTo_mem hct hth
    unfold layersFor at hls
    cases hcp : countTo c.MaxParallel with
    | none => rw [hcp] at hls; exact Option.noConfusion hls
    | some parallels =>
      rw [hcp] at hls
      simp only [Option.map_some', Option.some.injEq] at hls
      subst hls
      rcases List.mem_append.1 hlls with hs | hd
      · simp only [List.mem_flatMap, List.mem_map] at hs
        obtain ⟨m, _, s, _, rfl⟩ := hs
        by_cases hc : con = "tooUnlikelyRecommendationsCondition"
        · simp [hc, hbound.1, hbound.2]
        · simp [hc, hbound.1, hbound.2]
      · simp only [List.mem_flatMap, List.mem_map] at hd
        obtain ⟨parallel, _, s, _, rfl⟩ := hd
        by_cases hc : con = "tooUnlikelyRecommendationsCondition"
        · simp [hc, hbound.1, hbound.2]
        · simp [hc, hbound.1, hbound.2]

/-- C29 as amended, at the creater configuration with one condition, merger, splitter
and step function and the bounds `1`, which generates two layers. -/
theorem backoffLayers_unused_fields_witness :
    ∃ layers, backoffLayers ratOps sampleCreater = some layers ∧ layers.length = 2 ∧
      ∀ l ∈ layers,
        (l.Backoff = "splitProperty" ∨ l.Backoff = "deleteLowFrequency") ∧
        (l.Backoff = "splitProperty" → l.Stepsize = "" ∧ l.ParallelExecutions = 0) ∧
        (l.Backoff = "deleteLowFrequency" → l.Merger = "" ∧ l.Splitter = "") ∧
        (l.Condition ≠ "tooUnlikelyRecommendationsCondition" →
          l.ThresholdFloat = ratOps.zero) ∧
        (1 ≤ l.Threshold ∧ l.Threshold ≤ sampleCreater.MaxThreshold) ∧
        (l.Condition = "tooUnlikelyRecommendationsCondition" →
          l.ThresholdFloat
            = ratOps.mul (ratOps.div (ratOps.ofInt l.Threshold)
                (ratOps.ofInt sampleCreater.MaxThreshold)) sampleCreater.MaxFloat) :=
  ⟨_, rfl, rfl, fun l hl => backoffLayers_unused_fields ratOps sampleCreater _ rfl l hl⟩

/-- C29, the claim as stated fails: with the too-unlikely-recommendations condition as
the only condition and thresholds up to `1`, both generated layers have the integer
threshold `1`, not `0`. -/
theorem backoffLayers_unlikely_threshold :
    (backoffLayers ratOps unlikelyCreater).map
        (fun layers => layers.map (fun l => (l.Condition, l.Backoff, l.Threshold)))
      = some [("tooUnlikelyRecommendationsCondition", "splitProperty", 1),
          ("tooUnlikelyRecommendationsCondition", "deleteLowFrequency", 1)] := by
  rfl

/-- C26, as amended. In a tree reached from a fresh tree by `Insert` calls on subjects
whose properties are records of the dictionary, for every record `p`: the walk from
`p.traversalPointer` via `nextSameID` ends, visits no node twice, and visits exactly the
nodes other than the root whose property is `p`. -/
theorem chain_visits_occurrences (t0 : SchemaTree) (hfresh : t0.IsFresh)
    (subjects : List SubjectSummary)
    (hdict : ∀ e ∈ subjects, ∀ p ∈ e.Properties, p < t0.PropMap.length)
    (p : Nat) (hp : p < t0.PropMap.length) :
    ∃ chain, (t0.insertAll subjects).chainFrom (t0.insertAll subjects).size
        (propMap.item (t0.insertAll subjects).PropMap p).traversalPointer = some chain ∧
      chain.Nodup ∧
      ∀ a, a ∈ chain ↔
        (0 < a ∧ a < (t0.insertAll subjects).size ∧ ((t0.insertAll subjects).heap a).ID = p) := by
  obtain ⟨paths, _, hrec, hch⟩ := SchemaTree.insertAll_inv hfresh subjects
  have hc := hch hdict
  have hp' : p < (t0.insertAll subjects).PropMap.length := by
    rw [propMap.length_eq_of_record hrec]; exact hp
  refine ⟨(t0.insertAll subjects).occurrences p (t0.insertAll subjects).size, ?_,
    SchemaTree.occurrences_nodup _, ?_⟩
  · rw [hc.head p hp']
    exact SchemaTree.chainFrom_eq hc p _ (Nat.le_refl _) _ (Nat.le_refl _)
  · intro a
    rw [SchemaTree.mem_occurrences]
    tauto

/-- C26 as amended, at the tree with the subjects `{A, B, C}` and `{A, C}` and the
property `C`, which two nodes carry. -/
theorem chain_visits_occurrences_witness :
    (abcdTree.insertAll [subjectABC, subjectAC]).chainFrom
        (abcdTree.insertAll [subjectABC, subjectAC]).size
        (propMap.item (abcdTree.insertAll [subjectABC, subjectAC]).PropMap 3).traversalPointer
      = some [4, 3] ∧
    ∃ chain, (abcdTree.insertAll [subjectABC, subjectAC]).chainFrom
        (abcdTree.insertAll [subjectABC, subjectAC]).size
        (propMap.item (abcdTree.insertAll [subjectABC, subjectAC]).PropMap 3).traversalPointer
        = some chain ∧
      chain.Nodup ∧
      ∀ a, a ∈ chain ↔
        (0 < a ∧ a < (abcdTree.insertAll [subjectABC, subjectAC]).size ∧
          ((abcdTree.insertAll [subjectABC, subjectAC]).heap a).ID = 3) :=
  ⟨by decide,
   chain_visits_occurrences abcdTree (by decide) [subjectABC, subjectAC] (by decide) 3
     (by decide)⟩

/-- C26, the claim as stated fails at the sentinel: in the tree with the single subject
`{A}`, the root is a node whose property is the record `"root"` (pointer `0`), and the
chain of that record is empty, so the walk does not visit it. -/
theorem chain_skips_root :
    ((abcdTree.insertAll [subjectA]).heap 0).ID = 0 ∧
    (propMap.item (abcdTree.insertAll [subjectA]).PropMap 0).Str = "root" ∧
    (abcdTree.insertAll [subjectA]).chainFrom (abcdTree.insertAll [subjectA]).size
      (propMap.item (abcdTree.insertAll [subjectA]).PropMap 0).traversalPointer = some [] := by
  decide

theorem iList.sort_strict {m : propMap} (hd : (m.map (·.SortOrder)).Nodup) {l : IList}
    (hn : l.Nodup) (hv : ∀ p ∈ l, p < m.length) :
    (iList.sort m l).Pairwise (fun a b => m.sortOrder a < m.sortOrder b) := by
  have hs := iList.sort_sorted m l
  have hnd := iList.sort_nodup m hn
  have hperm := iList.sort_perm m l
  have hboth := hs.and hnd
  refine (List.Pairwise.and_mem.1 hboth).imp ?_
  intro a b h
  obtain ⟨ha, hb, hle, hne⟩ := h
  rcases Nat.lt_or_eq_of_le hle with hlt | heq
  · exact hlt
  · exact absurd (sortOrder_inj_of_nodup hd (hv a (hperm.mem_iff.1 ha))
      (hv b (hperm.mem_iff.1 hb)) heq) hne

/-- C24. In a tree reached from a fresh tree by `Insert` calls alone, over a dictionary
with pairwise distinct sort orders, the walk from any node up to the root ends, and the
properties on the path from the root down to the node, the root excluded, are strictly
increasing in `SortOrder`. -/
theorem Insert_paths_ascending (t0 : SchemaTree) (hfresh : t0.IsFresh)
    (hdistinct : (t0.PropMap.map (·.SortOrder)).Nodup)
    (subjects : List SubjectSummary)
    (hdict : ∀ e ∈ subjects, ∀ p ∈ e.Properties, p < t0.PropMap.length)
    (a : Nat) (ha : a < (t0.insertAll subjects).size) :
    ∃ path, (t0.insertAll subjects).pathToRoot (t0.insertAll subjects).size a = some path ∧
      path.reverse.Pairwise (fun p q =>
        (t0.insertAll subjects).PropMap.sortOrder p
          < (t0.insertAll subjects).PropMap.sortOrder q) := by
  obtain ⟨paths, hinv, hrec, _⟩ := SchemaTree.insertAll_inv hfresh subjects
  have hso : (t0.insertAll subjects).PropMap.sortOrder = t0.PropMap.sortOrder := by
    funext p
    have := propMap.item_record_of_record hrec p
    simp only [IItem.record, Prod.mk.injEq] at this
    exact this.2.2
  refine ⟨_, hinv.pathToRoot a ha _ ha, ?_⟩
  rw [List.reverse_reverse, hso]
  rcases (hinv.nodes (paths a)).1 ⟨a, ha, rfl⟩ with h0 | ⟨s, hs, hpre⟩
  · rw [h0]; exact List.Pairwise.nil
  · rw [List.append_nil, List.mem_reverse, List.mem_map] at hs
    obtain ⟨e, he, rfl⟩ := hs
    exact (iList.sort_strict hdistinct e.nodup (hdict e he)).sublist hpre.sublist

/-- C24, at the tree with the subjects `{A, B, C}` and `{A, C}` and the node at address
`4`, whose path from the root is `A`, `C`. -/
theorem Insert_paths_ascending_witness :
    (abcdTree.insertAll [subjectABC, subjectAC]).pathToRoot
        (abcdTree.insertAll [subjectABC, subjectAC]).size 4 = some [3, 1] ∧
    ∃ path, (abcdTree.insertAll [subjectABC, subjectAC]).pathToRoot
        (abcdTree.insertAll [subjectABC, subjectAC]).size 4 = some path ∧
      path.reverse.Pairwise (fun p q =>
        (abcdTree.insertAll [subjectABC, subjectAC]).PropMap.sortOrder p
          < (abcdTree.insertAll [subjectABC, subjectAC]).PropMap.sortOrder q) :=
  ⟨by decide,
   Insert_paths_ascending abcdTree (by decide) (by decide) [subjectABC, subjectAC]
     (by decide) 4 (by decide)⟩

/-- C21. The two-pass build over the corpus with three subjects `{A}`, two `{A, B}` and
one `{A, B, C}` gives the total counts `A = 6`, `B = 3`, `C = 1` and the sort orders
`A = 0`, `B = 1`, `C = 2` (the sentinel `"root"`, with total count `0`, comes last), and
on the tree `Support({B}) = 3`, `Support({A, B}) = 3`, `Support({A}) = 6` and
`Support({A, C}) = 1`, so that the ratios to `Support({A})` are `1/2` and `1/6`. -/
theorem Create_frequency_scenario :
    (Create freqCorpus 0 false 1).PropMap.map IItem.record
      = [("root", 0, 3), ("A", 6, 0), ("B", 3, 1), ("C", 1, 2)] ∧
    (Create freqCorpus 0 false 1).Support [2] = some 3 ∧
    (Create freqCorpus 0 false 1).Support [1, 2] = some 3 ∧
    (Create freqCorpus 0 false 1).Support [1] = some 6 ∧
    (Create freqCorpus 0 false 1).Support [1, 3] = some 1 ∧
    (((Create freqCorpus 0 false 1).Support [1, 2]).getD 0 : ℚ)
      / (((Create freqCorpus 0 false 1).Support [1]).getD 0 : ℚ) = 1 / 2 ∧
    (((Create freqCorpus 0 false 1).Support [1, 3]).getD 0 : ℚ)
      / (((Create freqCorpus 0 false 1).Support [1]).getD 0 : ℚ) = 1 / 6 := by
  have h1 : (Create freqCorpus 0 false 1).PropMap.map IItem.record
      = [("root", 0, 3), ("A", 6, 0), ("B", 3, 1), ("C", 1, 2)] := by decide!
  have h2 : (Create freqCorpus 0 false 1).Support [2] = some 3 := by decide!
  have h3 : (Create freqCorpus 0 false 1).Support [1, 2] = some 3 := by decide!
  have h4 : (Create freqCorpus 0 false 1).Support [1] = some 6 := by decide!
  have h5 : (Create freqCorpus 0 false 1).Support [1, 3] = some 1 := by decide!
  refine ⟨h1, h2, h3, h4, h5, ?_, ?_⟩
  · rw [h3, h4]; norm_num
  · rw [h5, h4]; norm_num

theorem sum_map_le_mul {α : Type} (l : List α) (f : α → Nat) (b : Nat)
    (h : ∀ x ∈ l, f x ≤ b) : (l.map f).sum ≤ b * l.length := by
  induction l with
  | nil => simp
  | cons x l ih =>
    have h1 := h x (List.mem_cons_self _ _)
    have h2 := ih (fun y hy => h y (List.mem_cons_of_mem _ hy))
    simp only [List.map_cons, List.sum_cons, List.length_cons, Nat.mul_succ]
    omega

/-- C22, as amended. When the sort orders of the dictionary are pairwise distinct and
fewer than `2 ^ 32` subjects have been inserted, for a query `Q` and candidates `cs`, all
dictionary properties: `Support(Q)` returns a value `base`, every candidate `c` has
`Support(Q ∪ {c}) ≤ base`, and the sum of `Support(Q ∪ {c})` over the candidates is at
most `base` times the number of candidates. -/
theorem Support_candidates_bound (t0 : SchemaTree) (hfresh : t0.IsFresh)
    (hdistinct : (t0.PropMap.map (·.SortOrder)).Nodup)
    (subjects : List SubjectSummary) (hn : subjects.length < 2 ^ 32)
    (hdict : ∀ e ∈ subjects, ∀ p ∈ e.Properties, p < t0.PropMap.length)
    (Q : IList) (hQdict : ∀ q ∈ Q, q < t0.PropMap.length)
    (cs : List Nat) (hcs : ∀ c ∈ cs, c < t0.PropMap.length) :
    ∃ base, (t0.insertAll subjects).Support Q = some base ∧
      (∀ c ∈ cs, ∃ co, (t0.insertAll subjects).Support (c :: Q) = some co ∧ co ≤ base) ∧
      (cs.map (fun c => ((t0.insertAll subjects).Support (c :: Q)).getD 0)).sum
        ≤ base * cs.length := by
  have hle : ∀ (Q' : IList), subjects.countP (SubjectSummary.hasAll Q') ≤ subjects.length :=
    fun _ => List.countP_le_length _
  have hco : ∀ c ∈ cs, (t0.insertAll subjects).Support (c :: Q)
      = some (subjects.countP (SubjectSummary.hasAll (c :: Q))) := by
    intro c hc
    rw [SchemaTree.Support_insertAll hfresh hdistinct subjects hdict (c :: Q)
      (List.cons_ne_nil _ _) (fun x hx => by
        rcases List.mem_cons.1 hx with rfl | h
        · exact hcs x hc
        · exact hQdict x h)]
    rw [Nat.mod_eq_of_lt (by have := hle (c :: Q); omega)]
  have hbase : ∃ base, (t0.insertAll subjects).Support Q = some base ∧
      ∀ c, subjects.countP (SubjectSummary.hasAll (c :: Q)) ≤ base := by
    by_cases hQ : Q = []
    · subst hQ
      obtain ⟨h2, h3⟩ := Support_empty_count_aux t0 hfresh subjects
      refine ⟨_, h2, fun c => ?_⟩
      rw [h3, Nat.mod_eq_of_lt hn]
      exact hle _
    · refine ⟨_, SchemaTree.Support_insertAll hfresh hdistinct subjects hdict Q hQ hQdict,
        fun c => ?_⟩
      rw [Nat.mod_eq_of_lt (by have := hle Q; omega)]
      apply List.countP_mono_left
      intro e _ hall
      simp only [SubjectSummary.hasAll, List.all_eq_true, decide_eq_true_iff] at hall ⊢
      exact fun q hq => hall q (List.mem_cons_of_mem _ hq)
  obtain ⟨base, hb, hbound⟩ := hbase
  refine ⟨base, hb, fun c hc => ⟨_, hco c hc, hbound c⟩, ?_⟩
  apply sum_map_le_mul
  intro c hc
  rw [hco c hc]
  exact hbound c

/-- C22 as amended, at the single subject with `A`, `B`, `C`, the query `[A]` and the
candidates `B`, `C`, `D`. -/
theorem Support_candidates_bound_witness :
    ∃ base, (abcdTree.insertAll [subjectABC]).Support [1] = some base ∧
      (∀ c ∈ [2, 3, 4], ∃ co,
        (abcdTree.insertAll [subjectABC]).Support (c :: [1]) = some co ∧ co ≤ base) ∧
      ([2, 3, 4].map
          (fun c => ((abcdTree.insertAll [subjectABC]).Support (c :: [1])).getD 0)).sum
        ≤ base * [2, 3, 4].length :=
  Support_candidates_bound abcdTree (by decide) (by decide) [subjectABC] (by decide)
    (by decide) [1] (by decide) [2, 3, 4] (by decide)

/-- C22, the claim as stated fails: after the single subject with `A`, `B` and `C`, the
query `[A]` has the support `1`, and the two candidates `B` and `C` have
`Support({A, B}) = 1` and `Support({A, C}) = 1`, whose sum `2` exceeds `1`. -/
theorem Support_candidates_sum_exceeds :
    (abcdTree.insertAll [subjectABC]).Support [1] = some 1 ∧
    (abcdTree.insertAll [subjectABC]).Support [2, 1] = some 1 ∧
    (abcdTree.insertAll [subjectABC]).Support [3, 1] = some 1 ∧
    ¬ (([2, 3].map
        (fun c => ((abcdTree.insertAll [subjectABC]).Support (c :: [1])).getD 0)).sum ≤ 1) := by
  decide

theorem childFor_eq_none_iff (l : List (Nat × Nat)) (p : Nat) :
    childFor l p = none ↔ p ∉ l.map Prod.fst := by
  induction l with
  | nil => simp [childFor]
  | cons x l ih =>
    obtain ⟨q, c⟩ := x
    simp only [childFor, List.map_cons, List.mem_cons, not_or]
    by_cases h : q = p
    · simp [h]
    · simp only [h, ↓reduceIte, ih]
      exact ⟨fun hh => ⟨fun e => h e.symm, hh⟩, fun hh => hh.2⟩

theorem childFor_of_mem {l : List (Nat × Nat)} (hnd : (l.map Prod.fst).Nodup) {p c : Nat}
    (h : (p, c) ∈ l) : childFor l p = some c := by
  induction l with
  | nil => simp at h
  | cons x l ih =>
    obtain ⟨q, d⟩ := x
    rw [List.map_cons, List.nodup_cons] at hnd
    rcases List.mem_cons.1 h with e | hl
    · simp only [Prod.mk.injEq] at e
      simp [childFor, e.1, e.2]
    · have hne : q ≠ p := by
        intro e
        apply hnd.1
        rw [e]
        exact List.mem_map.2 ⟨(p, c), hl, rfl⟩
      simp only [childFor, hne, ↓reduceIte]
      exact ih hnd.2 hl

theorem SchemaTree.KeysNodup.keysFresh {t : SchemaTree} (h : t.IsFresh) : t.KeysNodup := by
  intro a ha
  obtain ⟨hs, _, hc, _⟩ := h
  have : a = 0 := by omega
  subst this
  rw [hc]
  exact List.nodup_nil

theorem SchemaTree.KeysNodup.keysStart {t : SchemaTree} (h : t.KeysNodup) :
    (t.incrementSupport 0).KeysNodup := by
  intro a ha
  rw [SchemaTree.incrementSupport_heap]
  exact h a ha

theorem SchemaTree.KeysNodup.keysStep {t : SchemaTree} {cur : Nat} (p : Nat)
    (h : t.KeysNodup) (hc : cur < t.size) : (SchemaTree.insertStep (t, cur) p).1.KeysNodup := by
  cases hch : childFor (t.heap cur).Children p with
  | some c =>
    rw [SchemaTree.insertStep_found hch]
    intro a ha
    rw [SchemaTree.incrementSupport_heap]
    exact h a ha
  | none =>
    obtain ⟨_, hsz, _, hnew, hcur, hoth⟩ := SchemaTree.insertStep_new hch hc
    intro a ha
    rw [hsz] at ha
    by_cases han : a = t.size
    · subst han
      rw [hnew]
      exact List.nodup_nil
    · by_cases hac : a = cur
      · subst hac
        rw [hcur]
        simp only [List.map_append, List.map_cons, List.map_nil]
        rw [List.nodup_append]
        refine ⟨h a hc, List.nodup_singleton _, ?_⟩
        intro x hx hx'
        rw [List.mem_singleton] at hx'
        subst hx'
        exact (childFor_eq_none_iff _ _).1 hch hx
      · rw [hoth a hac han]
        exact h a (by omega)

theorem SchemaTree.KeysNodup.keysWalk (L2 : List Nat) : ∀ {t : SchemaTree}
    {paths : Nat → List Nat} {L1 : List Nat} {S : List (List Nat)} {cur : Nat},
    TrieInv t paths (L1 :: S) → t.KeysNodup → cur < t.size → paths cur = L1 →
    (L2.foldl SchemaTree.insertStep (t, cur)).1.KeysNodup := by
  induction L2 with
  | nil => intro t paths L1 S cur _ hk _ _; exact hk
  | cons p L2 ih =>
    intro t paths L1 S cur h hk hc hp
    obtain ⟨paths', h', hc', hp'⟩ := h.step p hc hp
    rw [List.foldl_cons]
    exact ih (t := (SchemaTree.insertStep (t, cur) p).1) h' (hk.keysStep p hc) hc' hp'

theorem SchemaTree.KeysNodup.keysInsert {t : SchemaTree} {paths : Nat → List Nat}
    {T : List (List Nat)} (h : TrieInv t paths T) (hk : t.KeysNodup) (e : SubjectSummary) :
    (t.Insert e).KeysNodup := by
  unfold SchemaTree.Insert
  exact SchemaTree.KeysNodup.keysWalk _ h.start hk.keysStart h.size_pos h.root_path

theorem SchemaTree.KeysNodup.keysInsertAll (subjects : List SubjectSummary) :
    ∀ {t : SchemaTree} {paths : Nat → List Nat} {T : List (List Nat)},
    TrieInv t paths T → t.KeysNodup → (subjects.foldl SchemaTree.Insert t).KeysNodup := by
  induction subjects with
  | nil => intro t paths T _ hk; exact hk
  | cons e subjects ih =>
    intro t paths T h hk
    obtain ⟨paths', h'⟩ := h.Insert e
    rw [List.foldl_cons]
    exact ih h' (hk.keysInsert h e)

theorem prefix_concat_key {L : List Nat} {p q : Nat} {s : List Nat}
    (h1 : L ++ [p] <+: s) (h2 : L ++ [q] <+: s) : p = q := by
  have h := List.prefix_of_prefix_length_le h1 h2 (by simp)
  have e := List.IsPrefix.eq_of_length h (by simp)
  have := List.append_inj' e rfl
  simpa using this.2

/-- C23, as amended. In a tree reached from a fresh tree by fewer than `2 ^ 32` `Insert`
calls, for every node: the supports of its children add up to at most its own support,
every child is a node of the tree with at most the support of the node, and a node other
than the root has support at least `1`. -/
theorem Insert_support_invariant (t0 : SchemaTree) (hfresh : t0.IsFresh)
    (subjects : List SubjectSummary) (hn : subjects.length < 2 ^ 32)
    (a : Nat) (ha : a < (t0.insertAll subjects).size) :
    (((t0.insertAll subjects).heap a).Children.map
        (fun pc => ((t0.insertAll subjects).heap pc.2).Support)).sum
      ≤ ((t0.insertAll subjects).heap a).Support ∧
    (∀ pc ∈ ((t0.insertAll subjects).heap a).Children,
      pc.2 < (t0.insertAll subjects).size ∧
      ((t0.insertAll subjects).heap pc.2).Support
        ≤ ((t0.insertAll subjects).heap a).Support) ∧
    (0 < a → 1 ≤ ((t0.insertAll subjects).heap a).Support) := by
  obtain ⟨paths, h, _, _⟩ := SchemaTree.insertAll_inv hfresh subjects
  have hk : (t0.insertAll subjects).KeysNodup :=
    SchemaTree.KeysNodup.keysInsertAll subjects (TrieInv.fresh hfresh)
      (SchemaTree.KeysNodup.keysFresh hfresh)
  generalize hT : (subjects.map (fun e => iList.sort t0.PropMap e.Properties)).reverse ++ []
    = T at h
  have hTl : T.length < 2 ^ 32 := by rw [← hT]; simpa using hn
  generalize t0.insertAll subjects = t at h hk ha ⊢
  have hsup : ∀ b, b < t.size →
      (t.heap b).Support = T.countP (fun s => decide (paths b <+: s)) := by
    intro b hb
    rw [h.support b hb]
    exact Nat.mod_eq_of_lt (lt_of_le_of_lt (List.countP_le_length _) hTl)
  have hchild : ∀ pc ∈ (t.heap a).Children,
      pc.2 < t.size ∧ paths pc.2 = paths a ++ [pc.1] := by
    intro pc hpc
    exact (h.children a ha pc.1 pc.2).1 (childFor_of_mem (hk a ha) hpc)
  have hsum : ((t.heap a).Children.map (fun pc => (t.heap pc.2).Support)).sum
      = T.countP (fun s => decide (∃ pc ∈ (t.heap a).Children, paths a ++ [pc.1] <+: s)) := by
    rw [← sum_countP_swap (t.heap a).Children
      (fun pc s => decide (paths a ++ [pc.1] <+: s))
      (fun s => decide (∃ pc ∈ (t.heap a).Children, paths a ++ [pc.1] <+: s)) T]
    · congr 1
      apply List.map_congr_left
      intro pc hpc
      rw [hsup pc.2 (hchild pc hpc).1, (hchild pc hpc).2]
    · intro s _
      by_cases hex : ∃ pc ∈ (t.heap a).Children, paths a ++ [pc.1] <+: s
      · simp only [hex, decide_True, ↓reduceIte]
        obtain ⟨pc, hpc, hpre⟩ := hex
        refine countP_eq_one_of_unique _ _ pc ((hk a ha).of_map _) hpc (by simpa using hpre) ?_
        intro pc' hpc' hpre'
        have hpre'' : paths a ++ [pc'.1] <+: s := by simpa using hpre'
        have hkey : pc'.1 = pc.1 := prefix_concat_key hpre'' hpre
        exact List.inj_on_of_nodup_map (hk a ha) hpc' hpc hkey
      · simp only [hex, decide_False, Bool.false_eq_true, ↓reduceIte]
        rw [List.countP_eq_zero]
        intro pc hpc hpre
        exact hex ⟨pc, hpc, by simpa using hpre⟩
  refine ⟨?_, ?_, ?_⟩
  · rw [hsum, hsup a ha]
    apply List.countP_mono_left
    intro s _ hs
    simp only [decide_eq_true_eq] at hs ⊢
    obtain ⟨pc, _, hpre⟩ := hs
    exact (List.prefix_append _ _).trans hpre
  · intro pc hpc
    refine ⟨(hchild pc hpc).1, ?_⟩
    rw [hsup pc.2 (hchild pc hpc).1, hsup a ha, (hchild pc hpc).2]
    apply List.countP_mono_left
    intro s _ hs
    simp only [decide_eq_true_eq] at hs ⊢
    exact (List.prefix_append _ _).trans hs
  · intro h0
    rw [hsup a ha]
    obtain ⟨b, _, _, hpath⟩ := h.parent a h0 ha
    rcases (h.nodes (paths a)).1 ⟨a, ha, rfl⟩ with he | ⟨s, hs, hpre⟩
    · rw [hpath] at he
      simp at he
    · exact List.countP_pos_iff.2 ⟨s, hs, by simpa using hpre⟩

/-- C23 as amended, at the tree with the subjects `{A, B, C}` and `{A, C}` and the node
`A` at address `1`: it has support `2`, and its children `B` and `C` have support `1`
each. -/
theorem Insert_support_invariant_witness :
    ((abcdTree.insertAll [subjectABC, subjectAC]).heap 1).Support = 2 ∧
    ((abcdTree.insertAll [subjectABC, subjectAC]).heap 1).Children = [(2, 2), (3, 4)] ∧
    (((abcdTree.insertAll [subjectABC, subjectAC]).heap 1).Children.map
        (fun pc => ((abcdTree.insertAll [subjectABC, subjectAC]).heap pc.2).Support)).sum
      ≤ ((abcdTree.insertAll [subjectABC, subjectAC]).heap 1).Support ∧
    (∀ pc ∈ ((abcdTree.insertAll [subjectABC, subjectAC]).heap 1).Children,
      pc.2 < (abcdTree.insertAll [subjectABC, subjectAC]).size ∧
      ((abcdTree.insertAll [subjectABC, subjectAC]).heap pc.2).Support
        ≤ ((abcdTree.insertAll [subjectABC, subjectAC]).heap 1).Support) ∧
    (0 < 1 → 1 ≤ ((abcdTree.insertAll [subjectABC, subjectAC]).heap 1).Support) :=
  ⟨by decide, by decide,
   Insert_support_invariant abcdTree (by decide) [subjectABC, subjectAC] (by decide) 1
     (by decide)⟩

theorem wrapSubjects_node (π : List Nat) (hπ : π <+: [1, 3]) :
    (some π, ((if decide (π <+: iList.sort abcdTree.PropMap subjectA.Properties) = true
        then 2 ^ 32 - 1 else 0)
      + (if decide (π <+: iList.sort abcdTree.PropMap subjectAC.Properties) = true
        then 1 else 0)) % 2 ^ 32) ∈ (abcdTree.insertAll wrapSubjects).nodeList := by
  have hfresh : abcdTree.IsFresh := by decide
  obtain ⟨paths, h, _, _⟩ := SchemaTree.insertAll_inv hfresh wrapSubjects
  rw [h.mem_nodeList]
  refine ⟨π, Or.inr ⟨[1, 3], ?_, hπ⟩, ?_⟩
  · rw [List.append_nil, List.mem_reverse, List.mem_map]
    exact ⟨subjectAC, List.mem_append_right _ (List.mem_singleton_self _), by decide⟩
  · rw [List.append_nil, (List.reverse_perm _).countP_eq, List.countP_map,
      wrapSubjects_countP]
    rfl

/-- C23, the claim as stated fails: after `2 ^ 32` inserts, all with `A` and the last
one also with `C`, the node `A` below the root has the support `0`, and its child `C` has
the support `1`. -/
theorem Insert_child_support_exceeds :
    (some [1], 0) ∈ (abcdTree.insertAll wrapSubjects).nodeList ∧
    (some [1, 3], 1) ∈ (abcdTree.insertAll wrapSubjects).nodeList := by
  constructor
  · have h := wrapSubjects_node [1] (by decide)
    have e : ((if decide ([1] <+: iList.sort abcdTree.PropMap subjectA.Properties) = true
          then 2 ^ 32 - 1 else 0)
        + (if decide ([1] <+: iList.sort abcdTree.PropMap subjectAC.Properties) = true
          then 1 else 0)) % 2 ^ 32 = 0 := by decide
    rw [e] at h
    exact h
  · have h := wrapSubjects_node [1, 3] (by decide)
    have e : ((if decide ([1, 3] <+: iList.sort abcdTree.PropMap subjectA.Properties) = true
          then 2 ^ 32 - 1 else 0)
        + (if decide ([1, 3] <+: iList.sort abcdTree.PropMap subjectAC.Properties) = true
          then 1 else 0)) % 2 ^ 32 = 1 := by decide
    rw [e] at h
    exact h

theorem SchemaTree.insertStep_frame (t : SchemaTree) (cur p : Nat) :
    t.size ≤ (SchemaTree.insertStep (t, cur) p).1.size ∧
    (SchemaTree.insertStep (t, cur) p).1.size ≤ t.size + 1 ∧
    ∀ a, a < t.size →
      ((SchemaTree.insertStep (t, cur) p).1.heap a).ID = (t.heap a).ID ∧
      ((SchemaTree.insertStep (t, cur) p).1.heap a).parent = (t.heap a).parent := by
  cases hch : childFor (t.heap cur).Children p with
  | some c =>
    rw [SchemaTree.insertStep_found hch]
    refine ⟨Nat.le_refl _, Nat.le_succ _, fun a _ => ?_⟩
    rw [SchemaTree.incrementSupport_heap]
    exact ⟨rfl, rfl⟩
  | none =>
    simp only [SchemaTree.insertStep, SchemaTree.getOrCreateChild, hch,
      SchemaTree.incrementSupport_size]
    refine ⟨Nat.le_succ _, Nat.le_refl _, fun a ha => ?_⟩
    rw [SchemaTree.incrementSupport_heap]
    have han : a ≠ t.size := Nat.ne_of_lt ha
    by_cases hac : a = cur
    · subst hac
      simp [Function.update_same, Function.update_noteq han]
    · simp [Function.update_noteq hac, Function.update_noteq han]

theorem SchemaTree.walk_frame (L : List Nat) : ∀ (t : SchemaTree) (cur : Nat),
    t.size ≤ (L.foldl SchemaTree.insertStep (t, cur)).1.size ∧
    (L.foldl SchemaTree.insertStep (t, cur)).1.size ≤ t.size + L.length ∧
    ∀ a, a < t.size →
      ((L.foldl SchemaTree.insertStep (t, cur)).1.heap a).ID = (t.heap a).ID ∧
      ((L.foldl SchemaTree.insertStep (t, cur)).1.heap a).parent = (t.heap a).parent := by
  induction L with
  | nil => intro t cur; exact ⟨Nat.le_refl _, Nat.le_refl _, fun a _ => ⟨rfl, rfl⟩⟩
  | cons p L ih =>
    intro t cur
    obtain ⟨h1, h2, h3⟩ := SchemaTree.insertStep_frame t cur p
    obtain ⟨g1, g2, g3⟩ := ih (SchemaTree.insertStep (t, cur) p).1
      (SchemaTree.insertStep (t, cur) p).2
    rw [List.foldl_cons, List.length_cons]
    rw [show ((SchemaTree.insertStep (t, cur) p).1, (SchemaTree.insertStep (t, cur) p).2)
      = SchemaTree.insertStep (t, cur) p from rfl] at g1 g2 g3
    refine ⟨h1.trans g1, by omega, fun a ha => ?_⟩
    obtain ⟨e1, e2⟩ := g3 a (by omega)
    exact ⟨e1.trans (h3 a ha).1, e2.trans (h3 a ha).2⟩

theorem SchemaTree.Insert_frame (t : SchemaTree) (e : SubjectSummary) :
    t.size ≤ (t.Insert e).size ∧ (t.Insert e).size ≤ t.size + e.Properties.length ∧
    ∀ a, a < t.size →
      ((t.Insert e).heap a).ID = (t.heap a).ID ∧
      ((t.Insert e).heap a).parent = (t.heap a).parent := by
  obtain ⟨h1, h2, h3⟩ := SchemaTree.walk_frame (iList.sort t.PropMap e.Properties)
    (t.incrementSupport 0) 0
  rw [(iList.sort_perm t.PropMap e.Properties).length_eq] at h2
  refine ⟨h1, h2, fun a ha => ?_⟩
  obtain ⟨e1, e2⟩ := h3 a ha
  rw [SchemaTree.incrementSupport_heap] at e1 e2
  exact ⟨e1, e2⟩

theorem TrieInv.paths_eq_of_frame {t t' : SchemaTree} {paths paths' : Nat → List Nat}
    {T T' : List (List Nat)} (h : TrieInv t paths T) (h' : TrieInv t' paths' T')
    (hsz : t.size ≤ t'.size)
    (hfr : ∀ a, a < t.size →
      (t'.heap a).ID = (t.heap a).ID ∧ (t'.heap a).parent = (t.heap a).parent) :
    ∀ a, a < t.size → paths' a = paths a := by
  intro a
  induction a using Nat.strong_induction_on with
  | _ a ih =>
    intro ha
    by_cases h0 : a = 0
    · subst h0; rw [h.root_path, h'.root_path]
    · obtain ⟨b, hb, hpar, hpath⟩ := h.parent a (by omega) ha
      obtain ⟨b', hb', hpar', hpath'⟩ := h'.parent a (by omega) (by omega)
      rw [(hfr a ha).2, hpar] at hpar'
      have e : b = b' := Option.some.inj hpar'
      subst e
      rw [hpath', hpath, ih b hb (by omega), (hfr a ha).1]

theorem TrieInv.follow_iff {t : SchemaTree} {paths : Nat → List Nat} {T : List (List Nat)}
    (h : TrieInv t paths T) (π : List Nat) : ∀ (b : Nat), b < t.size → ∀ (c : Nat),
    t.follow b π = some c ↔ (c < t.size ∧ paths c = paths b ++ π) := by
  induction π with
  | nil =>
    intro b hb c
    simp only [SchemaTree.follow, Option.some.injEq, List.append_nil]
    constructor
    · rintro rfl; exact ⟨hb, rfl⟩
    · rintro ⟨hc, e⟩; exact (h.inj c b hc hb e).symm
  | cons p π ih =>
    intro b hb c
    simp only [SchemaTree.follow]
    cases hch : childFor (t.heap b).Children p with
    | some d =>
      obtain ⟨hd, hdp⟩ := (h.children b hb p d).1 hch
      simp only [Option.some_bind]
      rw [ih d hd c, hdp, List.append_assoc, List.singleton_append]
    | none =>
      simp only [Option.none_bind]
      refine ⟨fun e => Option.noConfusion e, ?_⟩
      rintro ⟨hc, e⟩
      exfalso
      have hpre : paths b ++ [p] <+: paths c := by
        rw [e]
        exact ⟨π, by simp⟩
      have hne : paths c ≠ [] := by rw [e]; simp
      rcases (h.nodes (paths c)).1 ⟨c, hc, rfl⟩ with he | ⟨s, hs, hps⟩
      · exact hne he
      · obtain ⟨d, hd, hdp⟩ := (h.nodes (paths b ++ [p])).2 (Or.inr ⟨s, hs, hpre.trans hps⟩)
        have := (h.children b hb p d).2 ⟨hd, hdp⟩
        rw [hch] at this
        exact Option.noConfusion this

/-- C25, as amended. For a tree `t` reached from a fresh tree by `Insert` calls and a
subject `e`, with `L` the properties of `e` in the order of `iList.sort`: no node is
removed (the old nodes keep address, property and parent) and at most `|e.Properties|`
nodes are created; every first part `π` of `L`, the empty one for the root included,
leads from the root to a node of the new tree, which, when it is an old node, was at the
same place before and has its support incremented in `uint32` arithmetic (by exactly `1`
when fewer than `2 ^ 32 - 1` subjects were inserted before), and, when it is new, was
missing before and has support `1`; every other node is an old node and keeps its
support. -/
theorem Insert_effect (t0 : SchemaTree) (hfresh : t0.IsFresh)
    (subjects : List SubjectSummary) (t : SchemaTree) (ht : t = t0.insertAll subjects)
    (e : SubjectSummary) :
    (t.size ≤ (t.Insert e).size ∧ (t.Insert e).size ≤ t.size + e.Properties.length ∧
      ∀ a, a < t.size →
        ((t.Insert e).heap a).ID = (t.heap a).ID ∧
        ((t.Insert e).heap a).parent = (t.heap a).parent) ∧
    (∀ π, π <+: iList.sort t.PropMap e.Properties →
      ∃ a, (t.Insert e).follow 0 π = some a ∧ a < (t.Insert e).size ∧
        (a < t.size → t.follow 0 π = some a ∧
          ((t.Insert e).heap a).Support = uint32 ((t.heap a).Support + 1) ∧
          (subjects.length + 1 < 2 ^ 32 →
            ((t.Insert e).heap a).Support = (t.heap a).Support + 1)) ∧
        (t.size ≤ a → t.follow 0 π = none ∧ ((t.Insert e).heap a).Support = 1)) ∧
    (∀ a, a < (t.Insert e).size →
      (∀ π, π <+: iList.sort t.PropMap e.Properties → (t.Insert e).follow 0 π ≠ some a) →
      a < t.size ∧ ((t.Insert e).heap a).Support = (t.heap a).Support) := by
  subst ht
  obtain ⟨paths, h, _, _⟩ := SchemaTree.insertAll_inv hfresh subjects
  generalize hT : (subjects.map (fun e => iList.sort t0.PropMap e.Properties)).reverse ++ []
    = T at h
  have hTl : T.length = subjects.length := by rw [← hT]; simp
  generalize t0.insertAll subjects = t at h ⊢
  obtain ⟨paths', h'⟩ := h.Insert e
  obtain ⟨hsz, hsz', hfr⟩ := SchemaTree.Insert_frame t e
  have hold := h.paths_eq_of_frame h' hsz hfr
  generalize hL : iList.sort t.PropMap e.Properties = L at h' ⊢
  generalize t.Insert e = t' at h' hsz hsz' hfr hold ⊢
  -- a node of the new tree whose path the old tree has is an old node
  have hisold : ∀ a, a < t'.size → (∃ b, b < t.size ∧ paths b = paths' a) → a < t.size := by
    rintro a ha ⟨b, hb, e⟩
    have : a = b := h'.inj a b ha (by omega) (by rw [hold b hb, e])
    omega
  have hcount : ∀ π, (L :: T).countP (fun s => decide (π <+: s))
      = T.countP (fun s => decide (π <+: s)) + if π <+: L then 1 else 0 := by
    intro π
    rw [List.countP_cons]
    by_cases hp : π <+: L <;> simp [hp]
  refine ⟨⟨hsz, hsz', hfr⟩, ?_, ?_⟩
  · intro π hπ
    obtain ⟨a, ha, hpa⟩ := (h'.nodes π).2 (Or.inr ⟨L, List.mem_cons_self _ _, hπ⟩)
    have hf' : t'.follow 0 π = some a :=
      (h'.follow_iff π 0 h'.size_pos a).2 ⟨ha, by rw [hpa, h'.root_path, List.nil_append]⟩
    refine ⟨a, hf', ha, ?_, ?_⟩
    · intro hat
      have hpa0 : paths a = π := by rw [← hold a hat, hpa]
      refine ⟨(h.follow_iff π 0 h.size_pos a).2
        ⟨hat, by rw [hpa0, h.root_path, List.nil_append]⟩, ?_, ?_⟩
      · rw [h'.support a ha, h.support a hat, hpa, hpa0, hcount, if_pos hπ]
        simp only [uint32, Nat.mod_add_mod]
      · intro hn
        have hle : T.countP (fun s => decide (π <+: s)) ≤ T.length := List.countP_le_length _
        rw [h'.support a ha, h.support a hat, hpa, hpa0, hcount, if_pos hπ,
          Nat.mod_eq_of_lt (by omega), Nat.mod_eq_of_lt (by omega)]
    · intro hat
      have hnot : ¬ ∃ b, b < t.size ∧ paths b = π := by
        rintro ⟨b, hb, e⟩
        have := hisold a ha ⟨b, hb, by rw [e, hpa]⟩
        omega
      constructor
      · cases hf : t.follow 0 π with
        | none => rfl
        | some b =>
          obtain ⟨hb, e⟩ := (h.follow_iff π 0 h.size_pos b).1 hf
          rw [h.root_path, List.nil_append] at e
          exact absurd ⟨b, hb, e⟩ hnot
      · have hz : T.countP (fun s => decide (π <+: s)) = 0 := by
          rw [List.countP_eq_zero]
          intro s hs hpre
          exact hnot ((h.nodes π).2 (Or.inr ⟨s, hs, by simpa using hpre⟩))
        rw [h'.support a ha, hpa, hcount, if_pos hπ, hz]
        rfl
  · intro a ha hoff
    have hnpre : ¬ paths' a <+: L := by
      intro hpre
      exact hoff _ hpre ((h'.follow_iff _ 0 h'.size_pos a).2
        ⟨ha, by rw [h'.root_path, List.nil_append]⟩)
    have hat : a < t.size := by
      rcases (h'.nodes (paths' a)).1 ⟨a, ha, rfl⟩ with he | ⟨s, hs, hps⟩
      · exact absurd (he ▸ List.nil_prefix) hnpre
      · rcases List.mem_cons.1 hs with rfl | hsT
        · exact absurd hps hnpre
        · exact hisold a ha ((h.nodes (paths' a)).2 (Or.inr ⟨s, hsT, hps⟩))
    refine ⟨hat, ?_⟩
    rw [h'.support a ha, h.support a hat, hcount, if_neg hnpre, hold a hat, Nat.add_zero]

/-- C25 as amended, at the tree with the subject `{A, B, C}` and the insert of `{A, C}`:
the path `A`, `C` was missing and leads to a new node, with support `1`, and the node
`A` on the way, at address `1`, goes from support `1` to `2`. -/
theorem Insert_effect_witness :
    abcdTree.IsFresh ∧
    (abcdTree.insertAll [subjectABC]).follow 0 [1, 3] = none ∧
    (∃ a, ((abcdTree.insertAll [subjectABC]).Insert subjectAC).follow 0 [1, 3] = some a ∧
      (abcdTree.insertAll [subjectABC]).size ≤ a ∧
      (((abcdTree.insertAll [subjectABC]).Insert subjectAC).heap a).Support = 1) ∧
    (((abcdTree.insertAll [subjectABC]).Insert subjectAC).heap 1).Support
      = ((abcdTree.insertAll [subjectABC]).heap 1).Support + 1 := by
  obtain ⟨_, hpath, _⟩ := Insert_effect abcdTree (by decide) [subjectABC] _ rfl subjectAC
  obtain ⟨a, hf, _, _, hnew⟩ := hpath [1, 3] (by decide)
  obtain ⟨b, hfb, _, hold, _⟩ := hpath [1] (by decide)
  have h4 : ((abcdTree.insertAll [subjectABC]).Insert subjectAC).follow 0 [1, 3] = some 4 := by
    decide
  have h1 : ((abcdTree.insertAll [subjectABC]).Insert subjectAC).follow 0 [1] = some 1 := by
    decide
  have ea : a = 4 := by rw [hf] at h4; exact Option.some.inj h4
  have eb : b = 1 := by rw [hfb] at h1; exact Option.some.inj h1
  subst ea
  subst eb
  exact ⟨by decide, (hnew (by decide)).1, ⟨4, hf, by decide, (hnew (by decide)).2⟩,
    (hold (by decide)).2.2 (by decide)⟩

/-- C25, the claim as stated fails: on the tree with `2 ^ 32 - 1` subjects `{A}`, whose
root has the support `2 ^ 32 - 1`, one more `Insert` of `{A}` leaves the root with the
support `0`. -/
theorem Insert_support_wraps :
    (abcdTree.insertAll (List.replicate (2 ^ 32 - 1) subjectA)).Root.Support = 2 ^ 32 - 1 ∧
    ((abcdTree.insertAll (List.replicate (2 ^ 32 - 1) subjectA)).Insert subjectA).Root.Support
      = 0 := by
  constructor
  · rw [(Support_empty_count_aux abcdTree (by decide) _).2, List.length_replicate]
    decide
  · have e : (abcdTree.insertAll (List.replicate (2 ^ 32 - 1) subjectA)).Insert subjectA
        = abcdTree.insertAll (List.replicate (2 ^ 32 - 1) subjectA ++ [subjectA]) := by
      simp only [SchemaTree.insertAll, List.foldl_append, List.foldl_cons, List.foldl_nil]
    rw [e, (Support_empty_count_aux abcdTree (by decide) _).2, List.length_append,
      List.length_replicate]
    decide

theorem updateSortOrderWith_counted (t : SchemaTree) {order : List Nat}
    (hperm : order.Perm (List.range t.PropMap.length)) :
    (t.updateSortOrderWith order).PropMap.map IItem.counted = t.PropMap.map IItem.counted := by
  obtain ⟨hlen, hspec⟩ := updateSortOrderWith_spec t hperm
  have hL : (sortSlice (itemLess t.PropMap) order).Perm (List.range t.PropMap.length) :=
    (sortSlice_perm _ _).trans hperm
  apply List.ext_getElem
  · simp only [List.length_map]
    exact hlen
  · intro i h1 h2
    have hi : i < t.PropMap.length := by simpa using h2
    have hi' : i < (t.updateSortOrderWith order).PropMap.length := by simpa using h1
    obtain ⟨j, hj, hji⟩ := List.getElem_of_mem (hL.mem_iff.2 (List.mem_range.2 hi))
    have := hspec j hj
    rw [hji] at this
    simp only [List.getElem_map]
    rw [propMap.getElem_eq_item _ hi', propMap.getElem_eq_item _ hi, this]
    rfl

theorem itemLess_of_counted {m m' : propMap}
    (h : m'.map IItem.counted = m.map IItem.counted) : itemLess m' = itemLess m := by
  have hlen : m'.length = m.length := by simpa using congrArg List.length h
  have hitem : ∀ p, (propMap.item m' p).counted = (propMap.item m p).counted := by
    intro p
    by_cases hp : p < m.length
    · exact propMap.item_of_map_eq IItem.counted h hp
    · have hp' : ¬ p < m'.length := by rw [hlen]; exact hp
      simp only [propMap.item]
      rw [List.getD_eq_default _ _ (by omega), List.getD_eq_default _ _ (by omega)]
  funext i j
  have hi := hitem i
  have hj := hitem j
  simp only [IItem.counted, Prod.mk.injEq] at hi hj
  simp only [itemLess, hi.1, hi.2.1, hj.1, hj.2.1]

/-- C31. On a dictionary whose records have pairwise distinct IRIs, as the keys of a map
are, a second call of `updateSortOrder` changes nothing, whatever the order in which
either call iterates the map: the tree after the two calls is the tree after the first,
so every record keeps the `SortOrder` that the first call assigned; and the second pass
on a tree that `updateSortOrder` has just left is the run of the reader with the inserter
on that very tree. -/
theorem updateSortOrder_idempotent (t : SchemaTree) (hiri : (t.PropMap.map (·.Str)).Nodup)
    (order order' : List Nat) (hperm : order.Perm (List.range t.PropMap.length))
    (hperm' : order'.Perm (List.range t.PropMap.length)) :
    (t.updateSortOrderWith order).updateSortOrderWith order' = t.updateSortOrderWith order ∧
    t.updateSortOrder.updateSortOrder = t.updateSortOrder ∧
    (∀ p, (propMap.item ((t.updateSortOrderWith order).updateSortOrderWith order').PropMap p).SortOrder
      = (propMap.item (t.updateSortOrderWith order).PropMap p).SortOrder) ∧
    ∀ corpus firstN, t.updateSortOrder.secondPass corpus firstN
      = SubjectSummaryReader corpus t.updateSortOrder SchemaTree.Insert firstN := by
  have key : ∀ (o o' : List Nat), o.Perm (List.range t.PropMap.length) →
      o'.Perm (List.range t.PropMap.length) →
      (t.updateSortOrderWith o).updateSortOrderWith o' = t.updateSortOrderWith o := by
    intro o o' ho ho'
    obtain ⟨hlen, hspec⟩ := updateSortOrderWith_spec t ho
    have ho1 : o'.Perm (List.range (t.updateSortOrderWith o).PropMap.length) := by
      rw [hlen]; exact ho'
    obtain ⟨hlen2, hspec2⟩ := updateSortOrderWith_spec (t.updateSortOrderWith o) ho1
    have hless : itemLess (t.updateSortOrderWith o).PropMap = itemLess t.PropMap :=
      itemLess_of_counted (updateSortOrderWith_counted t ho)
    have hsame : sortSlice (itemLess (t.updateSortOrderWith o).PropMap) o'
        = sortSlice (itemLess t.PropMap) o := by
      rw [hless, sortSlice_itemLess_unique hiri ho', sortSlice_itemLess_unique hiri ho]
    have hL : (sortSlice (itemLess t.PropMap) o).Perm (List.range t.PropMap.length) :=
      (sortSlice_perm _ _).trans ho
    have hmap : ((t.updateSortOrderWith o).updateSortOrderWith o').PropMap
        = (t.updateSortOrderWith o).PropMap := by
      apply List.ext_getElem hlen2
      intro i h1 h2
      have hi : i < t.PropMap.length := by rw [← hlen]; exact h2
      obtain ⟨j, hj, hji⟩ := List.getElem_of_mem (hL.mem_iff.2 (List.mem_range.2 hi))
      have hj2 : j < (sortSlice (itemLess (t.updateSortOrderWith o).PropMap) o').length := by
        rw [hsame]; exact hj
      have e2 := hspec2 j hj2
      have e1 := hspec j hj
      have hidx : (sortSlice (itemLess (t.updateSortOrderWith o).PropMap) o')[j] = i := by
        simp only [hsame]; exact hji
      rw [hidx] at e2
      rw [hji] at e1
      rw [propMap.getElem_eq_item _ h1, propMap.getElem_eq_item _ h2, e2, e1]
    show ({ t.updateSortOrderWith o with
      PropMap := ((t.updateSortOrderWith o).updateSortOrderWith o').PropMap } : SchemaTree)
      = t.updateSortOrderWith o
    rw [hmap]
  have hidem : t.updateSortOrder.updateSortOrder = t.updateSortOrder := by
    have hlen := (updateSortOrderWith_spec t (List.Perm.refl (List.range t.PropMap.length))).1
    show t.updateSortOrder.updateSortOrderWith (List.range t.updateSortOrder.PropMap.length)
      = t.updateSortOrder
    have hlen' : t.updateSortOrder.PropMap.length = t.PropMap.length := hlen
    rw [hlen']
    exact key _ _ (List.Perm.refl _) (List.Perm.refl _)
  refine ⟨key order order' hperm hperm', hidem,
    fun p => by rw [key order order' hperm hperm'], ?_⟩
  intro corpus firstN
  unfold SchemaTree.secondPass
  rw [hidem]

/-- C31, at the dictionary with the total counts `root = 0`, `A = 6`, `B = 3`, `C = 1`:
the first call, iterating in the order `B`, `root`, `C`, `A`, assigns the sort orders
`3`, `0`, `1`, `2`, and a second call, iterating in the order `C`, `A`, `root`, `B`,
leaves the tree as it is. -/
theorem updateSortOrder_idempotent_witness :
    (countedTree.updateSortOrderWith [2, 0, 3, 1]).PropMap.map (·.SortOrder) = [3, 0, 1, 2] ∧
    (countedTree.updateSortOrderWith [2, 0, 3, 1]).updateSortOrderWith [3, 1, 0, 2]
      = countedTree.updateSortOrderWith [2, 0, 3, 1] ∧
    countedTree.updateSortOrder.updateSortOrder = countedTree.updateSortOrder :=
  ⟨by decide,
   (updateSortOrder_idempotent countedTree (by decide) [2, 0, 3, 1] [3, 1, 0, 2] (by decide)
     (by decide)).1,
   (updateSortOrder_idempotent countedTree (by decide) [2, 0, 3, 1] [3, 1, 0, 2] (by decide)
     (by decide)).2.1⟩

theorem supportLoopOn_mem (contains : SupportMem → Nat → SupportMem × Option Bool)
    (hquery : ∀ mem term, (contains mem term).1 = mem) :
    ∀ (fuel : Nat) (mem : SupportMem) (term : Option Nat) (support : Nat),
      (supportLoopOn contains fuel mem term support).1 = mem := by
  intro fuel
  induction fuel with
  | zero =>
    intro mem term support
    cases term with
    | none => rfl
    | some a => rfl
  | succ fuel ih =>
    intro mem term support
    cases term with
    | none => rfl
    | some a =>
      simp only [supportLoopOn]
      cases hc : (contains mem a).2 with
      | none => exact hquery mem a
      | some b =>
        cases b with
        | true => simp only [ih, hquery]
        | false => simp only [ih, hquery]

theorem supportLoopOn_value (tree : SchemaTree) (properties : IList) :
    ∀ (fuel : Nat) (term : Option Nat) (support : Nat),
      (supportLoopOn containsQuery fuel ⟨tree, properties⟩ term support).2
        = tree.supportLoop properties fuel term support := by
  intro fuel
  induction fuel with
  | zero =>
    intro term support
    cases term with
    | none => rfl
    | some a => rfl
  | succ fuel ih =>
    intro term support
    cases term with
    | none => rfl
    | some a =>
      simp only [supportLoopOn, SchemaTree.supportLoop, containsQuery]
      cases hc : tree.prefixContains a properties with
      | none => rfl
      | some b =>
        cases b with
        | true => exact ih _ _
        | false => exact ih _ _

theorem SchemaTree.SupportRun_value (tree : SchemaTree) (fuel : Nat) (properties : IList) :
    (tree.SupportRun containsQuery fuel properties).2 = tree.SupportWithin fuel properties := by
  unfold SchemaTree.SupportRun SchemaTree.SupportWithin
  by_cases h : properties.length = 0
  · simp only [h, ↓reduceIte]
  · simp only [h, ↓reduceIte]
    exact supportLoopOn_value tree _ fuel _ 0

/-- C32. Whatever the tree, the list `Q` and the bound on the chain walk, and for every
`prefixContains` that leaves the memory as it is: after a call `Support(Q)` the tree is
the tree before the call, with every node and every record unchanged, and the caller's
list holds the elements of `Q`, the same number of times each, in ascending
`SortOrder`: it is `Q` as `Sort` orders it. -/
theorem Support_read_only (contains : SupportMem → Nat → SupportMem × Option Bool)
    (hquery : ∀ mem term, (contains mem term).1 = mem)
    (tree : SchemaTree) (fuel : Nat) (Q : IList) :
    (tree.SupportRun contains fuel Q).1.tree = tree ∧
    (tree.SupportRun contains fuel Q).1.properties = iList.sort tree.PropMap Q ∧
    (tree.SupportRun contains fuel Q).1.properties.Perm Q ∧
    (tree.SupportRun contains fuel Q).1.properties.Pairwise
      (fun a b => tree.PropMap.sortOrder a ≤ tree.PropMap.sortOrder b) := by
  have hmem : (tree.SupportRun contains fuel Q).1 = ⟨tree, iList.sort tree.PropMap Q⟩ := by
    unfold SchemaTree.SupportRun
    by_cases h : Q.length = 0
    · have hQ : Q = [] := List.length_eq_zero.1 h
      subst hQ
      simp [iList.sort, sortSlice]
    · simp only [h, ↓reduceIte]
      exact supportLoopOn_mem contains hquery _ _ _ _
  rw [hmem]
  exact ⟨rfl, rfl, iList.sort_perm _ _, iList.sort_sorted _ _⟩

/-- C32, at the tree with the subjects `{A, B, C}` and `{A, C}` and the query `C`, `A`,
with the `prefixContains` of the tree model: the call returns `2`, leaves the tree as it
is, and leaves the caller's list as `A`, `C`. -/
theorem Support_read_only_witness :
    (∀ mem term, (containsQuery mem term).1 = mem) ∧
    ((abcdTree.insertAll [subjectABC, subjectAC]).SupportRun containsQuery
      (abcdTree.insertAll [subjectABC, subjectAC]).size [3, 1]).2 = some 2 ∧
    ((abcdTree.insertAll [subjectABC, subjectAC]).SupportRun containsQuery
      (abcdTree.insertAll [subjectABC, subjectAC]).size [3, 1]).1.tree
      = abcdTree.insertAll [subjectABC, subjectAC] ∧
    ((abcdTree.insertAll [subjectABC, subjectAC]).SupportRun containsQuery
      (abcdTree.insertAll [subjectABC, subjectAC]).size [3, 1]).1.properties = [1, 3] := by
  have h := Support_read_only containsQuery (fun _ _ => rfl)
    (abcdTree.insertAll [subjectABC, subjectAC])
    (abcdTree.insertAll [subjectABC, subjectAC]).size [3, 1]
  refine ⟨fun _ _ => rfl, ?_, h.1, ?_⟩
  · rw [SchemaTree.SupportRun_value]
    decide
  · rw [h.2.1]
    decide

/-- C33, the code when the file of the creater configuration cannot be read, whatever
the error, the decoder and the writer: `readCreaterConfig` returns the `nil` pointer next
to the error, `createConfigFiles` does not look at the error and reads
`createrConfig.MaxThreshold` through the `nil` pointer in the condition of its first
loop: the run ends in a `nil` dereference, no error is returned and no file is written. -/
theorem createConfigFiles_unreadable_faults {F : Type} (ops : Float32Ops F)
    (unmarshal : String → creater F × Option String)
    (write : String → Configuration F → Option String) (creater err : String) :
    readCreaterConfig (fun _ => Except.error err) unmarshal creater = (none, some err) ∧
    (createConfigFiles ops (fun _ => Except.error err) unmarshal write creater).files = [] ∧
    (createConfigFiles ops (fun _ => Except.error err) unmarshal write creater).result
      = Except.error Abort.nilDereference :=
  ⟨rfl, rfl, rfl⟩
